import Mathlib

/-!
# PyRBD++ core: a verification development

Shallow embedding of the boolean-to-disjoint transformation engine of
`pyrbd_plusplus/_core` (`common.cpp`, `pathset.cpp`, `mcs.cpp`, `sdp.cpp`,
`utils.cpp`) and proofs about it.

Modelling conventions.
* `NodeID = int` is embedded as `Int`; node identifiers are far from the
  limits of `int`, and negating `INT_MIN` lies outside the model.
* `std::vector` is embedded as `List`.
* `double` is embedded as `ℚ`: every statement is about exact arithmetic.
* `while` loops whose termination is not structural take a fuel argument and
  return `none` when it runs out.
* `std::sort` leaves the order of elements that compare equivalent
  unspecified. `eliminateSDPSet` and `sortPathSet` embed it as a sort that
  keeps that order; `eliminateSDPSetWith` and `sortPathSetWith` take the sort
  as a parameter, and `std.sort` is the introsort of libstdc++, which changes
  that order from 17 elements on. What is stated about the order of
  equivalent elements is stated of the parametrised embeddings.
-/

namespace pyrbdpp

/-! ## Definitions -/

/-! ### The pairwise disjointing primitive (common.cpp) -/

/-- Node identifier (`using NodeID = int`). -/
abbrev NodeID := Int

/-- Term, a conjunction of literals (`using Set = std::vector<NodeID>`, with
`NodeID = int`). -/
abbrev Set := List Int

/-- List of terms (`using DisjointSets = std::vector<Set>`). -/
abbrev DisjointSets := List Set

/-- List of terms (`using ProbaSets = std::vector<Set>`). -/
abbrev ProbaSets := List Set

/-- First loop of `makeDisjointSet` (common.cpp lines 13-23), walking `set1`
with the residual list `RC` built so far: `none` is the early `return {set2}`
taken when the negation of an element of `set1` is found in `set2`. -/
def makeDisjointSet.scan (set2 : Set) : Set → Set → Option Set
  | [], RC => some RC
  | elem :: rest, RC =>
    if (-elem) ∈ set2 then none
    else if elem ∉ set2 then makeDisjointSet.scan set2 rest (RC ++ [elem])
    else makeDisjointSet.scan set2 rest RC

/-- Second loop of `makeDisjointSet` (common.cpp lines 35-43) over the remaining
elements of `RC`: push `-RC[i]` on `set2`, save a copy of `set2` in `result`,
then flip the sign of the last element of `set2` back. -/
def makeDisjointSet.emit : Set → Set → DisjointSets → DisjointSets
  | [], _, result => result
  | r :: RC, set2, result =>
    makeDisjointSet.emit RC (set2 ++ [-(-r)]) (result ++ [set2 ++ [-r]])

/-- Embedding of `makeDisjointSet(set1, set2)` (common.cpp lines 6-46). -/
def makeDisjointSet (set1 set2 : Set) : DisjointSets :=
  match makeDisjointSet.scan set2 set1 [] with
  | none => [set2]
  | some RC => if RC.isEmpty then [] else makeDisjointSet.emit RC set2 []

/-- The residual list `RC = A \ B` of the specification: the literals of `A`
absent from `B`, in the order of `A`. -/
def residual (A B : Set) : Set := A.filter (fun x => decide (x ∉ B))

/-- Truth value of a literal under an assignment of the components:
a positive literal `i` says component `i` is up, a negative literal `-i` says
it is down. -/
def litSat (σ : Nat → Bool) (l : Int) : Bool :=
  if 0 < l then σ l.natAbs else !(σ l.natAbs)

/-- A term is satisfied when all of its literals are. -/
def termSat (σ : Nat → Bool) (T : Set) : Bool := T.all (litSat σ)

/-- A list of terms is satisfied when one of its terms is. -/
def anySat (σ : Nat → Bool) (L : List Set) : Bool := L.any (termSat σ)

/-- Well-formed term (invariant 1 of the data model): no `0`, no repeated
literal, no pair `+i`/`-i`. -/
def WellFormed (T : Set) : Prop :=
  (0 : Int) ∉ T ∧ T.Nodup ∧ ∀ x ∈ T, -x ∉ T

instance (T : Set) : Decidable (WellFormed T) := by
  unfold WellFormed; infer_instance

/-- The terms written by the second loop of `makeDisjointSet`, as a recursion
on the residual list: the first residual literal is negated in the first
term and kept as it is in all later ones. -/
def disjointTerms : Set → Set → DisjointSets
  | _, [] => []
  | B, r :: rs => (B ++ [-r]) :: disjointTerms (B ++ [r]) rs

/-- Probability of a literal under the assignment `P` of up-probabilities:
`P(i)` for a positive literal, `1 - P(i)` for a negative one. -/
def litProb (P : Nat → ℚ) (l : Int) : ℚ :=
  if 0 < l then P l.natAbs else 1 - P l.natAbs

/-- Product of the literal probabilities of a term. -/
def termProb (P : Nat → ℚ) (T : Set) : ℚ := (T.map (litProb P)).prod

/-- Sum over a list of terms of the products of their literal probabilities. -/
def sumProb (P : Nat → ℚ) (L : List Set) : ℚ := (L.map (termProb P)).sum

/-! ### ProbabilityMap (common.hpp) -/

/-- Ways a lookup in a `ProbabilityMap` can fail: the `std::out_of_range`
thrown by `operator[]`, and a read past the end of one of its vectors (which
the C++ code does not guard against). -/
inductive LookupError where
  | outOfRange
  | invalidRead
  deriving DecidableEq, Repr

/-- Embedding of `class ProbabilityMap`: two dense arrays indexed by `|i|`. -/
structure ProbabilityMap where
  pos_array : List ℚ
  neg_array : List ℚ

/-- Embedding of `ProbabilityMap::operator[]` (common.hpp lines 55-73). The
message written to `std::cerr` for `i == 0` has no effect on the result and is
left out; a read outside a vector is reported as `invalidRead`. -/
def ProbabilityMap.get (pm : ProbabilityMap) (i : Int) : Except LookupError ℚ :=
  if i.natAbs > pm.pos_array.length then Except.error LookupError.outOfRange
  else if i > 0 then
    match pm.pos_array[i.toNat]? with
    | some p => Except.ok p
    | none => Except.error LookupError.invalidRead
  else
    match pm.neg_array[(-i).toNat]? with
    | some p => Except.ok p
    | none => Except.error LookupError.invalidRead

/-- The map stores `P i` and `1 - P i` for every id `1..n`. -/
def ProbabilityMap.Represents (pm : ProbabilityMap) (P : Nat → ℚ) (n : Nat) : Prop :=
  ∀ i, 1 ≤ i → i ≤ n → pm.pos_array[i]? = some (P i) ∧ pm.neg_array[i]? = some (1 - P i)

/-! ### Probability-set pipelines (pathset.cpp, mcs.cpp) -/

/-- Path sets (`using PathSets = std::vector<Set>`). -/
abbrev PathSets := List Set

/-- Cut sets (`using MinCutSets = std::vector<Set>`). -/
abbrev MinCutSets := List Set

/-- The `while` loop of `pathset::toProbaSet` (pathset.cpp lines 24-48), which is
also the loop of `mcs::toProbaSet` (mcs.cpp lines 34-58). One unit of fuel is
spent per pivot; `none` means the fuel ran out. -/
def toProbaSet.loop : Nat → List Set → ProbaSets → Option ProbaSets
  | _, [], probaSets => some probaSets
  | _, [set], probaSets => some (probaSets ++ [set])
  | 0, _ :: _ :: _, _ => none
  | fuel + 1, selectedSet :: set :: remainingSets, probaSets =>
    toProbaSet.loop fuel
      ((set :: remainingSets).flatMap (makeDisjointSet selectedSet))
      (probaSets ++ [selectedSet])

/-- Embedding of `pathset::toProbaSet(src, dst, pathSets)` (pathset.cpp lines 9-51). -/
def pathset.toProbaSet (fuel : Nat) (_src _dst : NodeID) (pathSets : PathSets) :
    Option ProbaSets :=
  if pathSets.isEmpty then some [] else toProbaSet.loop fuel pathSets []

/-- The inner loop of `probaSetToAvail`: `temp *= probaMap[num]` over a term. -/
def termAvail (probaMap : ProbabilityMap) (set : Set) : Except LookupError ℚ :=
  set.foldlM (fun temp num => do
    let p ← probaMap.get num
    pure (temp * p)) 1

/-- Embedding of `pathset::probaSetToAvail` (pathset.cpp lines 113-130). -/
def pathset.probaSetToAvail (_src _dst : NodeID) (probaMap : ProbabilityMap)
    (probaSets : ProbaSets) : Except LookupError ℚ :=
  probaSets.foldlM (fun avail set => do
    let temp ← termAvail probaMap set
    pure (avail + temp)) 0

/-- Embedding of `pathset::evalAvail` (pathset.cpp lines 132-139). -/
def pathset.evalAvail (fuel : Nat) (src dst : NodeID) (probaMap : ProbabilityMap)
    (pathSets : PathSets) : Option (Except LookupError ℚ) :=
  (pathset.toProbaSet fuel src dst pathSets).map
    (pathset.probaSetToAvail src dst probaMap)

/-- Embedding of `mcs::toProbaSet(src, dst, minCutSets)` (mcs.cpp lines 9-61):
strike out the cuts `{src}` and `{dst}`, negate every literal, run the loop. -/
def mcs.toProbaSet (fuel : Nat) (src dst : NodeID) (minCutSets : MinCutSets) :
    Option ProbaSets :=
  let minCutSets := (minCutSets.filter (fun c => decide (c ≠ [src]))).filter
    (fun c => decide (c ≠ [dst]))
  if minCutSets.isEmpty then some []
  else toProbaSet.loop fuel (minCutSets.map (fun set => set.map (fun x => -x))) []

/-- Embedding of `mcs::probaSetToAvail` (mcs.cpp lines 137-156). -/
def mcs.probaSetToAvail (src dst : NodeID) (probaMap : ProbabilityMap)
    (probaSet : ProbaSets) : Except LookupError ℚ := do
  let unavil ← probaSet.foldlM (fun unavil set => do
    let temp ← termAvail probaMap set
    pure (unavil + temp)) 0
  let avail := 1 - unavil
  let ps ← probaMap.get src
  let pd ← probaMap.get dst
  pure (ps * pd * avail)

/-- Embedding of `mcs::evalAvail` (mcs.cpp lines 159-166). -/
def mcs.evalAvail (fuel : Nat) (src dst : NodeID) (probaMap : ProbabilityMap)
    (minCutSets : MinCutSets) : Option (Except LookupError ℚ) :=
  (mcs.toProbaSet fuel src dst minCutSets).map (mcs.probaSetToAvail src dst probaMap)

/-! ### Exact probability of an event over independent components -/

/-- All states of the components `vars` (components outside `vars` are down),
each with its probability: the product over `vars` of `P v` for a component
that is up and `1 - P v` for one that is down. -/
def states (P : Nat → ℚ) : List Nat → List ((Nat → Bool) × ℚ)
  | [] => [(fun _ => false, 1)]
  | v :: vs =>
    (states P vs).map (fun s => (Function.update s.1 v true, P v * s.2)) ++
    (states P vs).map (fun s => (Function.update s.1 v false, (1 - P v) * s.2))

/-- Exact probability of the event `E` when the components `vars` are
independent: the sum of the probabilities of the states in which `E` holds. -/
def prob (P : Nat → ℚ) (vars : List Nat) (E : (Nat → Bool) → Bool) : ℚ :=
  ((states P vars).map (fun s => if E s.1 then s.2 else 0)).sum

/-- The component ids `1..n`. -/
def components (n : Nat) : List Nat := List.range' 1 n

/-! ### Termination measure of the pivot loop -/

/-- One pass of the pivot loop: `L'` is the work list that follows `L`. -/
def pivotStep (L' L : List Set) : Prop :=
  ∃ A B rest, L = A :: B :: rest ∧ L' = (B :: rest).flatMap (makeDisjointSet A)

/-- The components a term mentions. -/
def termVars (T : Set) : Finset Nat := (T.map Int.natAbs).toFinset

/-- Number of components of `V` a term leaves free. -/
def freeCount (V : Finset Nat) (T : Set) : Nat := (V \ termVars T).card

/-- The multiset of free counts of a work list. -/
def freeCounts (V : Finset Nat) (L : List Set) : Multiset Nat :=
  Multiset.ofList (L.map (freeCount V))

/-- Every literal of the term is a non-zero literal over the ids `1..n`. -/
def Covered (n : Nat) (T : Set) : Prop := ∀ l ∈ T, 1 ≤ l.natAbs ∧ l.natAbs ≤ n

/-! ### SDP terms and the helpers of utils.cpp -/

/-- Embedding of `class SDP` (common.hpp lines 96-167): a term with a
`complementary` flag. -/
structure SDP where
  is_complementary : Bool
  set : List Int
  deriving DecidableEq, Repr

/-- List of SDP terms, a product (`using SDPSets = std::vector<SDP>`). -/
abbrev SDPSets := List SDP

/-- Embedding of `SDP::remove`: erase every occurrence of `elem`. -/
def SDP.remove (s : SDP) (elem : Int) : SDP :=
  { s with set := s.set.filter (fun x => x != elem) }

/-- Embedding of `SDP::equals`. -/
def SDP.equals (a b : SDP) : Bool :=
  if a.is_complementary != b.is_complementary || a.set.length != b.set.length then false
  else a.set == b.set

/-- The loop of `std::set_intersection` on two ranges, with a step budget. -/
def set_intersection.go : Nat → List Int → List Int → List Int
  | 0, _, _ => []
  | _ + 1, [], _ => []
  | _ + 1, _ :: _, [] => []
  | fuel + 1, a :: as, b :: bs =>
    if a < b then set_intersection.go fuel as (b :: bs)
    else if b < a then set_intersection.go fuel (a :: as) bs
    else a :: set_intersection.go fuel as bs

/-- Embedding of `std::set_intersection(first1, last1, first2, last2, out)`;
every step advances in one of the ranges, so the budget is never exhausted. -/
def set_intersection (l1 l2 : List Int) : List Int :=
  set_intersection.go (l1.length + l2.length) l1 l2

/-- The loop of `std::set_difference` on two ranges, with a step budget. -/
def set_difference.go : Nat → List Int → List Int → List Int
  | 0, _, _ => []
  | _ + 1, [], _ => []
  | _ + 1, a :: as, [] => a :: as
  | fuel + 1, a :: as, b :: bs =>
    if a < b then a :: set_difference.go fuel as (b :: bs)
    else if b < a then set_difference.go fuel (a :: as) bs
    else set_difference.go fuel as bs

/-- Embedding of `std::set_difference(first1, last1, first2, last2, out)`. -/
def set_difference (l1 l2 : List Int) : List Int :=
  set_difference.go (l1.length + l2.length) l1 l2

/-- Embedding of `std::sort` on a vector of `int`. -/
def sortInts (l : List Int) : List Int := l.insertionSort (· ≤ ·)

/-- Embedding of `utils::isSubSet(sdp1, sdp2)` (utils.cpp lines 10-27). -/
def utils.isSubSet (sdp1 sdp2 : SDP) : Bool :=
  if (sdp1.is_complementary && sdp2.is_complementary) ||
      (!sdp1.is_complementary && !sdp2.is_complementary) then
    sdp1.set.all (fun elem => decide (elem ∈ sdp2.set))
  else false

/-- The double loop of `utils::hasCommonElement` over the complementary terms:
is there a pair `i < j` whose `std::set_intersection` is non-empty? -/
def utils.hasCommonElement.pairs : List SDP → Bool
  | [] => false
  | c :: rest =>
    rest.any (fun c' => !(set_intersection c.set c'.set).isEmpty) ||
      utils.hasCommonElement.pairs rest

/-- Embedding of `utils::hasCommonElement(sdps)` (utils.cpp lines 29-61). -/
def utils.hasCommonElement (sdps : List SDP) : Bool :=
  utils.hasCommonElement.pairs (sdps.filter (fun sdp => sdp.is_complementary))

/-! ### The SDP engine (sdp.cpp) -/

/-- The `std::sort` of `eliminateSDPSet` by the `complementary` flag,
non-complementary terms first, as a stable partition: one of the outcomes the
C++ standard allows, and the one of libstdc++ up to 16 terms. The standard
leaves the relative order of terms with the same flag unspecified and
libstdc++ changes it from 17 terms on; `eliminateSDPSetWith` takes the sort as
a parameter. -/
def sortByFlag (sdpSets : SDPSets) : SDPSets :=
  sdpSets.filter (fun a => !a.is_complementary) ++ sdpSets.filter (fun a => a.is_complementary)

/-- One iteration of the `for` loop of `eliminateSDPSet` (sdp.cpp lines 48-73);
the state is `(eliminatedElements, eliminatedSet)`. -/
def eliminateSDPSet.step (st : List Int × SDPSets) (sdp : SDP) : List Int × SDPSets :=
  if !sdp.is_complementary then
    (sortInts (st.1 ++ sdp.set), st.2 ++ [sdp])
  else
    let newSet := set_difference sdp.set st.1
    if !newSet.isEmpty then (st.1, st.2 ++ [SDP.mk true newSet]) else st

/-- Embedding of `sdp::eliminateSDPSet` (sdp.cpp lines 29-76). -/
def eliminateSDPSet (sdpSets : SDPSets) : SDPSets :=
  ((sortByFlag sdpSets).foldl eliminateSDPSet.step ([], [])).2

/-- Inner loop of `absorbSDPSet` (sdp.cpp lines 95-116) for the term
`currentSDP` over the terms after it and their `absorbed` marks: returns
`absorbed[i]` and the updated marks. -/
def absorbSDPSet.inner (currentSDP : SDP) : List SDP → List Bool → Bool × List Bool
  | otherSDP :: rest, absorbedJ :: marks =>
    if absorbedJ then
      let r := absorbSDPSet.inner currentSDP rest marks
      (r.1, absorbedJ :: r.2)
    else if currentSDP.equals otherSDP then
      let r := absorbSDPSet.inner currentSDP rest marks
      (r.1, true :: r.2)
    else if utils.isSubSet currentSDP otherSDP then
      let r := absorbSDPSet.inner currentSDP rest marks
      (r.1, true :: r.2)
    else if utils.isSubSet otherSDP currentSDP then
      (true, absorbedJ :: marks)
    else
      let r := absorbSDPSet.inner currentSDP rest marks
      (r.1, absorbedJ :: r.2)
  | _, marks => (false, marks)

/-- Outer loop of `absorbSDPSet` (sdp.cpp lines 88-122) over the remaining
terms and their `absorbed` marks. -/
def absorbSDPSet.outer : List SDP → List Bool → SDPSets
  | currentSDP :: rest, absorbedI :: marks =>
    if absorbedI then absorbSDPSet.outer rest marks
    else
      let r := absorbSDPSet.inner currentSDP rest marks
      if !r.1 then currentSDP :: absorbSDPSet.outer rest r.2
      else absorbSDPSet.outer rest r.2
  | _, _ => []

/-- Embedding of `sdp::absorbSDPSet` (sdp.cpp lines 79-125). -/
def absorbSDPSet (sdpSets : SDPSets) : SDPSets :=
  absorbSDPSet.outer sdpSets (List.replicate sdpSets.length false)

/-- Inner loop of the pair search of `decomposeSDPSet` (sdp.cpp lines 176-191):
the first `j` whose term shares elements with `ci`. -/
def decomposeSDPSet.findJ (ci : SDP) : List SDP → Nat → Option (Nat × SDP × List Int)
  | [], _ => none
  | cj :: rest, j =>
    let commonElements := set_intersection ci.set cj.set
    if !commonElements.isEmpty then some (j, cj, commonElements)
    else decomposeSDPSet.findJ ci rest (j + 1)

/-- Pair search of `decomposeSDPSet` (sdp.cpp lines 174-192): the first pair
`(i, j)`, `i < j`, of complementary terms with common elements, as
`(foundI, foundJ, commonSDPpair, commonElements)`. -/
def decomposeSDPSet.find : List SDP → Nat → Option (Nat × Nat × (SDP × SDP) × List Int)
  | [], _ => none
  | ci :: rest, i =>
    match decomposeSDPSet.findJ ci rest (i + 1) with
    | some (j, cj, commonElements) => some (i, j, (ci, cj), commonElements)
    | none => decomposeSDPSet.find rest (i + 1)

/-- The two lists pushed on the queue by one split of `decomposeSDPSet`
(sdp.cpp lines 201-254), or `none` when no pair of complementary terms with
common elements is found. -/
def decomposeSDPSet.split (current : SDPSets) : Option (SDPSets × SDPSets) :=
  let complementarySDPs := current.filter (fun sdp => sdp.is_complementary)
  let normalSDPs := current.filter (fun sdp => !sdp.is_complementary)
  match decomposeSDPSet.find complementarySDPs 0 with
  | none => none
  | some (foundI, foundJ, commonSDPpair, commonElements) =>
    let normalSDPs := normalSDPs ++
      (complementarySDPs.enum.filter (fun p => p.1 != foundI && p.1 != foundJ)).map (fun p => p.2)
    let first := commonElements.foldl SDP.remove commonSDPpair.1
    let second := commonElements.foldl SDP.remove commonSDPpair.2
    let decomposed1 := normalSDPs ++ [SDP.mk true commonElements]
    let decomposed2 := normalSDPs ++ [SDP.mk false commonElements, first, second]
    some (absorbSDPSet (eliminateSDPSet decomposed1), absorbSDPSet (eliminateSDPSet decomposed2))

/-- The work-queue loop of `decomposeSDPSet` (sdp.cpp lines 136-264). One unit
of fuel is spent per list taken from the queue; `none` means the fuel ran
out. In the `!found` branch (sdp.cpp lines 195-199) the terms of `current`
have already been moved into `complementarySDPs` and `normalSDPs`, so what is
pushed holds the flags with emptied sets; the branch is never reached, since
`hasCommonElement` and the pair search agree. -/
def decomposeSDPSet.loop : Nat → List SDPSets → List SDPSets → Option (List SDPSets)
  | _, [], results => some results
  | 0, _ :: _, _ => none
  | fuel + 1, current :: queue, results =>
    if !utils.hasCommonElement current then
      decomposeSDPSet.loop fuel queue (results ++ [current])
    else
      match decomposeSDPSet.split current with
      | none =>
        decomposeSDPSet.loop fuel queue
          (results ++ [current.map (fun sdp => SDP.mk sdp.is_complementary [])])
      | some (decomposed1, decomposed2) =>
        decomposeSDPSet.loop fuel (queue ++ [decomposed1, decomposed2]) results

/-- Embedding of `sdp::decomposeSDPSet` (sdp.cpp lines 127-268). -/
def decomposeSDPSet (fuel : Nat) (sdpSets : SDPSets) : Option (List SDPSets) :=
  decomposeSDPSet.loop fuel [sdpSets] []

/-- The comparator of the second `std::sort` of `sortPathSet` (sdp.cpp lines
289-295): by size, then lexicographic. -/
def sortPathSet.less (a b : List Int) : Bool :=
  if a.length != b.length then decide (a.length < b.length) else decide (a < b)

/-- `pathSetMap[set.size()].push_back(set)` on a `std::map` kept as a list of
entries in ascending key order. -/
def sortPathSet.mapPush : List (Nat × PathSets) → Nat → List Int → List (Nat × PathSets)
  | [], k, set => [(k, [set])]
  | (k', sets) :: m, k, set =>
    if k = k' then (k', sets ++ [set]) :: m
    else if k < k' then (k, [set]) :: (k', sets) :: m
    else (k', sets) :: sortPathSet.mapPush m k set

/-- The lambda of sdp.cpp lines 328-344: the maximal number of literals `set`
has in common with a set of `sortedPathSet`. -/
def sortPathSet.maxCommon (sortedPathSet : PathSets) (set : List Int) : Nat :=
  sortedPathSet.foldl (fun maxCommonNum precedSet =>
    let commonNum := set.countP (fun elem => decide (elem ∈ precedSet))
    if commonNum > maxCommonNum then commonNum else maxCommonNum) 0

/-- One iteration of the loop over the size classes of `sortPathSet` (sdp.cpp
lines 317-357). The `std::sort` of the indices by their count is embedded as a
stable sort: one of the outcomes the C++ standard allows, and the one of
libstdc++ up to 16 indices; `sortPathSet.placeClassWith` takes the sort as a
parameter. -/
def sortPathSet.placeClass (sortedPathSet : PathSets) (unsortedSets : PathSets) : PathSets :=
  let maxCommonCounts := unsortedSets.map (sortPathSet.maxCommon sortedPathSet)
  let indices := (List.range unsortedSets.length).insertionSort
    (fun a b => maxCommonCounts.getD a 0 ≤ maxCommonCounts.getD b 0)
  sortedPathSet ++ indices.map (fun idx => unsortedSets.getD idx [])

/-- Embedding of `sdp::sortPathSet` (sdp.cpp lines 270-361). -/
def sortPathSet (pathSets : PathSets) : PathSets :=
  if pathSets.isEmpty then []
  else
    let pathSets := pathSets.map sortInts
    let pathSets := pathSets.insertionSort (fun a b => sortPathSet.less b a = false)
    let pathSetMap := pathSets.foldl (fun m set => sortPathSet.mapPush m set.length set) []
    match pathSetMap with
    | [] => []
    | first :: others => others.foldl (fun sorted entry => sortPathSet.placeClass sorted entry.2) first.2

/-- The body of the loop of `toSDPSet` up to the absorption (sdp.cpp lines
390-422): the list for `currentSet` against the preceding sets. -/
def toSDPSet.resultSDPs (preceding : PathSets) (currentSet : List Int) : SDPSets :=
  absorbSDPSet (SDP.mk false currentSet ::
    preceding.filterMap (fun precedingSet =>
      let RC := set_difference precedingSet currentSet
      if !RC.isEmpty then some (SDP.mk true RC) else none))

/-- The loop of `toSDPSet` (sdp.cpp lines 388-448) over the sets that remain,
`preceding` being the sets already visited. -/
def toSDPSet.loop (fuel : Nat) : PathSets → PathSets → List SDPSets → Option (List SDPSets)
  | _, [], finalSDPs => some finalSDPs
  | preceding, currentSet :: remaining, finalSDPs =>
    let resultSDPs := toSDPSet.resultSDPs preceding currentSet
    if utils.hasCommonElement resultSDPs then
      match decomposeSDPSet fuel resultSDPs with
      | none => none
      | some decomposedResults =>
        toSDPSet.loop fuel (preceding ++ [currentSet]) remaining (finalSDPs ++ decomposedResults)
    else
      toSDPSet.loop fuel (preceding ++ [currentSet]) remaining (finalSDPs ++ [resultSDPs])

/-- Embedding of `sdp::toSDPSet(src, dst, pathSets)` (sdp.cpp lines 363-451);
`fuel` bounds each run of the work queue of `decomposeSDPSet`. -/
def toSDPSet (fuel : Nat) (_src _dst : NodeID) (pathSets : PathSets) : Option (List SDPSets) :=
  match sortPathSet pathSets with
  | [] => some []
  | front :: rest => toSDPSet.loop fuel [front] rest [[SDP.mk false front]]

/-- The contribution of one SDP term to `setAvailability` (sdp.cpp lines
535-557). -/
def SDPSetToAvail.term (probaMap : ProbabilityMap) (setAvailability : ℚ) (sdp : SDP) :
    Except LookupError ℚ :=
  if sdp.is_complementary then do
    let tmp_avail ← sdp.set.foldlM (fun tmp elem => do
      let p ← probaMap.get elem
      pure (tmp * p)) 1
    pure (setAvailability * (1 - tmp_avail))
  else
    sdp.set.foldlM (fun acc elem => do
      let p ← probaMap.get elem
      pure (acc * p)) setAvailability

/-- Embedding of `sdp::SDPSetToAvail` (sdp.cpp lines 525-565). -/
def SDPSetToAvail (probaMap : ProbabilityMap) (sdpSets : List SDPSets) :
    Except LookupError ℚ :=
  sdpSets.foldlM (fun availability set => do
    let setAvailability ← set.foldlM (SDPSetToAvail.term probaMap) 1
    pure (availability + setAvailability)) 0

/-- Embedding of `sdp::evalAvail` (sdp.cpp lines 567-576). -/
def sdp.evalAvail (fuel : Nat) (src dst : NodeID) (probaMap : ProbabilityMap)
    (pathSets : PathSets) : Option (Except LookupError ℚ) :=
  (toSDPSet fuel src dst pathSets).map (SDPSetToAvail probaMap)

/-! ### Semantics and value of SDP terms -/

/-- Truth value of an SDP term: a non-complementary term holds when all its
literals do, a complementary term when its conjunction fails. -/
def sdpSat (σ : Nat → Bool) (t : SDP) : Bool :=
  if t.is_complementary then !(termSat σ t.set) else termSat σ t.set

/-- An SDPList (a product) holds when all of its terms hold. -/
def listSat (σ : Nat → Bool) (S : SDPSets) : Bool := S.all (sdpSat σ)

/-- Value of an SDP term: the product of the literal probabilities, or one
minus that product for a complementary term. -/
def sdpValue (P : Nat → ℚ) (t : SDP) : ℚ :=
  if t.is_complementary then 1 - termProb P t.set else termProb P t.set

/-- Value of an SDPList: the product of the values of its terms. -/
def listValue (P : Nat → ℚ) (S : SDPSets) : ℚ := (S.map (sdpValue P)).prod

/-- Value of an SDPForest: the sum of the values of its lists. -/
def forestValue (P : Nat → ℚ) (F : List SDPSets) : ℚ := (F.map (listValue P)).sum

/-- Term `a` absorbs term `b`: same complementarity and the literal set of `a` is
contained in the literal set of `b`. -/
def Dominates (a b : SDP) : Prop :=
  a.is_complementary = b.is_complementary ∧ ∀ x ∈ a.set, x ∈ b.set

/-- What `eliminateSDPSet` makes of a complementary term once the eliminated
elements `E` are known: the term without them, dropped when nothing is left. -/
def eliminateSDPSet.reduce (E : List Int) (c : SDP) : Option SDP :=
  if (set_difference c.set E).isEmpty then none else some (SDP.mk true (set_difference c.set E))

/-- The literal sets of two terms share no literal. -/
def SetsDisjoint (a b : SDP) : Prop := ∀ x ∈ a.set, x ∉ b.set

/-- No term of the list absorbs a term at another position. -/
def Antichain (S : SDPSets) : Prop :=
  S.Pairwise (fun a b => ¬ Dominates a b ∧ ¬ Dominates b a)

/-- Two terms are mutually exclusive on syntactic grounds: the first holds a
literal whose negation occurs in the second. -/
def Exclusive (T U : Set) : Prop := ∃ x ∈ T, -x ∈ U

instance (T U : Set) : Decidable (Exclusive T U) := by
  unfold Exclusive; infer_instance

/-- Elimination in the words of the specification: the non-complementary
terms unchanged and in their original order, followed by, for each
complementary term `C` in original order, the complementary term `C \ E`
when it is non-empty, where `E` holds all literals of the non-complementary
terms. -/
def eliminateSpec (S : SDPSets) : SDPSets :=
  let E := (S.filter (fun t => !t.is_complementary)).flatMap (fun t => t.set)
  S.filter (fun t => !t.is_complementary) ++
    (S.filter (fun t => t.is_complementary)).filterMap (fun C =>
      let r := C.set.filter (fun x => decide (x ∉ E))
      if r.isEmpty then none else some (SDP.mk true r))

/-! ### The constructor of ProbabilityMap (common.hpp) -/

/-- The assignment `arr[k] = x` on a `std::vector<double>`. A write outside
the vector is undefined behaviour in C++; the embedding drops it. -/
def ProbabilityMap.write (arr : List ℚ) (k : Int) (x : ℚ) : List ℚ :=
  if 0 ≤ k then arr.set k.toNat x else arr

/-- Embedding of the constructor `ProbabilityMap(const std::map<int, double>)`
(common.hpp lines 29-36). The map is given by its entries in key order; both
arrays are created with `avail_arr.size() + 1` zeros and then written at every
key. -/
def ProbabilityMap.ofMap (avail_arr : List (Int × ℚ)) : ProbabilityMap :=
  avail_arr.foldl
    (fun pm pair =>
      { pos_array := ProbabilityMap.write pm.pos_array pair.1 pair.2,
        neg_array := ProbabilityMap.write pm.neg_array pair.1 (1 - pair.2) })
    { pos_array := List.replicate (avail_arr.length + 1) 0,
      neg_array := List.replicate (avail_arr.length + 1) 0 }

/-! ### Topology evaluators (pathset.cpp, mcs.cpp, sdp.cpp) -/

/-- Result triple (`using AvailTriple = std::tuple<NodeID,NodeID,double>`). -/
abbrev AvailTriple := NodeID × NodeID × ℚ

/-- Node pairs (`using NodePairs = std::vector<std::pair<NodeID,NodeID>>`). -/
abbrev NodePairs := List (NodeID × NodeID)

/-- The `for` loop shared by the three serial `evalAvailTopo` functions
(pathset.cpp lines 145-152, mcs.cpp lines 172-179, sdp.cpp lines 593-600), at
index `i` with the node pairs that remain and the `availList` built so far;
`evalAvail` is the evaluator of the algorithm. An evaluation that runs out of
fuel gives `none`, an exception thrown by a lookup leaves the loop, and a read
of `pathsetsList[i]` outside the vector is reported as `invalidRead`. -/
def evalAvailTopo.loop (evalAvail : NodeID → NodeID → List Set → Option (Except LookupError ℚ))
    (pathsetsList : List (List Set)) :
    Nat → NodePairs → List AvailTriple → Option (Except LookupError (List AvailTriple))
  | _, [], availList => some (Except.ok availList)
  | i, (src, dst) :: rest, availList =>
    match pathsetsList[i]? with
    | none => some (Except.error LookupError.invalidRead)
    | some pathSets =>
      match evalAvail src dst pathSets with
      | none => none
      | some (Except.error e) => some (Except.error e)
      | some (Except.ok availability) =>
        evalAvailTopo.loop evalAvail pathsetsList (i + 1) rest
          (availList ++ [(src, dst, availability)])

/-- Embedding of `pathset::evalAvailTopo` (pathset.cpp lines 141-155). -/
def pathset.evalAvailTopo (fuel : Nat) (nodePairs : NodePairs) (probaMap : ProbabilityMap)
    (pathsetsList : List PathSets) : Option (Except LookupError (List AvailTriple)) :=
  evalAvailTopo.loop (fun src dst pathsets => pathset.evalAvail fuel src dst probaMap pathsets)
    pathsetsList 0 nodePairs []

/-- Embedding of `mcs::evalAvailTopo` (mcs.cpp lines 168-182). -/
def mcs.evalAvailTopo (fuel : Nat) (nodePairs : NodePairs) (probaMap : ProbabilityMap)
    (minCutSetsList : List MinCutSets) : Option (Except LookupError (List AvailTriple)) :=
  evalAvailTopo.loop (fun src dst minCutSets => mcs.evalAvail fuel src dst probaMap minCutSets)
    minCutSetsList 0 nodePairs []

/-- Embedding of `sdp::evalAvailTopo` (sdp.cpp lines 589-603). -/
def sdp.evalAvailTopo (fuel : Nat) (nodePairs : NodePairs) (probaMap : ProbabilityMap)
    (pathsetsList : List PathSets) : Option (Except LookupError (List AvailTriple)) :=
  evalAvailTopo.loop (fun src dst pathSets => sdp.evalAvail fuel src dst probaMap pathSets)
    pathsetsList 0 nodePairs []

/-! ### The order produced by the ordering heuristic -/

/-- Number of literals of `t` in common with `p`. -/
def commonLiterals (t p : List Int) : Nat := t.countP (fun e => decide (e ∈ p))

/-- The maximum number of literals `t` has in common with any term of `prev`
(`0` when `prev` is empty), in the words of the specification. -/
def maxCommonSpec (prev : PathSets) (t : List Int) : Nat :=
  (prev.map (commonLiterals t)).foldl max 0

/-- Term `a` may stand before term `b` of the same size class: `a` has fewer
literals in common with the terms `prev` of smaller size, or as many and `a`
is not lexicographically after `b`. -/
def sortPathSet.Precedes (prev : PathSets) (a b : List Int) : Prop :=
  maxCommonSpec prev a < maxCommonSpec prev b ∨
    (maxCommonSpec prev a = maxCommonSpec prev b ∧ a ≤ b)

/-- The order of the output of `sortPathSet`: sizes never decrease along the
list, and two terms of the same size stand in the order `Precedes` with
respect to the terms of smaller size. -/
def sortPathSet.Ordered (S : PathSets) : Prop :=
  (S.map List.length).Sorted (· ≤ ·) ∧
  S.Pairwise (fun a b => a.length = b.length →
    sortPathSet.Precedes (S.filter (fun t => decide (t.length < a.length))) a b)

/-- The body of iteration `i` of the parallel loop of `toSDPSetParallel`
(sdp.cpp lines 475-512): what the iteration writes to `threadResults[i]`. It
reads `sortedPathSet` only; `none` stands for a run of `decomposeSDPSet` that
does not return within `fuel`. -/
def toSDPSetParallel.slot (fuel : Nat) (sortedPathSet : PathSets) (i : Nat) :
    Option (List SDPSets) :=
  let currentSet := sortedPathSet.getD i []
  let resultSDPs := absorbSDPSet (SDP.mk false currentSet ::
    (List.range i).filterMap (fun j =>
      let precedingSet := sortedPathSet.getD j []
      let RC := set_difference precedingSet currentSet
      if !RC.isEmpty then some (SDP.mk true RC) else none))
  if utils.hasCommonElement resultSDPs then decomposeSDPSet fuel resultSDPs
  else some [resultSDPs]

/-- The vector `threadResults` once every iteration has written its own slot
(sdp.cpp lines 468-512): slot `0` holds the first set alone, slot `i` what
iteration `i` computed. No slot is written twice, so the order in which the
iterations run does not show. -/
def toSDPSetParallel.threadResults (fuel : Nat) (sortedPathSet : PathSets) :
    List (Option (List SDPSets)) :=
  match sortedPathSet with
  | [] => []
  | front :: _ =>
    some [[SDP.mk false front]] ::
      (List.range' 1 (sortedPathSet.length - 1)).map (toSDPSetParallel.slot fuel sortedPathSet)

/-- The sequential concatenation of the slots into `finalSDPs` (sdp.cpp lines
514-520). -/
def toSDPSetParallel.combine (threadResults : List (Option (List SDPSets))) :
    Option (List SDPSets) :=
  threadResults.foldl (fun finalSDPs threadResult =>
    match finalSDPs, threadResult with
    | some f, some r => some (f ++ r)
    | _, _ => none) (some [])

/-- The multithreaded path of `toSDPSetParallel` (sdp.cpp lines 465-522) on the
sorted list. On an empty list the write to `threadResults[0]` is out of range
(`none`); the caller never passes one. -/
def toSDPSetParallel.body (fuel : Nat) (sortedPathSet : PathSets) : Option (List SDPSets) :=
  match sortedPathSet with
  | [] => none
  | _ :: _ => toSDPSetParallel.combine (toSDPSetParallel.threadResults fuel sortedPathSet)

/-- Embedding of `sdp::toSDPSetParallel(src, dst, pathSets)` (sdp.cpp lines
453-523), the parallel iterations being writes to their own slot. -/
def toSDPSetParallel (fuel : Nat) (src dst : NodeID) (pathSets : PathSets) :
    Option (List SDPSets) :=
  if pathSets.length < 200 then toSDPSet fuel src dst pathSets
  else toSDPSetParallel.body fuel (sortPathSet pathSets)

/-- What the standard promises of `std::sort(first, last, comp)`: the vector
afterwards is a permutation of the vector before in which no element is
`comp`-less than an element that stands before it. -/
def IsStdSort {α : Type} (comp : α → α → Bool) (before after : List α) : Prop :=
  after.Perm before ∧ after.Pairwise (fun a b => comp b a = false)

/-- Comparison `comp(*i, *j)` through two iterators. -/
def std.compAt {α : Type} (comp : α → α → Bool) (v : List α) (i j : Nat) : Bool :=
  match v[i]?, v[j]? with
  | some x, some y => comp x y
  | _, _ => false

/-- Embedding of `std::iter_swap(i, j)`. -/
def std.iter_swap {α : Type} (v : List α) (i j : Nat) : List α :=
  match v[i]?, v[j]? with
  | some x, some y => (v.set i y).set j x
  | _, _ => v

/-- Embedding of `std::__lg(n)`: the position of the highest set bit. -/
def std.lg : Nat → Nat → Nat
  | 0, _ => 0
  | fuel + 1, n => if n ≤ 1 then 0 else std.lg fuel (n / 2) + 1

/-- Embedding of `std::__move_median_to_first(result, a, b, c, comp)`. -/
def std.move_median_to_first {α : Type} (comp : α → α → Bool) (v : List α)
    (result a b c : Nat) : List α :=
  if std.compAt comp v a b then
    if std.compAt comp v b c then std.iter_swap v result b
    else if std.compAt comp v a c then std.iter_swap v result c
    else std.iter_swap v result a
  else if std.compAt comp v a c then std.iter_swap v result a
  else if std.compAt comp v b c then std.iter_swap v result c
  else std.iter_swap v result b

/-- The loop `while (comp(first, pivot)) ++first;` of `__unguarded_partition`. -/
def std.unguarded_partition.up {α : Type} (comp : α → α → Bool) (v : List α) (pivot : Nat) :
    Nat → Nat → Nat
  | 0, first => first
  | fuel + 1, first =>
    if std.compAt comp v first pivot then std.unguarded_partition.up comp v pivot fuel (first + 1)
    else first

/-- The loop `while (comp(pivot, last)) --last;` of `__unguarded_partition`. -/
def std.unguarded_partition.down {α : Type} (comp : α → α → Bool) (v : List α) (pivot : Nat) :
    Nat → Nat
  | 0 => 0
  | last + 1 =>
    if std.compAt comp v pivot (last + 1) then std.unguarded_partition.down comp v pivot last
    else last + 1

/-- Embedding of `std::__unguarded_partition(first, last, pivot, comp)`: the
vector afterwards and the iterator returned. -/
def std.unguarded_partition {α : Type} (comp : α → α → Bool) (pivot : Nat) :
    Nat → List α → Nat → Nat → List α × Nat
  | 0, v, first, _ => (v, first)
  | fuel + 1, v, first, last =>
    let first := std.unguarded_partition.up comp v pivot v.length first
    let last := std.unguarded_partition.down comp v pivot (last - 1)
    if !(decide (first < last)) then (v, first)
    else std.unguarded_partition comp pivot fuel (std.iter_swap v first last) (first + 1) last

/-- Embedding of `std::__unguarded_partition_pivot(first, last, comp)`. -/
def std.unguarded_partition_pivot {α : Type} (comp : α → α → Bool) (v : List α)
    (first last : Nat) : List α × Nat :=
  let mid := first + (last - first) / 2
  let v := std.move_median_to_first comp v first (first + 1) mid (last - 1)
  std.unguarded_partition comp first v.length v (first + 1) last

/-- Embedding of `std::__push_heap(first, holeIndex, topIndex, value, comp)`. -/
def std.push_heap {α : Type} (comp : α → α → Bool) (first topIndex : Nat) (value : α) :
    Nat → List α → Nat → List α
  | 0, v, holeIndex => v.set (first + holeIndex) value
  | fuel + 1, v, holeIndex =>
    let parent := (holeIndex - 1) / 2
    match v[first + parent]? with
    | some p =>
      if decide (holeIndex > topIndex) && comp p value then
        std.push_heap comp first topIndex value fuel (v.set (first + holeIndex) p) parent
      else v.set (first + holeIndex) value
    | none => v.set (first + holeIndex) value

/-- The `while` loop of `std::__adjust_heap`: the vector and `holeIndex`
(equal to `secondChild`) when it ends. -/
def std.adjust_heap.sift {α : Type} (comp : α → α → Bool) (first len : Nat) :
    Nat → List α → Nat → List α × Nat
  | 0, v, holeIndex => (v, holeIndex)
  | fuel + 1, v, holeIndex =>
    if holeIndex < (len - 1) / 2 then
      let secondChild := 2 * (holeIndex + 1)
      let secondChild :=
        if std.compAt comp v (first + secondChild) (first + (secondChild - 1)) then
          secondChild - 1
        else secondChild
      match v[first + secondChild]? with
      | some x => std.adjust_heap.sift comp first len fuel (v.set (first + holeIndex) x) secondChild
      | none => (v, holeIndex)
    else (v, holeIndex)

/-- Embedding of `std::__adjust_heap(first, holeIndex, len, value, comp)`;
`(len - 2) / 2` is computed on signed integers, as in the source. -/
def std.adjust_heap {α : Type} (comp : α → α → Bool) (v : List α) (first holeIndex len : Nat)
    (value : α) : List α :=
  let topIndex := holeIndex
  let r := std.adjust_heap.sift comp first len len v holeIndex
  let r :=
    if len % 2 = 0 ∧ (r.2 : Int) = ((len : Int) - 2) / 2 then
      let secondChild := 2 * (r.2 + 1)
      match r.1[first + (secondChild - 1)]? with
      | some x => (r.1.set (first + r.2) x, secondChild - 1)
      | none => r
    else r
  std.push_heap comp first topIndex value r.2 r.1 r.2

/-- Embedding of `std::__make_heap(first, last, comp)`. -/
def std.make_heap {α : Type} (comp : α → α → Bool) (v : List α) (first last : Nat) : List α :=
  if last - first < 2 then v
  else
    let len := last - first
    (List.range ((len - 2) / 2 + 1)).reverse.foldl (fun v parent =>
      match v[first + parent]? with
      | some value => std.adjust_heap comp v first parent len value
      | none => v) v

/-- Embedding of `std::__pop_heap(first, last, result, comp)`. -/
def std.pop_heap {α : Type} (comp : α → α → Bool) (v : List α) (first last result : Nat) :
    List α :=
  match v[result]?, v[first]? with
  | some value, some top => std.adjust_heap comp (v.set result top) first 0 (last - first) value
  | _, _ => v

/-- Embedding of `std::__sort_heap(first, last, comp)`; the recursion is on
`last - first`. -/
def std.sort_heap {α : Type} (comp : α → α → Bool) (first : Nat) : Nat → List α → List α
  | 0, v => v
  | n + 1, v =>
    if n + 1 > 1 then std.sort_heap comp first n (std.pop_heap comp v first (first + n) (first + n))
    else v

/-- Embedding of `std::__heap_select(first, middle, last, comp)`. -/
def std.heap_select {α : Type} (comp : α → α → Bool) (v : List α) (first middle last : Nat) :
    List α :=
  (List.range' middle (last - middle)).foldl (fun v i =>
    if std.compAt comp v i first then std.pop_heap comp v first middle i else v)
    (std.make_heap comp v first middle)

/-- Embedding of `std::__partial_sort(first, middle, last, comp)`. -/
def std.partial_sort {α : Type} (comp : α → α → Bool) (v : List α) (first middle last : Nat) :
    List α :=
  std.sort_heap comp first (middle - first) (std.heap_select comp v first middle last)

/-- Embedding of `std::__introsort_loop(first, last, depth_limit, comp)`; the
recursion is on `depth_limit`, which both the recursive call and the next
round of the `while` loop receive decremented. -/
def std.introsort_loop {α : Type} (comp : α → α → Bool) : Nat → List α → Nat → Nat → List α
  | 0, v, first, last =>
    if last - first > 16 then std.partial_sort comp v first last last else v
  | depth_limit + 1, v, first, last =>
    if last - first > 16 then
      let r := std.unguarded_partition_pivot comp v first last
      let v := std.introsort_loop comp depth_limit r.1 r.2 last
      std.introsort_loop comp depth_limit v first r.2
    else v

/-- Embedding of `std::__unguarded_linear_insert(last, comp)` once `val` has
been read: the `while` loop and the final store. -/
def std.unguarded_linear_insert.loop {α : Type} (comp : α → α → Bool) (val : α) :
    Nat → List α → List α
  | 0, v => v.set 0 val
  | next + 1, v =>
    match v[next]? with
    | some x =>
      if comp val x then std.unguarded_linear_insert.loop comp val next (v.set (next + 1) x)
      else v.set (next + 1) val
    | none => v.set (next + 1) val

/-- Embedding of `std::__unguarded_linear_insert(last, comp)`. -/
def std.unguarded_linear_insert {α : Type} (comp : α → α → Bool) (v : List α) (last : Nat) :
    List α :=
  match v[last]? with
  | some val => std.unguarded_linear_insert.loop comp val last v
  | none => v

/-- Embedding of `std::__insertion_sort(first, last, comp)`; the branch taken
when `*i` is less than `*first` moves `[first, i)` one place up and stores
`*i` at `first`. -/
def std.insertion_sort {α : Type} (comp : α → α → Bool) (v : List α) (first last : Nat) :
    List α :=
  if first = last then v
  else
    (List.range' (first + 1) (last - (first + 1))).foldl (fun v i =>
      if std.compAt comp v i first then
        match v[i]? with
        | some val => v.take first ++ val :: ((v.drop first).take (i - first) ++ v.drop (i + 1))
        | none => v
      else std.unguarded_linear_insert comp v i) v

/-- Embedding of `std::__unguarded_insertion_sort(first, last, comp)`. -/
def std.unguarded_insertion_sort {α : Type} (comp : α → α → Bool) (v : List α)
    (first last : Nat) : List α :=
  (List.range' first (last - first)).foldl (fun v i => std.unguarded_linear_insert comp v i) v

/-- Embedding of `std::__final_insertion_sort(first, last, comp)`. -/
def std.final_insertion_sort {α : Type} (comp : α → α → Bool) (v : List α) (first last : Nat) :
    List α :=
  if last - first > 16 then
    std.unguarded_insertion_sort comp (std.insertion_sort comp v first (first + 16))
      (first + 16) last
  else std.insertion_sort comp v first last

/-- Embedding of `std::sort(first, last, comp)` of libstdc++ (`std::__sort`)
on a whole vector. -/
def std.sort {α : Type} (comp : α → α → Bool) (v : List α) : List α :=
  if v.isEmpty then v
  else
    std.final_insertion_sort comp
      (std.introsort_loop comp (std.lg v.length v.length * 2) v 0 v.length) 0 v.length

instance {α : Type} [DecidableEq α] (comp : α → α → Bool) (before after : List α) :
    Decidable (IsStdSort comp before after) := by
  unfold IsStdSort; infer_instance

/-- The comparator passed to `std::sort` by `eliminateSDPSet` (sdp.cpp lines
34-36): `a.isComplementary() < b.isComplementary()`. -/
def eliminateSDPSet.comp (a b : SDP) : Bool := !a.is_complementary && b.is_complementary

/-- Embedding of `sdp::eliminateSDPSet` (sdp.cpp lines 29-76) with the
`std::sort` by flag as a parameter, so that nothing is assumed of the order in
which it leaves terms of the same flag. `eliminateSDPSet` is the instance with
a stable partition, `eliminateSDPSetWith std.sort` the one with libstdc++. -/
def eliminateSDPSetWith (sort : (SDP → SDP → Bool) → SDPSets → SDPSets) (sdpSets : SDPSets) :
    SDPSets :=
  ((sort eliminateSDPSet.comp sdpSets).foldl eliminateSDPSet.step ([], [])).2

/-- The comparator passed to the `std::sort` of the indices of a size class by
`sortPathSet` (sdp.cpp lines 349-350):
`maxCommonCounts[a] < maxCommonCounts[b]`. -/
def sortPathSet.indexLess (maxCommonCounts : List Nat) (a b : Nat) : Bool :=
  decide (maxCommonCounts.getD a 0 < maxCommonCounts.getD b 0)

/-- One iteration of the loop over the size classes of `sortPathSet` (sdp.cpp
lines 317-357), with the `std::sort` of the indices as a parameter. -/
def sortPathSet.placeClassWith (sort : (Nat → Nat → Bool) → List Nat → List Nat)
    (sortedPathSet : PathSets) (unsortedSets : PathSets) : PathSets :=
  let maxCommonCounts := unsortedSets.map (sortPathSet.maxCommon sortedPathSet)
  let indices := sort (sortPathSet.indexLess maxCommonCounts) (List.range unsortedSets.length)
  sortedPathSet ++ indices.map (fun idx => unsortedSets.getD idx [])

/-- Embedding of `sdp::sortPathSet` (sdp.cpp lines 270-361) with the
`std::sort` of the indices of a size class as a parameter. The two other
sorts, of the literals of a term and of the terms by (size, lexicographic),
are by total orders in which no two different elements are equivalent, so
every `std::sort` returns the same vector for them and they are kept as in
`sortPathSet`. -/
def sortPathSetWith (sort : (Nat → Nat → Bool) → List Nat → List Nat) (pathSets : PathSets) :
    PathSets :=
  if pathSets.isEmpty then []
  else
    let pathSets := pathSets.map sortInts
    let pathSets := pathSets.insertionSort (fun a b => sortPathSet.less b a = false)
    let pathSetMap := pathSets.foldl (fun m set => sortPathSet.mapPush m set.length set) []
    match pathSetMap with
    | [] => []
    | first :: others =>
      others.foldl (fun sorted entry => sortPathSet.placeClassWith sort sorted entry.2) first.2

/-- The first part of `eliminateSpec S`: the non-complementary terms of `S`. -/
def eliminateSpec.kept (S : SDPSets) : SDPSets := S.filter (fun t => !t.is_complementary)

/-- The second part of `eliminateSpec S`: for each complementary term `C` of
`S`, the complementary term `C \ E` when it is non-empty, `E` holding the
literals of the non-complementary terms of `S`. -/
def eliminateSpec.reduced (S : SDPSets) : SDPSets :=
  let E := (S.filter (fun t => !t.is_complementary)).flatMap (fun t => t.set)
  (S.filter (fun t => t.is_complementary)).filterMap (fun C =>
    let r := C.set.filter (fun x => decide (x ∉ E))
    if r.isEmpty then none else some (SDP.mk true r))

theorem makeDisjointSet_scan_eq (set2 : Set) (set1 RC : Set) :
    makeDisjointSet.scan set2 set1 RC =
      if ∃ x ∈ set1, -x ∈ set2 then none else some (RC ++ residual set1 set2) := by
  induction set1 generalizing RC with
  | nil => simp [makeDisjointSet.scan, residual]
  | cons e rest ih =>
    unfold makeDisjointSet.scan
    by_cases h1 : -e ∈ set2
    · simp [h1]
    · by_cases h2 : e ∈ set2
      · simp [h1, h2, ih, residual]
      · simp [h1, h2, ih, residual]

theorem makeDisjointSet_emit_eq (RC set2 : Set) (result : DisjointSets) :
    makeDisjointSet.emit RC set2 result = result ++ disjointTerms set2 RC := by
  induction RC generalizing set2 result with
  | nil => simp [makeDisjointSet.emit, disjointTerms]
  | cons r rs ih => simp [makeDisjointSet.emit, disjointTerms, ih]

theorem makeDisjointSet_eq (A B : Set) :
    makeDisjointSet A B =
      if ∃ x ∈ A, -x ∈ B then [B] else disjointTerms B (residual A B) := by
  unfold makeDisjointSet
  rw [makeDisjointSet_scan_eq]
  by_cases h : ∃ x ∈ A, -x ∈ B
  · simp [h]
  · simp only [h, if_false, List.nil_append]
    cases hr : residual A B with
    | nil => simp [disjointTerms]
    | cons r rs => simp [makeDisjointSet_emit_eq]

theorem disjointTerms_length (B RC : Set) : (disjointTerms B RC).length = RC.length := by
  induction RC generalizing B with
  | nil => rfl
  | cons r rs ih => simp [disjointTerms, ih]

theorem disjointTerms_getElem? (B RC : Set) (i : Nat) (h : i < RC.length) :
    (disjointTerms B RC)[i]? = some (B ++ RC.take i ++ [-RC[i]]) := by
  induction RC generalizing B i with
  | nil => simp at h
  | cons r rs ih =>
    cases i with
    | zero => simp [disjointTerms]
    | succ j =>
      simp only [List.length_cons, Nat.add_lt_add_iff_right] at h
      simp [disjointTerms, ih _ j h]

theorem mem_disjointTerms {B RC T : Set} (h : T ∈ disjointTerms B RC) :
    ∃ r ∈ RC, -r ∈ T := by
  induction RC generalizing B with
  | nil => simp [disjointTerms] at h
  | cons r rs ih =>
    simp only [disjointTerms, List.mem_cons] at h
    rcases h with h | h
    · exact ⟨r, by simp, by simp [h]⟩
    · obtain ⟨x, hx, hxT⟩ := ih h
      exact ⟨x, by simp [hx], hxT⟩

theorem mem_residual {A B : Set} {x : Int} : x ∈ residual A B ↔ x ∈ A ∧ x ∉ B := by
  simp [residual]

/-! ### Semantics of the disjointing primitive -/

theorem litSat_neg (σ : Nat → Bool) {l : Int} (h : l ≠ 0) :
    litSat σ (-l) = !litSat σ l := by
  unfold litSat
  rcases Int.lt_or_gt_of_ne h with h1 | h1
  · have h2 : (0 : Int) < -l := by omega
    have h3 : ¬ (0 : Int) < l := by omega
    simp [h2, h3]
  · have h2 : ¬ (0 : Int) < -l := by omega
    simp [h1, h2]

theorem termSat_append (σ : Nat → Bool) (S T : Set) :
    termSat σ (S ++ T) = (termSat σ S && termSat σ T) := by
  simp [termSat, List.all_append]

theorem termSat_cons (σ : Nat → Bool) (l : Int) (T : Set) :
    termSat σ (l :: T) = (litSat σ l && termSat σ T) := by
  simp [termSat]

theorem termSat_iff (σ : Nat → Bool) (T : Set) :
    termSat σ T = true ↔ ∀ l ∈ T, litSat σ l = true := by
  simp [termSat]

theorem anySat_iff (σ : Nat → Bool) (L : List Set) :
    anySat σ L = true ↔ ∃ T ∈ L, termSat σ T = true := by
  simp [anySat]

theorem anySat_disjointTerms (σ : Nat → Bool) (B RC : Set) (h0 : (0 : Int) ∉ RC) :
    anySat σ (disjointTerms B RC) = (termSat σ B && !termSat σ RC) := by
  induction RC generalizing B with
  | nil => simp [disjointTerms, anySat, termSat]
  | cons r rs ih =>
    have hr : r ≠ 0 := fun h => h0 (by simp [h])
    have hrs : (0 : Int) ∉ rs := fun h => h0 (by simp [h])
    have ih2 := ih (B ++ [r]) hrs
    simp only [anySat] at ih2 ⊢
    simp only [disjointTerms, List.any_cons, ih2, termSat_append, termSat_cons,
      litSat_neg σ hr]
    simp only [termSat, List.all_nil, Bool.and_true]
    cases List.all B (litSat σ) <;> cases litSat σ r <;> cases List.all rs (litSat σ) <;> rfl

theorem termSat_residual (σ : Nat → Bool) (A B : Set) (hB : termSat σ B = true) :
    termSat σ (residual A B) = termSat σ A := by
  rw [Bool.eq_iff_iff, termSat_iff, termSat_iff]
  rw [termSat_iff] at hB
  constructor
  · intro h l hl
    by_cases hlB : l ∈ B
    · exact hB l hlB
    · exact h l (mem_residual.2 ⟨hl, hlB⟩)
  · intro h l hl
    exact h l (mem_residual.1 hl).1

theorem anySat_makeDisjointSet (σ : Nat → Bool) (A B : Set) (hA : (0 : Int) ∉ A) :
    anySat σ (makeDisjointSet A B) = (termSat σ B && !termSat σ A) := by
  rw [makeDisjointSet_eq]
  by_cases h : ∃ x ∈ A, -x ∈ B
  · obtain ⟨x, hxA, hxB⟩ := h
    have hx : x ≠ 0 := fun h => hA (h ▸ hxA)
    rw [if_pos ⟨x, hxA, hxB⟩]
    simp only [anySat, List.any_cons, List.any_nil, Bool.or_false]
    cases hB : termSat σ B with
    | false => rfl
    | true =>
      have h1 : litSat σ (-x) = true := (termSat_iff σ B).1 hB _ hxB
      rw [litSat_neg σ hx] at h1
      have h2 : termSat σ A = false := by
        cases hAs : termSat σ A with
        | false => rfl
        | true =>
          have := (termSat_iff σ A).1 hAs _ hxA
          simp [this] at h1
      simp [h2]
  · rw [if_neg h]
    have h0 : (0 : Int) ∉ residual A B := fun h => hA (mem_residual.1 h).1
    rw [anySat_disjointTerms σ B _ h0]
    cases hB : termSat σ B with
    | false => rfl
    | true => rw [termSat_residual σ A B hB]

/-! ### Probability of the output of the disjointing primitive -/

theorem litProb_neg (P : Nat → ℚ) {l : Int} (h : l ≠ 0) :
    litProb P (-l) = 1 - litProb P l := by
  unfold litProb
  rcases Int.lt_or_gt_of_ne h with h1 | h1
  · have h2 : (0 : Int) < -l := by omega
    have h3 : ¬ (0 : Int) < l := by omega
    simp [h2, h3]
  · have h2 : ¬ (0 : Int) < -l := by omega
    simp [h1, h2]

theorem termProb_nil (P : Nat → ℚ) : termProb P [] = 1 := by
  simp [termProb]

theorem termProb_cons (P : Nat → ℚ) (l : Int) (T : Set) :
    termProb P (l :: T) = litProb P l * termProb P T := by
  simp [termProb]

theorem termProb_append (P : Nat → ℚ) (S T : Set) :
    termProb P (S ++ T) = termProb P S * termProb P T := by
  simp [termProb]

theorem sumProb_nil (P : Nat → ℚ) : sumProb P [] = 0 := by
  simp [sumProb]

theorem sumProb_cons (P : Nat → ℚ) (T : Set) (L : List Set) :
    sumProb P (T :: L) = termProb P T + sumProb P L := by
  simp [sumProb]

theorem sumProb_append (P : Nat → ℚ) (L M : List Set) :
    sumProb P (L ++ M) = sumProb P L + sumProb P M := by
  simp [sumProb]

theorem sumProb_disjointTerms (P : Nat → ℚ) (B RC : Set) (h0 : (0 : Int) ∉ RC) :
    sumProb P (disjointTerms B RC) = termProb P B - termProb P (B ++ RC) := by
  induction RC generalizing B with
  | nil => simp [disjointTerms, sumProb]
  | cons r rs ih =>
    have hr : r ≠ 0 := fun h => h0 (by simp [h])
    have hrs : (0 : Int) ∉ rs := fun h => h0 (by simp [h])
    rw [disjointTerms, sumProb_cons, ih (B ++ [r]) hrs]
    simp only [termProb_append, termProb_cons, termProb_nil, litProb_neg P hr]
    ring

theorem sumProb_makeDisjointSet (P : Nat → ℚ) (A B : Set) (hA : (0 : Int) ∉ A) :
    sumProb P (makeDisjointSet A B) =
      termProb P B - (if ∃ x ∈ A, -x ∈ B then 0 else termProb P (B ++ residual A B)) := by
  rw [makeDisjointSet_eq]
  by_cases h : ∃ x ∈ A, -x ∈ B
  · simp [h, sumProb]
  · have h0 : (0 : Int) ∉ residual A B := fun h => hA (mem_residual.1 h).1
    rw [if_neg h, if_neg h, sumProb_disjointTerms P B _ h0]

/-- C6. For terms `A` and `B` that contain no `0`, no repeated literal and no
pair `+i`/`-i`, and every rational assignment `P`, the sum over the terms `T`
of `makeDisjointSet A B` of the product of `P(l)` over `l` in `T` equals
`Pr(B) - Pr(A and B)`, where `Pr(B)` is the product of `P(l)` over `B` and
`Pr(A and B)` is `0` if some literal of `A` is negated in `B` and otherwise the
product of `P(l)` over the literals of `B` followed by those of `A` absent
from `B`. -/
theorem makeDisjointSet_prob (P : Nat → ℚ) (A B : Set) (hA : WellFormed A)
    (_hB : WellFormed B) :
    ((makeDisjointSet A B).map (fun T => (T.map (litProb P)).prod)).sum =
      (B.map (litProb P)).prod -
        (if ∃ x ∈ A, -x ∈ B then 0
         else ((B ++ residual A B).map (litProb P)).prod) := by
  exact sumProb_makeDisjointSet P A B hA.1

theorem makeDisjointSet_prob_witness :
    WellFormed [1, 2, 3] ∧ WellFormed [2, 4] ∧
    ((makeDisjointSet [1, 2, 3] [2, 4]).map
        (fun T => (T.map (litProb (fun _ => 1 / 2))).prod)).sum =
      (([2, 4] : Set).map (litProb (fun _ => 1 / 2))).prod -
        (if ∃ x ∈ ([1, 2, 3] : Set), -x ∈ ([2, 4] : Set) then 0
         else ((([2, 4] : Set) ++ residual [1, 2, 3] [2, 4]).map
            (litProb (fun _ => 1 / 2))).prod) :=
  ⟨by decide, by decide,
    makeDisjointSet_prob (fun _ => 1 / 2) [1, 2, 3] [2, 4] (by decide) (by decide)⟩

/-- C5. For terms `A` and `B` containing no `0` and every truth assignment of
the components, some term of `makeDisjointSet A B` is satisfied if and only
if `B` is satisfied and `A` is not: the union of the output terms is
`B AND NOT A`. -/
theorem makeDisjointSet_union (A B : Set) (hA : (0 : Int) ∉ A) (_hB : (0 : Int) ∉ B)
    (σ : Nat → Bool) :
    (∃ T ∈ makeDisjointSet A B, termSat σ T = true) ↔
      (termSat σ B = true ∧ ¬ termSat σ A = true) := by
  rw [← anySat_iff, anySat_makeDisjointSet σ A B hA]
  simp

theorem makeDisjointSet_union_witness :
    (0 : Int) ∉ ([1, 2, 3] : Set) ∧ (0 : Int) ∉ ([2, 4] : Set) ∧
    ((∃ T ∈ makeDisjointSet [1, 2, 3] [2, 4], termSat (fun i => decide (i ≠ 3)) T = true) ↔
      (termSat (fun i => decide (i ≠ 3)) [2, 4] = true ∧
        ¬ termSat (fun i => decide (i ≠ 3)) [1, 2, 3] = true)) :=
  ⟨by decide, by decide,
    makeDisjointSet_union [1, 2, 3] [2, 4] (by decide) (by decide) (fun i => decide (i ≠ 3))⟩

/-- C7. When no literal of `A` has its negation in `B` and the residual list
`RC` (the literals of `A` absent from `B`, in the order of `A`) is non-empty,
`makeDisjointSet A B` returns exactly `|RC|` terms, the `i`-th (0-based) being
`B` followed by `RC[0..i-1]` unchanged and then `-RC[i]`. -/
theorem makeDisjointSet_terms (A B : Set) (hneg : ∀ x ∈ A, -x ∉ B)
    (_hne : residual A B ≠ []) :
    (makeDisjointSet A B).length = (residual A B).length ∧
    ∀ (i : Nat) (h : i < (residual A B).length),
      (makeDisjointSet A B)[i]? =
        some (B ++ (residual A B).take i ++ [-(residual A B)[i]]) := by
  have h : ¬ ∃ x ∈ A, -x ∈ B := by
    rintro ⟨x, hx, hxB⟩
    exact hneg x hx hxB
  rw [makeDisjointSet_eq, if_neg h]
  exact ⟨disjointTerms_length _ _, fun i hi => disjointTerms_getElem? _ _ i hi⟩

theorem makeDisjointSet_terms_witness :
    makeDisjointSet [1, 2, 3, 4, 5] [2, 4] = [[2, 4, -1], [2, 4, 1, -3], [2, 4, 1, 3, -5]] ∧
    residual [1, 2, 3, 4, 5] [2, 4] = [1, 3, 5] ∧
    ((makeDisjointSet [1, 2, 3, 4, 5] [2, 4]).length = (residual [1, 2, 3, 4, 5] [2, 4]).length ∧
      ∀ (i : Nat) (h : i < (residual [1, 2, 3, 4, 5] [2, 4]).length),
        (makeDisjointSet [1, 2, 3, 4, 5] [2, 4])[i]? =
          some ([2, 4] ++ (residual [1, 2, 3, 4, 5] [2, 4]).take i ++
            [-(residual [1, 2, 3, 4, 5] [2, 4])[i]])) :=
  ⟨by decide, by decide,
    makeDisjointSet_terms [1, 2, 3, 4, 5] [2, 4] (by decide) (by decide)⟩

/-- C8. If some literal `x` of `A` has its negation `-x` in `B`, then
`makeDisjointSet A B` returns the one-element list `[B]` with `B` unchanged. -/
theorem makeDisjointSet_already_disjoint (A B : Set) (h : ∃ x ∈ A, -x ∈ B) :
    makeDisjointSet A B = [B] := by
  rw [makeDisjointSet_eq, if_pos h]

theorem makeDisjointSet_already_disjoint_witness :
    makeDisjointSet [1, 2] [-1, 3] = [[-1, 3]] :=
  makeDisjointSet_already_disjoint [1, 2] [-1, 3] ⟨1, by decide, by decide⟩

/-- C9. Every term `T` returned by `makeDisjointSet A B` is disjoint from `A`:
`T` contains the negation of at least one literal of `A`. -/
theorem makeDisjointSet_disjoint_from_pivot (A B T : Set) (hT : T ∈ makeDisjointSet A B) :
    ∃ x ∈ A, -x ∈ T := by
  rw [makeDisjointSet_eq] at hT
  by_cases h : ∃ x ∈ A, -x ∈ B
  · rw [if_pos h] at hT
    simp only [List.mem_singleton] at hT
    subst hT
    exact h
  · rw [if_neg h] at hT
    obtain ⟨r, hr, hrT⟩ := mem_disjointTerms hT
    exact ⟨r, (mem_residual.1 hr).1, hrT⟩

theorem makeDisjointSet_disjoint_from_pivot_witness :
    ([2, 4, 1, -3] : Set) ∈ makeDisjointSet [1, 2, 3, 4, 5] [2, 4] ∧
    ∃ x ∈ ([1, 2, 3, 4, 5] : Set), -x ∈ ([2, 4, 1, -3] : Set) :=
  ⟨by decide, makeDisjointSet_disjoint_from_pivot [1, 2, 3, 4, 5] [2, 4] [2, 4, 1, -3] (by decide)⟩

/-- C10, as stated, fails: for `A = [1]` and `B = [1, 2]` the residual list is
empty and `makeDisjointSet` returns the empty list, yet the literal `2` of `B`
does not occur in `A`. -/
theorem makeDisjointSet_absorbed_not_subset :
    residual [1] [1, 2] = [] ∧ makeDisjointSet [1] [1, 2] = [] ∧
    ¬ (∀ l ∈ ([1, 2] : Set), l ∈ ([1] : Set)) := by
  decide

theorem makeDisjointSet_nil_iff (A B : Set) :
    makeDisjointSet A B = [] ↔ (∀ x ∈ A, -x ∉ B) ∧ makeDisjointSet.scan B A [] = some [] := by
  unfold makeDisjointSet
  rw [makeDisjointSet_scan_eq]
  by_cases h : ∃ x ∈ A, -x ∈ B
  · simp only [h, if_true]
    constructor
    · intro hc
      simp at hc
    · rintro ⟨hno, _⟩
      obtain ⟨x, hx, hxB⟩ := h
      exact absurd hxB (hno x hx)
  · simp only [h, if_false, List.nil_append]
    push_neg at h
    cases hr : residual A B with
    | nil =>
      simp only [List.isEmpty_nil, if_true, true_iff, and_true]
      exact h
    | cons r rs =>
      simp only [List.isEmpty_cons, Bool.false_eq_true, if_false, Option.some.injEq,
        reduceCtorEq, and_false, iff_false]
      rw [makeDisjointSet_emit_eq]
      simp [disjointTerms]

theorem makeDisjointSet_nil_subset (A B : Set) :
    (makeDisjointSet A B = [] → makeDisjointSet.scan B A [] = some [] ∧ ∀ x ∈ A, x ∈ B) ∧
    ((∀ x ∈ A, x ∈ B) → (∀ x ∈ A, -x ∉ B) → makeDisjointSet A B = []) := by
  have hscan : ∀ (h : ∀ x ∈ A, -x ∉ B),
      makeDisjointSet.scan B A [] = some (residual A B) := by
    intro h
    rw [makeDisjointSet_scan_eq, if_neg (by push_neg; exact h), List.nil_append]
  constructor
  · intro hres
    obtain ⟨hno, hs⟩ := (makeDisjointSet_nil_iff A B).1 hres
    refine ⟨hs, fun x hx => ?_⟩
    by_contra hxB
    have hmem : x ∈ residual A B := mem_residual.2 ⟨hx, hxB⟩
    rw [hscan hno, Option.some.injEq] at hs
    rw [hs] at hmem
    simp at hmem
  · intro hsub hno
    apply (makeDisjointSet_nil_iff A B).2
    refine ⟨hno, ?_⟩
    rw [hscan hno]
    congr 1
    unfold residual
    apply List.filter_eq_nil_iff.2
    intro x hx
    simpa using hsub x hx

/-- C10, amended. Whenever `makeDisjointSet A B` returns the empty list, the
residual list `RC` the code has built is empty and `A` is a subset of `B`:
every literal of `A` occurs in `B`. Conversely the empty list is returned
whenever `A` is a subset of `B` and no literal of `A` stands negated in `B`. -/
theorem makeDisjointSet_absorbed_subset (A B : Set) :
    (makeDisjointSet A B = [] → makeDisjointSet.scan B A [] = some [] ∧ ∀ x ∈ A, x ∈ B) ∧
    ((∀ x ∈ A, x ∈ B) → (∀ x ∈ A, -x ∉ B) → makeDisjointSet A B = []) :=
  makeDisjointSet_nil_subset A B

theorem makeDisjointSet_absorbed_subset_witness :
    makeDisjointSet [1] [1, 2] = [] ∧
    (makeDisjointSet.scan [1, 2] [1] [] = some [] ∧ ∀ x ∈ ([1] : Set), x ∈ ([1, 2] : Set)) ∧
    makeDisjointSet [3, 1] [1, 2, 3] = [] :=
  ⟨by decide, (makeDisjointSet_absorbed_subset [1] [1, 2]).1 (by decide),
    (makeDisjointSet_absorbed_subset [3, 1] [1, 2, 3]).2 (by decide) (by decide)⟩

/-! ### Termination of the pivot loop -/

theorem mem_disjointTerms_iff {B RC T : Set} :
    T ∈ disjointTerms B RC ↔ ∃ pre r post, RC = pre ++ r :: post ∧ T = B ++ pre ++ [-r] := by
  induction RC generalizing B with
  | nil => simp [disjointTerms]
  | cons x xs ih =>
    simp only [disjointTerms, List.mem_cons, ih]
    constructor
    · rintro (h | ⟨pre, r, post, h1, h2⟩)
      · exact ⟨[], x, xs, by simp, by simp [h]⟩
      · exact ⟨x :: pre, r, post, by simp [h1], by simp [h2]⟩
    · rintro ⟨pre, r, post, h1, h2⟩
      cases pre with
      | nil =>
        simp only [List.nil_append, List.cons.injEq] at h1
        left
        simp [h2, h1.1]
      | cons y ys =>
        simp only [List.cons_append, List.cons.injEq] at h1
        right
        exact ⟨ys, r, post, h1.2, by simp [h2, h1.1]⟩

theorem mem_makeDisjointSet {A B T : Set} (h : T ∈ makeDisjointSet A B) :
    T = B ∨ ((∀ x ∈ A, -x ∉ B) ∧
      ∃ pre r post, residual A B = pre ++ r :: post ∧ T = B ++ pre ++ [-r]) := by
  rw [makeDisjointSet_eq] at h
  by_cases hc : ∃ x ∈ A, -x ∈ B
  · rw [if_pos hc] at h
    left
    simpa using h
  · rw [if_neg hc] at h
    right
    refine ⟨fun x hx hxB => hc ⟨x, hx, hxB⟩, mem_disjointTerms_iff.1 h⟩

theorem mem_termVars {T : Set} {v : Nat} : v ∈ termVars T ↔ ∃ l ∈ T, l.natAbs = v := by
  simp [termVars]

theorem natAbs_mem_termVars {T : Set} {l : Int} (h : l ∈ T) : l.natAbs ∈ termVars T :=
  mem_termVars.2 ⟨l, h, rfl⟩

theorem termVars_makeDisjointSet {A B T : Set} (h : T ∈ makeDisjointSet A B) :
    termVars T ⊆ termVars A ∪ termVars B := by
  intro v hv
  obtain ⟨l, hl, rfl⟩ := mem_termVars.1 hv
  rcases mem_makeDisjointSet h with rfl | ⟨_, pre, r, post, h1, rfl⟩
  · exact Finset.mem_union_right _ (natAbs_mem_termVars hl)
  · simp only [List.append_assoc, List.mem_append, List.mem_singleton] at hl
    rcases hl with hl | hl | hl
    · exact Finset.mem_union_right _ (natAbs_mem_termVars hl)
    · have : l ∈ residual A B := by rw [h1]; simp [hl]
      exact Finset.mem_union_left _ (natAbs_mem_termVars (mem_residual.1 this).1)
    · have : r ∈ residual A B := by rw [h1]; simp
      subst hl
      rw [Int.natAbs_neg]
      exact Finset.mem_union_left _ (natAbs_mem_termVars (mem_residual.1 this).1)

theorem freeCount_makeDisjointSet (V : Finset Nat) {A B T : Set} (hA : termVars A ⊆ V)
    (h : T ∈ makeDisjointSet A B) : T = B ∨ freeCount V T < freeCount V B := by
  rcases mem_makeDisjointSet h with rfl | ⟨hc, pre, r, post, h1, rfl⟩
  · exact Or.inl rfl
  · right
    have hr : r ∈ residual A B := by rw [h1]; simp
    obtain ⟨hrA, hrB⟩ := mem_residual.1 hr
    have hnew : r.natAbs ∉ termVars B := by
      intro hv
      obtain ⟨l, hl, hlr⟩ := mem_termVars.1 hv
      rcases Int.natAbs_eq_natAbs_iff.1 hlr with h2 | h2
      · exact hrB (h2 ▸ hl)
      · exact hc r hrA (h2 ▸ hl)
    have hin : r.natAbs ∈ termVars (B ++ pre ++ [-r]) := by
      rw [← Int.natAbs_neg]
      exact natAbs_mem_termVars (by simp)
    unfold freeCount
    apply Finset.card_lt_card
    rw [Finset.ssubset_iff_of_subset]
    · refine ⟨r.natAbs, ?_, ?_⟩
      · exact Finset.mem_sdiff.2 ⟨hA (natAbs_mem_termVars hrA), hnew⟩
      · intro hmem
        exact (Finset.mem_sdiff.1 hmem).2 hin
    · intro v hv
      rw [Finset.mem_sdiff] at hv ⊢
      refine ⟨hv.1, fun hvB => hv.2 ?_⟩
      obtain ⟨l, hl, rfl⟩ := mem_termVars.1 hvB
      exact natAbs_mem_termVars (by simp [hl])

theorem cutExpand_reflTransGen_add_left (s : Multiset Nat) {t u : Multiset Nat}
    (h : Relation.ReflTransGen (Relation.CutExpand (· < ·)) t u) :
    Relation.ReflTransGen (Relation.CutExpand (· < ·)) (s + t) (s + u) :=
  Relation.ReflTransGen.lift (fun x => s + x)
    (fun _ _ hab => (Relation.cutExpand_add_left s).2 hab) h

theorem freeCounts_makeDisjointSet (V : Finset Nat) {A B : Set} (hA : termVars A ⊆ V) :
    Relation.ReflTransGen (Relation.CutExpand (· < ·))
      (freeCounts V (makeDisjointSet A B)) {freeCount V B} := by
  by_cases hB : makeDisjointSet A B = [B]
  · rw [hB]
    exact Relation.ReflTransGen.refl
  · apply Relation.ReflTransGen.single
    apply Relation.cutExpand_singleton
    intro x hx
    simp only [freeCounts, Multiset.mem_coe, List.mem_map] at hx
    obtain ⟨T, hT, rfl⟩ := hx
    rcases freeCount_makeDisjointSet V hA hT with rfl | hlt
    · exfalso
      apply hB
      rw [makeDisjointSet_eq] at hT ⊢
      by_cases hc : ∃ x ∈ A, -x ∈ T
      · rw [if_pos hc]
      · rw [if_neg hc] at hT
        obtain ⟨pre, r, post, _, h2⟩ := mem_disjointTerms_iff.1 hT
        have := congrArg List.length h2
        simp at this
    · exact hlt

theorem freeCounts_append (V : Finset Nat) (L M : List Set) :
    freeCounts V (L ++ M) = freeCounts V L + freeCounts V M := by
  simp [freeCounts]

theorem freeCounts_flatMap (V : Finset Nat) {A : Set} (hA : termVars A ⊆ V) (L : List Set) :
    Relation.ReflTransGen (Relation.CutExpand (· < ·))
      (freeCounts V (L.flatMap (makeDisjointSet A))) (freeCounts V L) := by
  induction L with
  | nil => exact Relation.ReflTransGen.refl
  | cons B rest ih =>
    rw [List.flatMap_cons, freeCounts_append]
    have h1 : freeCounts V (B :: rest) = {freeCount V B} + freeCounts V rest := by
      simp [freeCounts]
    rw [h1]
    refine Relation.ReflTransGen.trans (cutExpand_reflTransGen_add_left _ ih) ?_
    exact Relation.ReflTransGen.lift (fun x => x + freeCounts V rest)
      (fun _ _ hab => (Relation.cutExpand_add_right _).2 hab)
      (freeCounts_makeDisjointSet V hA)

theorem freeCounts_pivotStep (V : Finset Nat) {L' L : List Set} (h : pivotStep L' L)
    (hV : ∀ T ∈ L, termVars T ⊆ V) :
    Relation.TransGen (Relation.CutExpand (· < ·)) (freeCounts V L') (freeCounts V L) := by
  obtain ⟨A, B, rest, rfl, rfl⟩ := h
  have hA : termVars A ⊆ V := hV A (by simp)
  refine Relation.TransGen.tail' (freeCounts_flatMap V hA (B :: rest)) ?_
  have h1 : freeCounts V (A :: B :: rest) = {freeCount V A} + freeCounts V (B :: rest) := by
    simp [freeCounts]
  rw [h1]
  have h2 := (Relation.cutExpand_add_right (freeCounts V (B :: rest))).2
    (Relation.cutExpand_zero (r := fun a b : Nat => a < b) (x := freeCount V A))
  simpa using h2

theorem termVars_pivotStep (V : Finset Nat) {L' L : List Set} (h : pivotStep L' L)
    (hV : ∀ T ∈ L, termVars T ⊆ V) : ∀ T ∈ L', termVars T ⊆ V := by
  obtain ⟨A, B, rest, rfl, rfl⟩ := h
  intro T hT
  obtain ⟨C, hC, hTC⟩ := List.mem_flatMap.1 hT
  exact (termVars_makeDisjointSet hTC).trans
    (Finset.union_subset (hV A (by simp)) (hV C (List.mem_cons_of_mem _ hC)))

theorem pivotStep_acc (V : Finset Nat) (m : Multiset Nat) :
    ∀ L : List Set, (∀ T ∈ L, termVars T ⊆ V) → freeCounts V L = m → Acc pivotStep L := by
  have hwf : WellFounded (Relation.TransGen (Relation.CutExpand (fun a b : Nat => a < b))) :=
    (WellFounded.cutExpand (wellFounded_lt)).transGen
  induction m using hwf.induction with
  | _ m ih =>
    intro L hV hm
    constructor
    intro L' hstep
    subst hm
    exact ih _ (freeCounts_pivotStep V hstep hV) L' (termVars_pivotStep V hstep hV) rfl

theorem pivotStep_wf : WellFounded pivotStep := by
  constructor
  intro L
  refine pivotStep_acc ((L.flatMap id).map Int.natAbs).toFinset _ L ?_ rfl
  intro T hT v hv
  obtain ⟨l, hl, rfl⟩ := mem_termVars.1 hv
  simp only [List.mem_toFinset, List.mem_map, List.mem_flatMap, id]
  exact ⟨l, ⟨T, hT, hl⟩, rfl⟩

theorem toProbaSet_loop_spec (motive : List Set → ProbaSets → Prop)
    (hnil : motive [] [])
    (hsingle : ∀ A, motive [A] [A])
    (hstep : ∀ A B rest out,
      motive ((B :: rest).flatMap (makeDisjointSet A)) out → motive (A :: B :: rest) (A :: out))
    (L : List Set) :
    ∃ out, motive L out ∧
      ∃ N, ∀ fuel, N ≤ fuel → ∀ acc, toProbaSet.loop fuel L acc = some (acc ++ out) := by
  induction L using pivotStep_wf.induction with
  | _ L ih =>
    match L, ih with
    | [], _ => exact ⟨[], hnil, 0, fun fuel _ acc => by simp [toProbaSet.loop]⟩
    | [A], _ => exact ⟨[A], hsingle A, 0, fun fuel _ acc => by simp [toProbaSet.loop]⟩
    | A :: B :: rest, ih =>
      obtain ⟨out, hm, N, hN⟩ := ih ((B :: rest).flatMap (makeDisjointSet A))
        ⟨A, B, rest, rfl, rfl⟩
      refine ⟨A :: out, hstep A B rest out hm, N + 1, ?_⟩
      intro fuel hfuel acc
      obtain ⟨f, rfl⟩ : ∃ f, fuel = f + 1 := ⟨fuel - 1, by omega⟩
      rw [toProbaSet.loop, hN f (by omega)]
      simp

/-! ### Exact probability: basic facts -/

theorem prob_cons (P : Nat → ℚ) (v : Nat) (vs : List Nat) (E : (Nat → Bool) → Bool) :
    prob P (v :: vs) E =
      P v * prob P vs (fun σ => E (Function.update σ v true)) +
      (1 - P v) * prob P vs (fun σ => E (Function.update σ v false)) := by
  simp only [prob, states, List.map_append, List.sum_append, List.map_map]
  rw [← List.sum_map_mul_left, ← List.sum_map_mul_left]
  congr 2
  · apply List.map_congr_left
    intro s _
    simp only [Function.comp]
    split <;> simp
  · apply List.map_congr_left
    intro s _
    simp only [Function.comp]
    split <;> simp

theorem prob_nil (P : Nat → ℚ) (E : (Nat → Bool) → Bool) :
    prob P [] E = if E (fun _ => false) then 1 else 0 := by
  simp [prob, states]

theorem prob_false (P : Nat → ℚ) (vars : List Nat) : prob P vars (fun _ => false) = 0 := by
  simp [prob]

theorem prob_true (P : Nat → ℚ) (vars : List Nat) : prob P vars (fun _ => true) = 1 := by
  induction vars with
  | nil => simp [prob_nil]
  | cons v vs ih => rw [prob_cons, ih]; ring

theorem prob_or (P : Nat → ℚ) (vars : List Nat) (E F : (Nat → Bool) → Bool)
    (hex : ∀ σ, E σ = true → F σ = false) :
    prob P vars (fun σ => E σ || F σ) = prob P vars E + prob P vars F := by
  simp only [prob]
  rw [← List.sum_map_add]
  congr 1
  apply List.map_congr_left
  intro s _
  have := hex s.1
  by_cases hE : E s.1 = true
  · simp [hE, this hE]
  · simp [hE]

theorem prob_lit_and (P : Nat → ℚ) (vars : List Nat) (v : Nat) (hv : v ∈ vars)
    (hnd : vars.Nodup) (b : Bool) (E : (Nat → Bool) → Bool)
    (hE : ∀ σ c, E (Function.update σ v c) = E σ) :
    prob P vars (fun σ => (σ v == b) && E σ) =
      (if b then P v else 1 - P v) * prob P vars E := by
  induction vars generalizing E with
  | nil => simp at hv
  | cons u vs ih =>
    rw [List.nodup_cons] at hnd
    rw [prob_cons, prob_cons]
    by_cases huv : v = u
    · subst huv
      simp only [Function.update_same, hE]
      cases b
      · have h1 : (fun σ : Nat → Bool => (true == false) && E σ) = fun _ => false := by
          funext σ; simp
        have h2 : (fun σ : Nat → Bool => (false == false) && E σ) = E := by
          funext σ; simp
        rw [h1, h2, prob_false]
        simp only [Bool.false_eq_true, if_false]
        ring
      · have h1 : (fun σ : Nat → Bool => (true == true) && E σ) = E := by
          funext σ; simp
        have h2 : (fun σ : Nat → Bool => (false == true) && E σ) = fun _ => false := by
          funext σ; simp
        rw [h1, h2, prob_false]
        simp only [if_true]
        ring
    · have hvs : v ∈ vs := by
        rcases List.mem_cons.1 hv with h | h
        · exact absurd h huv
        · exact h
      have hupd : ∀ (σ : Nat → Bool) (c : Bool), Function.update σ u c v = σ v := by
        intro σ c
        exact Function.update_noteq huv c σ
      simp only [hupd]
      have hE' : ∀ c', ∀ σ c,
          (fun σ => E (Function.update σ u c')) (Function.update σ v c) =
            (fun σ => E (Function.update σ u c')) σ := by
        intro c' σ c
        simp only
        rw [Function.update_comm huv, hE]
      rw [ih hvs hnd.2 _ (hE' true), ih hvs hnd.2 _ (hE' false)]
      ring

theorem litSat_update_of_ne (σ : Nat → Bool) (v : Nat) (c : Bool) {l : Int}
    (h : l.natAbs ≠ v) : litSat (Function.update σ v c) l = litSat σ l := by
  simp [litSat, Function.update_noteq h]

theorem termSat_update_of_not_mem (σ : Nat → Bool) (v : Nat) (c : Bool) {T : Set}
    (h : v ∉ termVars T) : termSat (Function.update σ v c) T = termSat σ T := by
  induction T with
  | nil => rfl
  | cons l T ih =>
    have h1 : l.natAbs ≠ v := fun hl => h (hl ▸ natAbs_mem_termVars (by simp))
    have h2 : v ∉ termVars T := fun hv => by
      obtain ⟨x, hx, hxv⟩ := mem_termVars.1 hv
      exact h (mem_termVars.2 ⟨x, by simp [hx], hxv⟩)
    rw [termSat_cons, termSat_cons, litSat_update_of_ne σ v c h1, ih h2]

theorem WellFormed.tail {l : Int} {T : Set} (h : WellFormed (l :: T)) : WellFormed T := by
  obtain ⟨h0, hnd, hpm⟩ := h
  refine ⟨fun h => h0 (by simp [h]), (List.nodup_cons.1 hnd).2, ?_⟩
  intro x hx hneg
  exact hpm x (by simp [hx]) (by simp [hneg])

theorem WellFormed.head_not_mem_termVars {l : Int} {T : Set} (h : WellFormed (l :: T)) :
    l.natAbs ∉ termVars T := by
  obtain ⟨h0, hnd, hpm⟩ := h
  intro hv
  obtain ⟨x, hx, hxl⟩ := mem_termVars.1 hv
  rcases Int.natAbs_eq_natAbs_iff.1 hxl with h2 | h2
  · subst h2
    exact (List.nodup_cons.1 hnd).1 hx
  · subst h2
    exact hpm l (by simp) (by simp [hx])

theorem litSat_eq_beq (σ : Nat → Bool) (l : Int) :
    litSat σ l = (σ l.natAbs == decide (0 < l)) := by
  unfold litSat
  by_cases h : 0 < l <;> simp [h]

theorem prob_termSat (P : Nat → ℚ) (vars : List Nat) (hnd : vars.Nodup) (T : Set)
    (hT : WellFormed T) (hcov : ∀ l ∈ T, l.natAbs ∈ vars) :
    prob P vars (fun σ => termSat σ T) = termProb P T := by
  induction T with
  | nil =>
    have : (fun σ : Nat → Bool => termSat σ []) = fun _ => true := by
      funext σ; rfl
    rw [this, prob_true, termProb_nil]
  | cons l T ih =>
    have h1 : (fun σ : Nat → Bool => termSat σ (l :: T)) =
        fun σ => (σ l.natAbs == decide (0 < l)) && termSat σ T := by
      funext σ
      rw [termSat_cons, litSat_eq_beq]
    rw [h1, prob_lit_and P vars l.natAbs (hcov l (by simp)) hnd _ _
      (fun σ c => termSat_update_of_not_mem σ _ c hT.head_not_mem_termVars),
      ih hT.tail (fun x hx => hcov x (by simp [hx])), termProb_cons]
    congr 1
    unfold litProb
    by_cases h : 0 < l <;> simp [h]

/-! ### Well-formedness is preserved by the disjointing primitive -/

theorem residual_nodup {A : Set} (B : Set) (h : A.Nodup) : (residual A B).Nodup :=
  h.filter _

theorem WellFormed_makeDisjointSet {A B T : Set} (hA : WellFormed A) (hB : WellFormed B)
    (hT : T ∈ makeDisjointSet A B) : WellFormed T := by
  rcases mem_makeDisjointSet hT with rfl | ⟨hc, pre, r, post, h1, rfl⟩
  · exact hB
  · obtain ⟨hA0, hAnd, hApm⟩ := hA
    obtain ⟨hB0, hBnd, hBpm⟩ := hB
    have hres : (pre ++ r :: post).Nodup := h1 ▸ residual_nodup B hAnd
    have hmem : ∀ x, x ∈ pre ∨ x = r → x ∈ A ∧ x ∉ B := by
      intro x hx
      apply mem_residual.1
      rw [h1]
      rcases hx with hx | hx
      · simp [hx]
      · simp [hx]
    have hr := hmem r (Or.inr rfl)
    have hr0 : r ≠ 0 := fun h => hA0 (h ▸ hr.1)
    have hrpre : r ∉ pre := by
      intro h
      have := List.nodup_append.1 hres
      exact this.2.2 h (by simp) 
    have hprend : pre.Nodup := (List.nodup_append.1 hres).1
    refine ⟨?_, ?_, ?_⟩
    · simp only [List.append_assoc, List.mem_append, List.mem_singleton, not_or]
      refine ⟨hB0, fun h => hA0 (hmem 0 (Or.inl h)).1, fun h => hr0 ?_⟩
      exact neg_eq_zero.1 h.symm
    · rw [List.append_assoc, List.nodup_append]
      refine ⟨hBnd, ?_, ?_⟩
      · rw [List.nodup_append]
        refine ⟨hprend, by simp, ?_⟩
        intro x hx hx2
        simp only [List.mem_singleton] at hx2
        subst hx2
        exact hApm r hr.1 (hmem _ (Or.inl hx)).1
      · intro x hxB hx
        simp only [List.mem_append, List.mem_singleton] at hx
        rcases hx with hx | hx
        · exact (hmem x (Or.inl hx)).2 hxB
        · subst hx
          exact hc r hr.1 hxB
    · intro x hx hnx
      simp only [List.append_assoc, List.mem_append, List.mem_singleton] at hx hnx
      rcases hx with hx | hx | hx
      · rcases hnx with hnx | hnx | hnx
        · exact hBpm x hx hnx
        · have := hc (-x) (hmem _ (Or.inl hnx)).1
          rw [neg_neg] at this
          exact this hx
        · have : x = r := neg_inj.1 hnx
          exact hr.2 (this ▸ hx)
      · rcases hnx with hnx | hnx | hnx
        · exact hc x (hmem x (Or.inl hx)).1 hnx
        · exact hApm x (hmem x (Or.inl hx)).1 (hmem _ (Or.inl hnx)).1
        · have : x = r := neg_inj.1 hnx
          exact hrpre (this ▸ hx)
      · subst hx
        rw [neg_neg] at hnx
        rcases hnx with hnx | hnx | hnx
        · exact hr.2 hnx
        · exact hrpre hnx
        · exact hr0 (eq_zero_of_neg_eq hnx.symm)

/-! ### The probability-set pipelines compute the exact probability -/

theorem anySat_flatMap_makeDisjointSet (σ : Nat → Bool) (A : Set) (hA : (0 : Int) ∉ A)
    (L : List Set) :
    anySat σ (L.flatMap (makeDisjointSet A)) = (anySat σ L && !termSat σ A) := by
  induction L with
  | nil => simp [anySat]
  | cons B rest ih =>
    have h1 := anySat_makeDisjointSet σ A B hA
    simp only [anySat] at ih h1 ⊢
    rw [List.flatMap_cons, List.any_append, h1, ih, List.any_cons]
    cases termSat σ B <;> cases termSat σ A <;> cases List.any rest (termSat σ) <;> rfl

theorem mem_components {n v : Nat} : v ∈ components n ↔ 1 ≤ v ∧ v ≤ n := by
  simp only [components, List.mem_range']
  constructor
  · rintro ⟨i, hi, rfl⟩
    omega
  · rintro ⟨h1, h2⟩
    exact ⟨v - 1, by omega, by omega⟩

theorem components_nodup (n : Nat) : (components n).Nodup :=
  List.nodup_range' 1 n

theorem Covered_makeDisjointSet {n : Nat} {A B T : Set} (hA : Covered n A) (hB : Covered n B)
    (hT : T ∈ makeDisjointSet A B) : Covered n T := by
  intro l hl
  have h := termVars_makeDisjointSet hT (natAbs_mem_termVars hl)
  rcases Finset.mem_union.1 h with h | h
  · obtain ⟨x, hx, hxl⟩ := mem_termVars.1 h
    rw [← hxl]
    exact hA x hx
  · obtain ⟨x, hx, hxl⟩ := mem_termVars.1 h
    rw [← hxl]
    exact hB x hx

theorem toProbaSet_loop_exact (P : Nat → ℚ) (n : Nat) (L : List Set)
    (hL : ∀ T ∈ L, WellFormed T ∧ Covered n T) :
    ∃ out, ((∀ T ∈ out, Covered n T) ∧
        sumProb P out = prob P (components n) (fun σ => anySat σ L)) ∧
      ∃ N, ∀ fuel, N ≤ fuel → ∀ acc, toProbaSet.loop fuel L acc = some (acc ++ out) := by
  have key := toProbaSet_loop_spec
    (fun L out => (∀ T ∈ L, WellFormed T ∧ Covered n T) →
      ((∀ T ∈ out, Covered n T) ∧
        sumProb P out = prob P (components n) (fun σ => anySat σ L)))
    ?_ ?_ ?_ L
  · obtain ⟨out, h1, h2⟩ := key
    exact ⟨out, h1 hL, h2⟩
  · intro _
    refine ⟨by simp, ?_⟩
    have : (fun σ : Nat → Bool => anySat σ []) = fun _ => false := by
      funext σ; rfl
    rw [this, prob_false, sumProb_nil]
  · intro A hA
    obtain ⟨hwf, hcov⟩ := hA A (by simp)
    refine ⟨by simpa using hcov, ?_⟩
    have : (fun σ : Nat → Bool => anySat σ [A]) = fun σ => termSat σ A := by
      funext σ; simp [anySat]
    rw [this, prob_termSat P _ (components_nodup n) A hwf
      (fun l hl => mem_components.2 (hcov l hl))]
    simp [sumProb]
  · intro A B rest out ih hAll
    obtain ⟨hwfA, hcovA⟩ := hAll A (by simp)
    have hnext : ∀ T ∈ (B :: rest).flatMap (makeDisjointSet A), WellFormed T ∧ Covered n T := by
      intro T hT
      obtain ⟨C, hC, hTC⟩ := List.mem_flatMap.1 hT
      obtain ⟨hwfC, hcovC⟩ := hAll C (List.mem_cons_of_mem _ hC)
      exact ⟨WellFormed_makeDisjointSet hwfA hwfC hTC, Covered_makeDisjointSet hcovA hcovC hTC⟩
    obtain ⟨hcovOut, hsum⟩ := ih hnext
    refine ⟨?_, ?_⟩
    · intro T hT
      rcases List.mem_cons.1 hT with rfl | hT
      · exact hcovA
      · exact hcovOut T hT
    · rw [sumProb_cons, hsum, ← prob_termSat P _ (components_nodup n) A hwfA
        (fun l hl => mem_components.2 (hcovA l hl)), ← prob_or]
      · congr 1
        funext σ
        rw [anySat_flatMap_makeDisjointSet σ A hwfA.1]
        simp only [anySat, List.any_cons]
        cases termSat σ A <;> cases termSat σ B <;> cases List.any rest (termSat σ) <;> rfl
      · intro σ hσ
        rw [anySat_flatMap_makeDisjointSet σ A hwfA.1, hσ]
        simp

theorem ProbabilityMap_get_of_represents {pm : ProbabilityMap} {P : Nat → ℚ} {n : Nat}
    (hpm : pm.Represents P n) {l : Int} (h1 : 1 ≤ l.natAbs) (h2 : l.natAbs ≤ n) :
    pm.get l = Except.ok (litProb P l) := by
  obtain ⟨hpos, hneg⟩ := hpm l.natAbs h1 h2
  have hlen : l.natAbs < pm.pos_array.length := by
    by_contra hcon
    rw [List.getElem?_eq_none (by omega)] at hpos
    exact absurd hpos (by simp)
  unfold ProbabilityMap.get litProb
  rw [if_neg (by omega)]
  by_cases hl : 0 < l
  · have : l.toNat = l.natAbs := by omega
    rw [if_pos hl, if_pos hl, this, hpos]
  · have : (-l).toNat = l.natAbs := by omega
    rw [if_neg (by omega), if_neg hl, this, hneg]

theorem termAvail_go {pm : ProbabilityMap} {P : Nat → ℚ} {n : Nat}
    (hpm : pm.Represents P n) (T : Set) (hT : Covered n T) (init : ℚ) :
    T.foldlM (fun temp num => do
      let p ← pm.get num
      pure (temp * p)) init = Except.ok (init * termProb P T) := by
  induction T generalizing init with
  | nil => simp [termProb, pure, Except.pure]
  | cons l T ih =>
    obtain ⟨h1, h2⟩ := hT l (by simp)
    rw [List.foldlM_cons, ProbabilityMap_get_of_represents hpm h1 h2, termProb_cons,
      ← mul_assoc]
    exact ih (fun x hx => hT x (by simp [hx])) (init * litProb P l)

theorem termAvail_eq {pm : ProbabilityMap} {P : Nat → ℚ} {n : Nat}
    (hpm : pm.Represents P n) (T : Set) (hT : Covered n T) :
    termAvail pm T = Except.ok (termProb P T) := by
  unfold termAvail
  rw [termAvail_go hpm T hT, one_mul]

theorem sumAvail_go {pm : ProbabilityMap} {P : Nat → ℚ} {n : Nat}
    (hpm : pm.Represents P n) (L : List Set) (hL : ∀ T ∈ L, Covered n T) (init : ℚ) :
    L.foldlM (fun avail set => do
      let temp ← termAvail pm set
      pure (avail + temp)) init = Except.ok (init + sumProb P L) := by
  induction L generalizing init with
  | nil => simp [sumProb, pure, Except.pure]
  | cons T L ih =>
    rw [List.foldlM_cons, termAvail_eq hpm T (hL T (by simp)), sumProb_cons, ← add_assoc]
    exact ih (fun x hx => hL x (by simp [hx])) (init + termProb P T)

theorem pathset_probaSetToAvail_eq {pm : ProbabilityMap} {P : Nat → ℚ} {n : Nat}
    (hpm : pm.Represents P n) (src dst : Int) (L : List Set) (hL : ∀ T ∈ L, Covered n T) :
    pathset.probaSetToAvail src dst pm L = Except.ok (sumProb P L) := by
  unfold pathset.probaSetToAvail
  rw [sumAvail_go hpm L hL, zero_add]

theorem mcs_probaSetToAvail_eq {pm : ProbabilityMap} {P : Nat → ℚ} {n : Nat}
    (hpm : pm.Represents P n) (src dst : Int) (hs : 1 ≤ src.natAbs ∧ src.natAbs ≤ n)
    (hd : 1 ≤ dst.natAbs ∧ dst.natAbs ≤ n) (L : List Set) (hL : ∀ T ∈ L, Covered n T) :
    mcs.probaSetToAvail src dst pm L =
      Except.ok (litProb P src * litProb P dst * (1 - sumProb P L)) := by
  unfold mcs.probaSetToAvail
  rw [sumAvail_go hpm L hL, zero_add, ProbabilityMap_get_of_represents hpm hs.1 hs.2,
    ProbabilityMap_get_of_represents hpm hd.1 hd.2]
  rfl

theorem wellFormed_of_pos {T : Set} (hnd : T.Nodup) (hpos : ∀ x ∈ T, (0 : Int) < x) :
    WellFormed T := by
  refine ⟨fun h => absurd (hpos 0 h) (by decide), hnd, ?_⟩
  intro (x : Int) hx hnx
  have h1 : (0 : Int) < x := hpos x hx
  have h2 : (0 : Int) < -x := hpos (-x) hnx
  omega

theorem wellFormed_of_neg {T : Set} (hnd : T.Nodup) (hneg : ∀ x ∈ T, x < (0 : Int)) :
    WellFormed T := by
  refine ⟨fun h => absurd (hneg 0 h) (by decide), hnd, ?_⟩
  intro (x : Int) hx hnx
  have h1 : x < (0 : Int) := hneg x hx
  have h2 : -x < (0 : Int) := hneg (-x) hnx
  omega

theorem termSat_of_pos (σ : Nat → Bool) {T : Set} (hpos : ∀ x ∈ T, (0 : Int) < x) :
    termSat σ T = T.all (fun i => σ i.natAbs) := by
  induction T with
  | nil => rfl
  | cons x T ih =>
    rw [termSat_cons, ih (fun y hy => hpos y (by simp [hy]))]
    simp [litSat, hpos x (by simp)]

theorem termSat_map_neg (σ : Nat → Bool) {T : Set} (hpos : ∀ x ∈ T, (0 : Int) < x) :
    termSat σ (T.map (fun x => -x)) = T.all (fun i => !σ i.natAbs) := by
  induction T with
  | nil => rfl
  | cons x T ih =>
    rw [List.map_cons, termSat_cons, ih (fun y hy => hpos y (by simp [hy]))]
    have h1 : (0 : Int) < x := hpos x (by simp)
    have h2 : ¬ (0 : Int) < -x := by omega
    simp [litSat, h2]

theorem anySat_of_pos (σ : Nat → Bool) {L : List Set}
    (hpos : ∀ T ∈ L, ∀ x ∈ T, (0 : Int) < x) :
    anySat σ L = L.any (fun path => path.all (fun i => σ i.natAbs)) := by
  induction L with
  | nil => rfl
  | cons T L ih =>
    have h1 := termSat_of_pos σ (hpos T (by simp))
    have h2 := ih (fun S hS => hpos S (by simp [hS]))
    simp only [anySat] at h2 ⊢
    rw [List.any_cons, List.any_cons, h1, h2]

theorem anySat_map_neg (σ : Nat → Bool) {L : List Set}
    (hpos : ∀ T ∈ L, ∀ x ∈ T, (0 : Int) < x) :
    anySat σ (L.map (fun set => set.map (fun x => -x))) =
      L.any (fun cut => cut.all (fun i => !σ i.natAbs)) := by
  induction L with
  | nil => rfl
  | cons T L ih =>
    have h1 := termSat_map_neg σ (hpos T (by simp))
    have h2 := ih (fun S hS => hpos S (by simp [hS]))
    simp only [anySat] at h2 ⊢
    rw [List.map_cons, List.any_cons, List.any_cons, h1, h2]

theorem covered_of_pos {n : Nat} {T : Set}
    (h : ∀ x ∈ T, (0 : Int) < x ∧ x ≤ (n : Int)) : Covered n T := by
  intro (l : Int) hl
  obtain ⟨h1, h2⟩ := h l hl
  omega

theorem covered_map_neg {n : Nat} {T : Set}
    (h : ∀ x ∈ T, (0 : Int) < x ∧ x ≤ (n : Int)) : Covered n (T.map (fun x => -x)) := by
  intro (l : Int) hl
  obtain ⟨x, hx, rfl⟩ := List.mem_map.1 hl
  have hx' : (0 : Int) < x ∧ x ≤ (n : Int) := h x hx
  obtain ⟨h1, h2⟩ := hx'
  rw [Int.natAbs_neg]
  omega

theorem wellFormed_map_neg {T : Set} (hnd : T.Nodup) (hpos : ∀ x ∈ T, (0 : Int) < x) :
    WellFormed (T.map (fun x => -x)) := by
  apply wellFormed_of_neg
  · exact hnd.map neg_injective
  · intro (l : Int) hl
    obtain ⟨x, hx, rfl⟩ := List.mem_map.1 hl
    have hx' : (0 : Int) < x := hpos x hx
    show -x < 0
    omega

/-- C1. For every list `L` of path sets (each a duplicate-free list of positive
ids) and every rational probability assignment `P` stored by the map for the
ids `1..n` that cover `L`, with enough fuel `pathset::evalAvail` returns the
sum over the terms `T` of `pathset::toProbaSet` of the product of `P(l)` over
the literals of `T`, and this sum is the exact probability that at least one
path set of `L` has all its components up when components are independent. -/
theorem pathset_evalAvail_exact (L : PathSets) (pm : ProbabilityMap) (P : Nat → ℚ) (n : Nat)
    (hL : ∀ T ∈ L, T.Nodup ∧ ∀ x ∈ T, (0 : Int) < x ∧ x ≤ (n : Int))
    (hpm : pm.Represents P n) (s d : Int) :
    ∃ N, ∀ fuel, N ≤ fuel →
      ∃ out, pathset.toProbaSet fuel s d L = some out ∧
        pathset.evalAvail fuel s d pm L =
          some (Except.ok ((out.map (fun T => (T.map (litProb P)).prod)).sum)) ∧
        (out.map (fun T => (T.map (litProb P)).prod)).sum =
          prob P (components n)
            (fun σ => L.any (fun path => path.all (fun i => σ i.natAbs))) := by
  have hpos : ∀ T ∈ L, ∀ x ∈ T, (0 : Int) < x := fun T hT x hx => ((hL T hT).2 x hx).1
  have hinv : ∀ T ∈ L, WellFormed T ∧ Covered n T := fun T hT =>
    ⟨wellFormed_of_pos (hL T hT).1 (hpos T hT), covered_of_pos (hL T hT).2⟩
  obtain ⟨out, ⟨hcov, hsum⟩, N, hN⟩ := toProbaSet_loop_exact P n L hinv
  have hev : (fun σ : Nat → Bool => anySat σ L) =
      fun σ => L.any (fun path => path.all (fun i => σ i.natAbs)) := by
    funext σ
    exact anySat_of_pos σ hpos
  rw [hev] at hsum
  refine ⟨N, fun fuel hfuel => ?_⟩
  by_cases hE : L = []
  · subst hE
    refine ⟨[], by simp [pathset.toProbaSet], ?_, ?_⟩
    · simp [pathset.evalAvail, pathset.toProbaSet, pathset.probaSetToAvail, pure, Except.pure]
    · simp [prob]
  · have h1 : pathset.toProbaSet fuel s d L = some out := by
      unfold pathset.toProbaSet
      rw [if_neg (by simpa using hE), hN fuel hfuel []]
      simp
    refine ⟨out, h1, ?_, hsum⟩
    unfold pathset.evalAvail
    rw [h1, Option.map_some', pathset_probaSetToAvail_eq hpm s d out hcov]
    rfl

theorem pathset_evalAvail_exact_witness :
    (∀ T ∈ ([[1, 3], [1, 2, 3]] : PathSets),
      T.Nodup ∧ ∀ x ∈ T, (0 : Int) < x ∧ x ≤ ((3 : Nat) : Int)) ∧
    (ProbabilityMap.mk [0, 1, 1 / 2, 1] [0, 0, 1 / 2, 0]).Represents
      (fun i => if i = 2 then 1 / 2 else 1) 3 ∧
    pathset.evalAvail 1 1 3 (ProbabilityMap.mk [0, 1, 1 / 2, 1] [0, 0, 1 / 2, 0])
      [[1, 3], [1, 2, 3]] = some (Except.ok 1) ∧
    ∃ N, ∀ fuel, N ≤ fuel →
      ∃ out, pathset.toProbaSet fuel 1 3 [[1, 3], [1, 2, 3]] = some out ∧
        pathset.evalAvail fuel 1 3 (ProbabilityMap.mk [0, 1, 1 / 2, 1] [0, 0, 1 / 2, 0])
            [[1, 3], [1, 2, 3]] =
          some (Except.ok ((out.map
            (fun T => (T.map (litProb (fun i => if i = 2 then 1 / 2 else 1))).prod)).sum)) ∧
        (out.map (fun T => (T.map (litProb (fun i => if i = 2 then 1 / 2 else 1))).prod)).sum =
          prob (fun i => if i = 2 then 1 / 2 else 1) (components 3)
            (fun σ => ([[1, 3], [1, 2, 3]] : PathSets).any
              (fun path => path.all (fun i => σ i.natAbs))) := by
  have h1 : ∀ T ∈ ([[1, 3], [1, 2, 3]] : PathSets),
      T.Nodup ∧ ∀ x ∈ T, (0 : Int) < x ∧ x ≤ ((3 : Nat) : Int) := by decide
  have h2 : (ProbabilityMap.mk [0, 1, 1 / 2, 1] [0, 0, 1 / 2, 0]).Represents
      (fun i => if i = 2 then 1 / 2 else 1) 3 := by
    intro i hi1 hi3
    interval_cases i <;> norm_num
  refine ⟨h1, h2, ?_, pathset_evalAvail_exact _ _ _ 3 h1 h2 1 3⟩
  simp [pathset.evalAvail, pathset.toProbaSet, toProbaSet.loop, makeDisjointSet,
    makeDisjointSet.scan, pathset.probaSetToAvail, termAvail, ProbabilityMap.get]
  rfl

/-- C4. For every list of cut sets (duplicate-free lists of positive ids),
endpoints `s` and `d` and rational probability assignment `P` stored by the
map for the ids `1..n`, with enough fuel `mcs::evalAvail` returns
`P(s) * P(d) * (1 - U)`, where `U` is the exact probability that at least one
cut set other than the singletons `[s]` and `[d]` has all of its components
down. -/
theorem mcs_evalAvail_exact (cuts : MinCutSets) (pm : ProbabilityMap) (P : Nat → ℚ) (n : Nat)
    (hC : ∀ T ∈ cuts, T.Nodup ∧ ∀ x ∈ T, (0 : Int) < x ∧ x ≤ (n : Int))
    (hpm : pm.Represents P n) (s d : Int)
    (hs : (0 : Int) < s ∧ s ≤ (n : Int)) (hd : (0 : Int) < d ∧ d ≤ (n : Int)) :
    ∃ N, ∀ fuel, N ≤ fuel →
      mcs.evalAvail fuel s d pm cuts =
        some (Except.ok (P s.toNat * P d.toNat *
          (1 - prob P (components n)
            (fun σ => (cuts.filter (fun C => decide (C ≠ [s] ∧ C ≠ [d]))).any
              (fun cut => cut.all (fun i => !σ i.natAbs)))))) := by
  have hfilter : (cuts.filter (fun c => decide (c ≠ [s]))).filter (fun c => decide (c ≠ [d])) =
      cuts.filter (fun C => decide (C ≠ [s] ∧ C ≠ [d])) := by
    rw [List.filter_filter]
    apply List.filter_congr
    intro x _
    by_cases h1 : x = [s] <;> by_cases h2 : x = [d] <;> simp [h1, h2]
  generalize hK : cuts.filter (fun C => decide (C ≠ [s] ∧ C ≠ [d])) = K at hfilter
  have hKsub : ∀ T ∈ K, T ∈ cuts := by
    intro T hT
    rw [← hK] at hT
    exact (List.mem_filter.1 hT).1
  have hpos : ∀ T ∈ K, ∀ x ∈ T, (0 : Int) < x := fun T hT x hx =>
    ((hC T (hKsub T hT)).2 x hx).1
  have hinv : ∀ T ∈ K.map (fun set => set.map (fun x => -x)), WellFormed T ∧ Covered n T := by
    intro T hT
    obtain ⟨C, hCK, rfl⟩ := List.mem_map.1 hT
    exact ⟨wellFormed_map_neg (hC C (hKsub C hCK)).1 (hpos C hCK),
      covered_map_neg (hC C (hKsub C hCK)).2⟩
  obtain ⟨out, ⟨hcov, hsum⟩, N, hN⟩ := toProbaSet_loop_exact P n _ hinv
  have hev : (fun σ : Nat → Bool => anySat σ (K.map (fun set => set.map (fun x => -x)))) =
      fun σ => K.any (fun cut => cut.all (fun i => !σ i.natAbs)) := by
    funext σ
    exact anySat_map_neg σ hpos
  rw [hev] at hsum
  have hs' : 1 ≤ s.natAbs ∧ s.natAbs ≤ n := by
    have h : (0 : Int) < s ∧ s ≤ (n : Int) := hs
    omega
  have hd' : 1 ≤ d.natAbs ∧ d.natAbs ≤ n := by
    have h : (0 : Int) < d ∧ d ≤ (n : Int) := hd
    omega
  have hPs : litProb P s = P s.toNat := by
    have h : (0 : Int) < s := hs.1
    have h2 : s.natAbs = s.toNat := by omega
    simp [litProb, h, h2]
  have hPd : litProb P d = P d.toNat := by
    have h : (0 : Int) < d := hd.1
    have h2 : d.natAbs = d.toNat := by omega
    simp [litProb, h, h2]
  refine ⟨N, fun fuel hfuel => ?_⟩
  unfold mcs.evalAvail mcs.toProbaSet
  simp only [hfilter]
  by_cases hE : K = []
  · subst hE
    simp only [List.isEmpty_nil, if_true, Option.map_some']
    rw [mcs_probaSetToAvail_eq hpm s d hs' hd' [] (by simp), hPs, hPd]
    simp [prob, sumProb]
  · rw [if_neg (by simpa using hE), hN fuel hfuel [], List.nil_append, Option.map_some',
      mcs_probaSetToAvail_eq hpm s d hs' hd' out hcov, hPs, hPd, hsum]

theorem mcs_evalAvail_exact_witness :
    (∀ T ∈ ([[1], [3], [2]] : MinCutSets),
      T.Nodup ∧ ∀ x ∈ T, (0 : Int) < x ∧ x ≤ ((3 : Nat) : Int)) ∧
    (ProbabilityMap.mk [0, 9 / 10, 9 / 10, 9 / 10] [0, 1 / 10, 1 / 10, 1 / 10]).Represents
      (fun _ => 9 / 10) 3 ∧
    mcs.evalAvail 1 1 3
      (ProbabilityMap.mk [0, 9 / 10, 9 / 10, 9 / 10] [0, 1 / 10, 1 / 10, 1 / 10])
      [[1], [3], [2]] = some (Except.ok (729 / 1000)) ∧
    ∃ N, ∀ fuel, N ≤ fuel →
      mcs.evalAvail fuel 1 3
          (ProbabilityMap.mk [0, 9 / 10, 9 / 10, 9 / 10] [0, 1 / 10, 1 / 10, 1 / 10])
          [[1], [3], [2]] =
        some (Except.ok ((fun _ => 9 / 10 : Nat → ℚ) (1 : Int).toNat *
          (fun _ => 9 / 10 : Nat → ℚ) (3 : Int).toNat *
          (1 - prob (fun _ => 9 / 10) (components 3)
            (fun σ => (([[1], [3], [2]] : MinCutSets).filter
                (fun C => decide (C ≠ [1] ∧ C ≠ [3]))).any
              (fun cut => cut.all (fun i => !σ i.natAbs)))))) := by
  have h1 : ∀ T ∈ ([[1], [3], [2]] : MinCutSets),
      T.Nodup ∧ ∀ x ∈ T, (0 : Int) < x ∧ x ≤ ((3 : Nat) : Int) := by decide
  have h2 : (ProbabilityMap.mk [0, 9 / 10, 9 / 10, 9 / 10]
      [0, 1 / 10, 1 / 10, 1 / 10]).Represents (fun _ => 9 / 10) 3 := by
    intro i hi1 hi3
    interval_cases i <;> norm_num
  refine ⟨h1, h2, ?_, mcs_evalAvail_exact _ _ _ 3 h1 h2 1 3 (by decide) (by decide)⟩
  simp [mcs.evalAvail, mcs.toProbaSet, toProbaSet.loop, mcs.probaSetToAvail, termAvail,
    ProbabilityMap.get, bind, Except.bind, pure, Except.pure]
  norm_num

/-! ### The merge-style set operations -/

theorem set_difference_go_eq_filter (fuel : Nat) (a b : List Int)
    (hfuel : a.length + b.length ≤ fuel) (ha : a.Sorted (· < ·)) (hb : b.Sorted (· ≤ ·)) :
    set_difference.go fuel a b = a.filter (fun x => decide (x ∉ b)) := by
  induction fuel generalizing a b with
  | zero =>
    have : a = [] := List.length_eq_zero.1 (by omega)
    simp [set_difference.go, this]
  | succ f ih =>
    cases a with
    | nil => simp [set_difference.go]
    | cons x xs =>
      cases b with
      | nil => simp [set_difference.go]
      | cons y ys =>
        simp only [List.length_cons] at hfuel
        have hxs : xs.Sorted (· < ·) := ha.of_cons
        have hys : ys.Sorted (· ≤ ·) := hb.of_cons
        have hx : ∀ z ∈ xs, x < z := fun z hz => List.rel_of_sorted_cons ha z hz
        have hy : ∀ z ∈ ys, y ≤ z := fun z hz => List.rel_of_sorted_cons hb z hz
        simp only [set_difference.go]
        split
        · rename_i hlt
          have hxb : x ∉ y :: ys := by
            intro h
            rcases List.mem_cons.1 h with h | h
            · omega
            · have := hy x h
              omega
          rw [ih xs (y :: ys) (by simp only [List.length_cons]; omega) hxs hb,
            List.filter_cons_of_pos (by simpa using hxb)]
        · split
          · rename_i hnlt hlt
            rw [ih (x :: xs) ys (by simp only [List.length_cons]; omega) ha hys]
            apply List.filter_congr
            intro z hz
            have hzy : z ≠ y := by
              rcases List.mem_cons.1 hz with h | h
              · omega
              · have := hx z h
                omega
            simp [hzy]
          · rename_i hnlt hnlt2
            have hxy : x = y := by omega
            subst hxy
            rw [ih xs ys (by omega) hxs hys]
            have hxin : x ∈ x :: ys := by simp
            rw [List.filter_cons_of_neg (by simp)]
            apply List.filter_congr
            intro z hz
            have hzx : z ≠ x := by
              have := hx z hz
              omega
            simp [hzx]

theorem set_difference_eq_filter (a b : List Int) (ha : a.Sorted (· < ·))
    (hb : b.Sorted (· ≤ ·)) :
    set_difference a b = a.filter (fun x => decide (x ∉ b)) :=
  set_difference_go_eq_filter _ a b (le_refl _) ha hb

theorem set_intersection_go_eq_filter (fuel : Nat) (a b : List Int)
    (hfuel : a.length + b.length ≤ fuel) (ha : a.Sorted (· < ·)) (hb : b.Sorted (· < ·)) :
    set_intersection.go fuel a b = a.filter (fun x => decide (x ∈ b)) := by
  induction fuel generalizing a b with
  | zero =>
    have : a = [] := List.length_eq_zero.1 (by omega)
    simp [set_intersection.go, this]
  | succ f ih =>
    cases a with
    | nil => simp [set_intersection.go]
    | cons x xs =>
      cases b with
      | nil => simp [set_intersection.go]
      | cons y ys =>
        simp only [List.length_cons] at hfuel
        have hxs : xs.Sorted (· < ·) := ha.of_cons
        have hys : ys.Sorted (· < ·) := hb.of_cons
        have hx : ∀ z ∈ xs, x < z := fun z hz => List.rel_of_sorted_cons ha z hz
        have hy : ∀ z ∈ ys, y < z := fun z hz => List.rel_of_sorted_cons hb z hz
        simp only [set_intersection.go]
        split
        · rename_i hlt
          have hxb : x ∉ y :: ys := by
            intro h
            rcases List.mem_cons.1 h with h | h
            · omega
            · have := hy x h
              omega
          rw [ih xs (y :: ys) (by simp only [List.length_cons]; omega) hxs hb,
            List.filter_cons_of_neg (by simpa using hxb)]
        · split
          · rename_i hnlt hlt
            rw [ih (x :: xs) ys (by simp only [List.length_cons]; omega) ha hys]
            apply List.filter_congr
            intro z hz
            have hzy : z ≠ y := by
              rcases List.mem_cons.1 hz with h | h
              · omega
              · have := hx z h
                omega
            simp [hzy]
          · rename_i hnlt hnlt2
            have hxy : x = y := by omega
            subst hxy
            rw [ih xs ys (by omega) hxs hys]
            have hxin : x ∈ x :: ys := by simp
            rw [List.filter_cons_of_pos (by simp)]
            congr 1
            apply List.filter_congr
            intro z hz
            have hzx : z ≠ x := by
              have := hx z hz
              omega
            simp [hzx]

theorem set_intersection_eq_filter (a b : List Int) (ha : a.Sorted (· < ·))
    (hb : b.Sorted (· < ·)) :
    set_intersection a b = a.filter (fun x => decide (x ∈ b)) :=
  set_intersection_go_eq_filter _ a b (le_refl _) ha hb

theorem sortInts_sorted (l : List Int) : (sortInts l).Sorted (· ≤ ·) :=
  List.sorted_insertionSort (· ≤ ·) l

theorem sortInts_perm (l : List Int) : (sortInts l).Perm l :=
  List.perm_insertionSort (· ≤ ·) l

theorem mem_sortInts {l : List Int} {x : Int} : x ∈ sortInts l ↔ x ∈ l :=
  (sortInts_perm l).mem_iff

theorem isSubSet_iff (a b : SDP) : utils.isSubSet a b = true ↔ Dominates a b := by
  unfold utils.isSubSet Dominates
  cases ha : a.is_complementary <;> cases hb : b.is_complementary <;> simp

theorem equals_iff (a b : SDP) : a.equals b = true ↔ a = b := by
  unfold SDP.equals
  cases a with
  | mk fa sa =>
    cases b with
    | mk fb sb =>
      simp only [SDP.mk.injEq]
      constructor
      · intro h
        split at h
        · exact absurd h (by simp)
        · rename_i hne
          simp only [Bool.or_eq_true, bne_iff_ne, ne_eq, not_or, not_not] at hne
          exact ⟨hne.1, by simpa using h⟩
      · rintro ⟨rfl, rfl⟩
        simp

theorem Dominates.refl (a : SDP) : Dominates a a := ⟨rfl, fun _ h => h⟩

theorem Dominates.trans {a b c : SDP} (h1 : Dominates a b) (h2 : Dominates b c) :
    Dominates a c :=
  ⟨h1.1.trans h2.1, fun x hx => h2.2 x (h1.2 x hx)⟩

theorem absorb_inner_length (cur : SDP) (rest : List SDP) (marks : List Bool) :
    (absorbSDPSet.inner cur rest marks).2.length = marks.length := by
  induction rest generalizing marks with
  | nil => simp [absorbSDPSet.inner]
  | cons o rest ih =>
    cases marks with
    | nil => simp [absorbSDPSet.inner]
    | cons m marks =>
      simp only [absorbSDPSet.inner]
      split
      · simp [ih]
      · split
        · simp [ih]
        · split
          · simp [ih]
          · split
            · simp
            · simp [ih]

theorem absorb_inner_newly (cur : SDP) (rest : List SDP) (marks : List Bool) (x : SDP)
    (h : (x, false) ∈ rest.zip marks) :
    (x, false) ∈ rest.zip (absorbSDPSet.inner cur rest marks).2 ∨ Dominates cur x := by
  induction rest generalizing marks with
  | nil => simp at h
  | cons o rest ih =>
    cases marks with
    | nil => simp at h
    | cons m marks =>
      simp only [List.zip_cons_cons, List.mem_cons, Prod.mk.injEq] at h
      simp only [absorbSDPSet.inner]
      split
      · rename_i hm
        rcases h with ⟨_, h⟩ | h
        · simp [hm] at h
        · rcases ih marks h with h' | h'
          · left; simp [h']
          · right; exact h'
      · split
        · rename_i hm heq
          rcases h with ⟨rfl, _⟩ | h
          · right
            rw [(equals_iff _ _).1 heq]
            exact Dominates.refl _
          · rcases ih marks h with h' | h'
            · left; simp [h']
            · right; exact h'
        · split
          · rename_i hm hne hsub
            rcases h with ⟨rfl, _⟩ | h
            · right
              exact (isSubSet_iff _ _).1 hsub
            · rcases ih marks h with h' | h'
              · left; simp [h']
              · right; exact h'
          · split
            · left
              simp only [List.zip_cons_cons, List.mem_cons, Prod.mk.injEq]
              exact h
            · rcases h with ⟨rfl, rfl⟩ | h
              · left; simp
              · rcases ih marks h with h' | h'
                · left; simp [h']
                · right; exact h'

theorem absorb_inner_mono (cur : SDP) (rest : List SDP) (marks : List Bool) (x : SDP)
    (h : (x, false) ∈ rest.zip (absorbSDPSet.inner cur rest marks).2) :
    (x, false) ∈ rest.zip marks := by
  induction rest generalizing marks with
  | nil => simp at h
  | cons o rest ih =>
    cases marks with
    | nil => simp [absorbSDPSet.inner] at h
    | cons m marks =>
      simp only [absorbSDPSet.inner] at h
      simp only [List.zip_cons_cons, List.mem_cons, Prod.mk.injEq]
      split at h
      · simp only [List.zip_cons_cons, List.mem_cons, Prod.mk.injEq] at h
        rcases h with h | h
        · left; exact h
        · right; exact ih marks h
      · split at h
        · simp only [List.zip_cons_cons, List.mem_cons, Prod.mk.injEq] at h
          rcases h with ⟨_, h⟩ | h
          · simp at h
          · right; exact ih marks h
        · split at h
          · simp only [List.zip_cons_cons, List.mem_cons, Prod.mk.injEq] at h
            rcases h with ⟨_, h⟩ | h
            · simp at h
            · right; exact ih marks h
          · split at h
            · simpa using h
            · simp only [List.zip_cons_cons, List.mem_cons, Prod.mk.injEq] at h
              rcases h with h | h
              · left; exact h
              · right; exact ih marks h

theorem absorb_inner_true (cur : SDP) (rest : List SDP) (marks : List Bool)
    (h : (absorbSDPSet.inner cur rest marks).1 = true) :
    ∃ y, (y, false) ∈ rest.zip (absorbSDPSet.inner cur rest marks).2 ∧ Dominates y cur := by
  induction rest generalizing marks with
  | nil => simp [absorbSDPSet.inner] at h
  | cons o rest ih =>
    cases marks with
    | nil => simp [absorbSDPSet.inner] at h
    | cons m marks =>
      simp only [absorbSDPSet.inner] at h ⊢
      split
      · rename_i hm
        rw [if_pos hm] at h
        obtain ⟨y, hy, hd⟩ := ih marks h
        exact ⟨y, by simp [hy], hd⟩
      · rename_i hm
        rw [if_neg hm] at h
        split
        · rename_i heq
          rw [if_pos heq] at h
          obtain ⟨y, hy, hd⟩ := ih marks h
          exact ⟨y, by simp [hy], hd⟩
        · rename_i heq
          rw [if_neg heq] at h
          split
          · rename_i hsub
            rw [if_pos hsub] at h
            obtain ⟨y, hy, hd⟩ := ih marks h
            exact ⟨y, by simp [hy], hd⟩
          · rename_i hsub
            rw [if_neg hsub] at h
            split
            · rename_i hsup
              refine ⟨o, ?_, (isSubSet_iff _ _).1 hsup⟩
              have : m = false := by simpa using hm
              simp [this]
            · rename_i hsup
              rw [if_neg hsup] at h
              obtain ⟨y, hy, hd⟩ := ih marks h
              exact ⟨y, by simp [hy], hd⟩

theorem absorb_inner_false (cur : SDP) (rest : List SDP) (marks : List Bool)
    (h : (absorbSDPSet.inner cur rest marks).1 = false) (y : SDP)
    (hy : (y, false) ∈ rest.zip (absorbSDPSet.inner cur rest marks).2) :
    ¬ Dominates cur y ∧ ¬ Dominates y cur := by
  induction rest generalizing marks with
  | nil => simp at hy
  | cons o rest ih =>
    cases marks with
    | nil => simp [absorbSDPSet.inner] at hy
    | cons m marks =>
      simp only [absorbSDPSet.inner] at h hy
      split at hy
      · rename_i hm
        rw [if_pos hm] at h
        simp only [List.zip_cons_cons, List.mem_cons, Prod.mk.injEq] at hy
        rcases hy with ⟨_, hy⟩ | hy
        · simp [hm] at hy
        · exact ih marks h hy
      · rename_i hm
        rw [if_neg hm] at h
        split at hy
        · rename_i heq
          rw [if_pos heq] at h
          simp only [List.zip_cons_cons, List.mem_cons, Prod.mk.injEq] at hy
          rcases hy with ⟨_, hy⟩ | hy
          · simp at hy
          · exact ih marks h hy
        · rename_i heq
          rw [if_neg heq] at h
          split at hy
          · rename_i hsub
            rw [if_pos hsub] at h
            simp only [List.zip_cons_cons, List.mem_cons, Prod.mk.injEq] at hy
            rcases hy with ⟨_, hy⟩ | hy
            · simp at hy
            · exact ih marks h hy
          · rename_i hsub
            rw [if_neg hsub] at h
            split at hy
            · rename_i hsup
              rw [if_pos hsup] at h
              simp at h
            · rename_i hsup
              rw [if_neg hsup] at h
              simp only [List.zip_cons_cons, List.mem_cons, Prod.mk.injEq] at hy
              rcases hy with ⟨rfl, _⟩ | hy
              · exact ⟨fun hd => hsub ((isSubSet_iff _ _).2 hd),
                  fun hd => hsup ((isSubSet_iff _ _).2 hd)⟩
              · exact ih marks h hy

theorem absorb_outer_sublist (sdps : List SDP) (marks : List Bool) :
    (absorbSDPSet.outer sdps marks).Sublist sdps := by
  induction sdps generalizing marks with
  | nil => simp [absorbSDPSet.outer]
  | cons cur rest ih =>
    cases marks with
    | nil => simp [absorbSDPSet.outer]
    | cons m marks =>
      simp only [absorbSDPSet.outer]
      split
      · exact (ih marks).cons cur
      · split
        · exact (ih _).cons₂ cur
        · exact (ih _).cons cur

theorem absorb_outer_unmarked (sdps : List SDP) (marks : List Bool) (y : SDP)
    (hy : y ∈ absorbSDPSet.outer sdps marks) : (y, false) ∈ sdps.zip marks := by
  induction sdps generalizing marks with
  | nil => simp [absorbSDPSet.outer] at hy
  | cons cur rest ih =>
    cases marks with
    | nil => simp [absorbSDPSet.outer] at hy
    | cons m marks =>
      simp only [absorbSDPSet.outer] at hy
      simp only [List.zip_cons_cons, List.mem_cons, Prod.mk.injEq]
      split at hy
      · right; exact ih marks hy
      · rename_i hm
        have hm' : m = false := by simpa using hm
        split at hy
        · rcases List.mem_cons.1 hy with rfl | hy
          · left; exact ⟨rfl, hm'.symm⟩
          · right; exact absorb_inner_mono cur rest marks y (ih _ hy)
        · right; exact absorb_inner_mono cur rest marks y (ih _ hy)

theorem absorb_outer_covers (sdps : List SDP) (marks : List Bool) (x : SDP)
    (hx : (x, false) ∈ sdps.zip marks) :
    ∃ y ∈ absorbSDPSet.outer sdps marks, Dominates y x := by
  induction sdps generalizing marks x with
  | nil => simp at hx
  | cons cur rest ih =>
    cases marks with
    | nil => simp at hx
    | cons m marks =>
      simp only [List.zip_cons_cons, List.mem_cons, Prod.mk.injEq] at hx
      simp only [absorbSDPSet.outer]
      split
      · rename_i hm
        rcases hx with ⟨_, hx⟩ | hx
        · simp [hm] at hx
        · exact ih marks x hx
      · have hcur : ∃ y ∈ (if (!(absorbSDPSet.inner cur rest marks).1) = true then
              cur :: absorbSDPSet.outer rest (absorbSDPSet.inner cur rest marks).2
            else absorbSDPSet.outer rest (absorbSDPSet.inner cur rest marks).2),
            Dominates y cur := by
          cases ha : (absorbSDPSet.inner cur rest marks).1 with
          | false => exact ⟨cur, by simp, Dominates.refl cur⟩
          | true =>
            obtain ⟨z, hz, hd⟩ := absorb_inner_true cur rest marks ha
            obtain ⟨y, hy, hd2⟩ := ih _ z hz
            exact ⟨y, by simpa using hy, hd2.trans hd⟩
        rcases hx with ⟨rfl, _⟩ | hx
        · exact hcur
        · rcases absorb_inner_newly cur rest marks x hx with h | h
          · obtain ⟨y, hy, hd⟩ := ih _ x h
            refine ⟨y, ?_, hd⟩
            split
            · exact List.mem_cons_of_mem _ hy
            · exact hy
          · obtain ⟨y, hy, hd⟩ := hcur
            exact ⟨y, hy, hd.trans h⟩

theorem absorb_outer_antichain (sdps : List SDP) (marks : List Bool) :
    (absorbSDPSet.outer sdps marks).Pairwise
      (fun a b => ¬ Dominates a b ∧ ¬ Dominates b a) := by
  induction sdps generalizing marks with
  | nil => simp [absorbSDPSet.outer]
  | cons cur rest ih =>
    cases marks with
    | nil => simp [absorbSDPSet.outer]
    | cons m marks =>
      simp only [absorbSDPSet.outer]
      split
      · exact ih marks
      · split
        · rename_i ha
          have ha' : (absorbSDPSet.inner cur rest marks).1 = false := by simpa using ha
          rw [List.pairwise_cons]
          refine ⟨fun y hy => ?_, ih _⟩
          exact absorb_inner_false cur rest marks ha' y (absorb_outer_unmarked _ _ y hy)
        · exact ih _

theorem absorbSDPSet_sublist (S : SDPSets) : (absorbSDPSet S).Sublist S :=
  absorb_outer_sublist S _

theorem absorbSDPSet_covers (S : SDPSets) (x : SDP) (hx : x ∈ S) :
    ∃ y ∈ absorbSDPSet S, Dominates y x := by
  apply absorb_outer_covers
  induction S with
  | nil => simp at hx
  | cons a S ih =>
    rw [List.length_cons, List.replicate_succ, List.zip_cons_cons]
    rcases List.mem_cons.1 hx with rfl | h
    · simp
    · exact List.mem_cons_of_mem _ (ih h)

theorem absorbSDPSet_antichain (S : SDPSets) :
    (absorbSDPSet S).Pairwise (fun a b => ¬ Dominates a b ∧ ¬ Dominates b a) :=
  absorb_outer_antichain S _

/-! ### Elimination -/

theorem eliminate_fold_normal (N : SDPSets) (hN : ∀ t ∈ N, t.is_complementary = false)
    (e : List Int) (out : SDPSets) (he : e.Sorted (· ≤ ·)) :
    ∃ E : List Int, E.Sorted (· ≤ ·) ∧
      (∀ x, x ∈ E ↔ x ∈ e ∨ ∃ t ∈ N, x ∈ t.set) ∧
      N.foldl eliminateSDPSet.step (e, out) = (E, out ++ N) := by
  induction N generalizing e out with
  | nil => exact ⟨e, he, by simp, by simp⟩
  | cons t N ih =>
    have ht : t.is_complementary = false := hN t (by simp)
    obtain ⟨E, hE1, hE2, hE3⟩ := ih (fun u hu => hN u (by simp [hu]))
      (sortInts (e ++ t.set)) (out ++ [t]) (sortInts_sorted _)
    refine ⟨E, hE1, ?_, ?_⟩
    · intro x
      rw [hE2 x, mem_sortInts]
      simp only [List.mem_append, List.mem_cons, exists_eq_or_imp]
      tauto
    · rw [List.foldl_cons]
      have : eliminateSDPSet.step (e, out) t = (sortInts (e ++ t.set), out ++ [t]) := by
        simp [eliminateSDPSet.step, ht]
      rw [this, hE3]
      simp

theorem eliminate_fold_compl (C : SDPSets) (hC : ∀ t ∈ C, t.is_complementary = true)
    (E : List Int) (out : SDPSets) :
    C.foldl eliminateSDPSet.step (E, out) =
      (E, out ++ C.filterMap (eliminateSDPSet.reduce E)) := by
  induction C generalizing out with
  | nil => simp
  | cons c C ih =>
    have hc : c.is_complementary = true := hC c (by simp)
    rw [List.foldl_cons]
    by_cases hemp : (set_difference c.set E).isEmpty = true
    · have hstep : eliminateSDPSet.step (E, out) c = (E, out) := by
        simp [eliminateSDPSet.step, hc, hemp]
      have hred : eliminateSDPSet.reduce E c = none := by
        simp [eliminateSDPSet.reduce, hemp]
      rw [hstep, List.filterMap_cons_none hred]
      exact ih (fun u hu => hC u (by simp [hu])) out
    · have hstep : eliminateSDPSet.step (E, out) c =
          (E, out ++ [SDP.mk true (set_difference c.set E)]) := by
        simp [eliminateSDPSet.step, hc, hemp]
      have hred : eliminateSDPSet.reduce E c = some (SDP.mk true (set_difference c.set E)) := by
        simp [eliminateSDPSet.reduce, hemp]
      rw [hstep, List.filterMap_cons_some hred, ih (fun u hu => hC u (by simp [hu]))]
      simp

theorem eliminateSDPSet_eq (S : SDPSets) :
    ∃ E : List Int, E.Sorted (· ≤ ·) ∧
      (∀ x, x ∈ E ↔ ∃ t ∈ S, t.is_complementary = false ∧ x ∈ t.set) ∧
      eliminateSDPSet S =
        S.filter (fun a => !a.is_complementary) ++
          (S.filter (fun a => a.is_complementary)).filterMap (eliminateSDPSet.reduce E) := by
  obtain ⟨E, hE1, hE2, hE3⟩ := eliminate_fold_normal (S.filter (fun a => !a.is_complementary))
    (fun t ht => by simpa using (List.mem_filter.1 ht).2) [] [] (by simp)
  refine ⟨E, hE1, ?_, ?_⟩
  · intro x
    rw [hE2 x]
    simp only [List.not_mem_nil, false_or, List.mem_filter, Bool.not_eq_true']
    constructor
    · rintro ⟨t, ⟨h1, h2⟩, h3⟩
      exact ⟨t, h1, h2, h3⟩
    · rintro ⟨t, h1, h2, h3⟩
      exact ⟨t, ⟨h1, h2⟩, h3⟩
  · unfold eliminateSDPSet sortByFlag
    rw [List.foldl_append, hE3, eliminate_fold_compl _
      (fun t ht => by simpa using (List.mem_filter.1 ht).2)]
    simp

theorem SetsDisjoint.symm {a b : SDP} (h : SetsDisjoint a b) : SetsDisjoint b a :=
  fun x hx hxa => h x hxa hx

theorem foldl_remove (K : List Int) (c : SDP) :
    K.foldl SDP.remove c = SDP.mk c.is_complementary (c.set.filter (fun x => decide (x ∉ K))) := by
  induction K generalizing c with
  | nil => simp
  | cons k K ih =>
    rw [List.foldl_cons, ih]
    simp only [SDP.remove, List.filter_filter, SDP.mk.injEq, true_and]
    apply List.filter_congr
    intro x _
    by_cases hxk : x = k <;> by_cases hxK : x ∈ K <;> simp [hxk, hxK]

theorem listValue_cons (P : Nat → ℚ) (t : SDP) (S : SDPSets) :
    listValue P (t :: S) = sdpValue P t * listValue P S := by
  simp [listValue]

theorem mapPush_flatMap (m : List (Nat × PathSets)) (k : Nat) (set : List Int) :
    ((sortPathSet.mapPush m k set).flatMap (fun e => e.2)).Perm
      (m.flatMap (fun e => e.2) ++ [set]) := by
  induction m with
  | nil => simp [sortPathSet.mapPush]
  | cons e m ih =>
    obtain ⟨k', sets⟩ := e
    simp only [sortPathSet.mapPush]
    split
    · simp only [List.flatMap_cons, List.append_assoc]
      exact List.Perm.append_left _ List.perm_append_comm
    · split
      · simp only [List.flatMap_cons]
        have : sets ++ m.flatMap (fun e => e.2) ++ [set] =
            (sets ++ m.flatMap (fun e => e.2)) ++ [set] := by simp
        rw [this]
        exact @List.perm_append_comm _ [set] (sets ++ m.flatMap (fun e => e.2))
      · simp only [List.flatMap_cons, List.append_assoc]
        exact List.Perm.append_left _ ih

theorem mapPush_foldl_flatMap (L : PathSets) (m : List (Nat × PathSets)) :
    ((L.foldl (fun m set => sortPathSet.mapPush m set.length set) m).flatMap
      (fun e => e.2)).Perm (m.flatMap (fun e => e.2) ++ L) := by
  induction L generalizing m with
  | nil => simp
  | cons a L ih =>
    rw [List.foldl_cons]
    refine (ih _).trans ?_
    refine (List.Perm.append_right L (mapPush_flatMap m a.length a)).trans ?_
    simp

theorem range_map_getD (cls : PathSets) :
    (List.range cls.length).map (fun idx => cls.getD idx []) = cls := by
  apply List.ext_getElem
  · simp
  · intro i h1 h2
    simp only [List.getElem_map, List.getElem_range]
    rw [List.getD_eq_getElem _ _ h2]

theorem placeClass_perm (sorted cls : PathSets) :
    (sortPathSet.placeClass sorted cls).Perm (sorted ++ cls) := by
  unfold sortPathSet.placeClass
  apply List.Perm.append_left
  have h := (List.perm_insertionSort
    (fun a b => (cls.map (sortPathSet.maxCommon sorted)).getD a 0 ≤
      (cls.map (sortPathSet.maxCommon sorted)).getD b 0)
    (List.range cls.length)).map (fun idx => cls.getD idx [])
  rw [range_map_getD] at h
  exact h

theorem placeClass_foldl_perm (others : List (Nat × PathSets)) (sorted : PathSets) :
    (others.foldl (fun sorted entry => sortPathSet.placeClass sorted entry.2) sorted).Perm
      (sorted ++ others.flatMap (fun e => e.2)) := by
  induction others generalizing sorted with
  | nil => simp
  | cons e others ih =>
    rw [List.foldl_cons, List.flatMap_cons, ← List.append_assoc]
    exact (ih _).trans (List.Perm.append_right _ (placeClass_perm sorted e.2))

theorem sortPathSet_perm (L : PathSets) : (sortPathSet L).Perm (L.map sortInts) := by
  unfold sortPathSet
  by_cases hL : L.isEmpty = true
  · rw [if_pos hL]
    have : L = [] := by simpa using hL
    simp [this]
  · rw [if_neg hL]
    simp only
    have h1 := mapPush_foldl_flatMap
      ((L.map sortInts).insertionSort (fun a b => sortPathSet.less b a = false)) []
    have h2 := List.perm_insertionSort (fun a b => sortPathSet.less b a = false)
      (L.map sortInts)
    simp only [List.flatMap_nil, List.nil_append] at h1
    have h3 := h1.trans h2
    generalize ((L.map sortInts).insertionSort (fun a b => sortPathSet.less b a = false)).foldl
      (fun m set => sortPathSet.mapPush m set.length set) [] = m at h3 ⊢
    cases m with
    | nil => simpa using h3
    | cons first others =>
      simp only
      exact (placeClass_foldl_perm others first.2).trans (by simpa using h3)

theorem SDPSetToAvail_term_eq {pm : ProbabilityMap} {P : Nat → ℚ} {n : Nat}
    (hpm : pm.Represents P n) (t : SDP) (ht : Covered n t.set) (acc : ℚ) :
    SDPSetToAvail.term pm acc t = Except.ok (acc * sdpValue P t) := by
  unfold SDPSetToAvail.term sdpValue
  cases hc : t.is_complementary with
  | true =>
    simp only [if_true]
    rw [termAvail_go hpm t.set ht 1, one_mul]
    rfl
  | false =>
    simp only [Bool.false_eq_true, if_false]
    exact termAvail_go hpm t.set ht acc

theorem SDPSetToAvail_list_go {pm : ProbabilityMap} {P : Nat → ℚ} {n : Nat}
    (hpm : pm.Represents P n) (S : SDPSets) (hS : ∀ t ∈ S, Covered n t.set) (acc : ℚ) :
    S.foldlM (SDPSetToAvail.term pm) acc = Except.ok (acc * listValue P S) := by
  induction S generalizing acc with
  | nil => simp [listValue, pure, Except.pure]
  | cons t S ih =>
    rw [List.foldlM_cons, SDPSetToAvail_term_eq hpm t (hS t (by simp)), listValue_cons,
      ← mul_assoc]
    exact ih (fun u hu => hS u (by simp [hu])) (acc * sdpValue P t)

theorem SDPSetToAvail_go {pm : ProbabilityMap} {P : Nat → ℚ} {n : Nat}
    (hpm : pm.Represents P n) (F : List SDPSets) (hF : ∀ S ∈ F, ∀ t ∈ S, Covered n t.set)
    (acc : ℚ) :
    F.foldlM (fun availability set => do
      let setAvailability ← set.foldlM (SDPSetToAvail.term pm) 1
      pure (availability + setAvailability)) acc = Except.ok (acc + forestValue P F) := by
  induction F generalizing acc with
  | nil => simp [forestValue, pure, Except.pure]
  | cons S F ih =>
    have hcons : forestValue P (S :: F) = listValue P S + forestValue P F := by
      simp [forestValue]
    rw [List.foldlM_cons, SDPSetToAvail_list_go hpm S (hF S (by simp)) 1, one_mul, hcons,
      ← add_assoc]
    exact ih (fun T hT => hF T (by simp [hT])) (acc + listValue P S)

theorem SDPSetToAvail_eq {pm : ProbabilityMap} {P : Nat → ℚ} {n : Nat}
    (hpm : pm.Represents P n) (F : List SDPSets) (hF : ∀ S ∈ F, ∀ t ∈ S, Covered n t.set) :
    SDPSetToAvail pm F = Except.ok (forestValue P F) := by
  unfold SDPSetToAvail
  rw [SDPSetToAvail_go hpm F hF 0, zero_add]

/-! ### Inclusion-exclusion is the probability of the union -/

theorem termProb_of_pos (P : Nat → ℚ) {T : Set} (hpos : ∀ x ∈ T, (0 : Int) < x) :
    termProb P T = (T.map (fun i => P i.natAbs)).prod := by
  unfold termProb
  congr 1
  apply List.map_congr_left
  intro x hx
  simp [litProb, hpos x hx]

theorem Exclusive_symm {T U : Set} (h : Exclusive T U) : Exclusive U T := by
  obtain ⟨x, hx, hnx⟩ := h
  exact ⟨-x, hnx, by simpa using hx⟩

theorem Exclusive_mono {A T U : Set} (h : Exclusive A T) (hsub : ∀ x ∈ T, x ∈ U) :
    Exclusive A U := by
  obtain ⟨x, hx, hnx⟩ := h
  exact ⟨x, hx, hsub _ hnx⟩

theorem makeDisjointSet_superset {A B T : Set} (h : T ∈ makeDisjointSet A B) :
    ∀ x ∈ B, x ∈ T := by
  intro x hx
  rcases mem_makeDisjointSet h with rfl | ⟨_, pre, r, post, _, rfl⟩
  · exact hx
  · simp [hx]

theorem makeDisjointSet_exclusive {A B T : Set} (h : T ∈ makeDisjointSet A B) :
    Exclusive A T := by
  rcases mem_makeDisjointSet h with rfl | ⟨_, pre, r, post, hres, rfl⟩
  · rw [makeDisjointSet_eq] at h
    by_cases hc : ∃ x ∈ A, -x ∈ T
    · exact hc
    · rw [if_neg hc] at h
      obtain ⟨r, hr, hnr⟩ := mem_disjointTerms h
      exact absurd ⟨r, (mem_residual.1 hr).1, hnr⟩ hc
  · have hr : r ∈ residual A B := by rw [hres]; simp
    exact ⟨r, (mem_residual.1 hr).1, by simp⟩

theorem zero_mem_makeDisjointSet {A B T : Set} (h : T ∈ makeDisjointSet A B)
    (h0 : (0 : Int) ∈ T) : (0 : Int) ∈ A ∨ (0 : Int) ∈ B := by
  have hv := termVars_makeDisjointSet h (natAbs_mem_termVars h0)
  rcases Finset.mem_union.1 hv with hv | hv
  · obtain ⟨l, hl, hl0⟩ := mem_termVars.1 hv
    have : l = 0 := Int.natAbs_eq_zero.1 hl0
    exact Or.inl (this ▸ hl)
  · obtain ⟨l, hl, hl0⟩ := mem_termVars.1 hv
    have : l = 0 := Int.natAbs_eq_zero.1 hl0
    exact Or.inr (this ▸ hl)

theorem toProbaSet_loop_zero (L : List Set) :
    ∃ out, (∀ T ∈ out, (0 : Int) ∈ T → ∃ B ∈ L, (0 : Int) ∈ B) ∧
      ∃ N, ∀ fuel, N ≤ fuel → ∀ acc, toProbaSet.loop fuel L acc = some (acc ++ out) := by
  refine toProbaSet_loop_spec
    (fun L out => ∀ T ∈ out, (0 : Int) ∈ T → ∃ B ∈ L, (0 : Int) ∈ B) ?_ ?_ ?_ L
  · simp
  · intro A T hT h0
    exact ⟨T, hT, h0⟩
  · intro A B rest out ih T hT h0
    rcases List.mem_cons.1 hT with rfl | hT
    · exact ⟨T, by simp, h0⟩
    · obtain ⟨B1, hB1, h1⟩ := ih T hT h0
      obtain ⟨B0, hB0, hmem⟩ := List.mem_flatMap.1 hB1
      rcases zero_mem_makeDisjointSet hmem h1 with h | h
      · exact ⟨A, by simp, h⟩
      · exact ⟨B0, List.mem_cons_of_mem _ hB0, h⟩

theorem not_termSat_of_exclusive (σ : Nat → Bool) {T U : Set} (h : Exclusive T U)
    (h0 : (0 : Int) ∉ T) : ¬ (termSat σ T = true ∧ termSat σ U = true) := by
  rintro ⟨hT, hU⟩
  obtain ⟨x, hx, hnx⟩ := h
  have hx0 : x ≠ 0 := fun h => h0 (h ▸ hx)
  have h1 := (termSat_iff σ T).1 hT x hx
  have h2 := (termSat_iff σ U).1 hU _ hnx
  rw [litSat_neg σ hx0, h1] at h2
  simp at h2

theorem toProbaSet_loop_exclusive (L : List Set) :
    ∃ out, (out.Pairwise Exclusive ∧ ∀ T ∈ out, ∃ B ∈ L, ∀ x ∈ B, x ∈ T) ∧
      ∃ N, ∀ fuel, N ≤ fuel → ∀ acc, toProbaSet.loop fuel L acc = some (acc ++ out) := by
  refine toProbaSet_loop_spec
    (fun L out => out.Pairwise Exclusive ∧ ∀ T ∈ out, ∃ B ∈ L, ∀ x ∈ B, x ∈ T) ?_ ?_ ?_ L
  · exact ⟨List.Pairwise.nil, by simp⟩
  · intro A
    exact ⟨List.pairwise_singleton _ _, by simp⟩
  · intro A B rest out ⟨hpw, hsup⟩
    have hfrom : ∀ T ∈ out, Exclusive A T ∧ ∃ B0 ∈ B :: rest, ∀ x ∈ B0, x ∈ T := by
      intro T hT
      obtain ⟨B1, hB1, hsub⟩ := hsup T hT
      obtain ⟨B0, hB0, hmem⟩ := List.mem_flatMap.1 hB1
      exact ⟨Exclusive_mono (makeDisjointSet_exclusive hmem) hsub, B0, hB0,
        fun x hx => hsub x (makeDisjointSet_superset hmem x hx)⟩
    refine ⟨List.pairwise_cons.2 ⟨fun T hT => (hfrom T hT).1, hpw⟩, ?_⟩
    intro T hT
    rcases List.mem_cons.1 hT with rfl | hT
    · exact ⟨T, by simp, fun x hx => hx⟩
    · obtain ⟨B0, hB0, hsub⟩ := (hfrom T hT).2
      exact ⟨B0, List.mem_cons_of_mem _ hB0, hsub⟩

theorem pairwise_symm_getElem? {α : Type} {R : α → α → Prop} (hR : ∀ a b, R a b → R b a)
    {l : List α} (h : l.Pairwise R) (i j : Nat) (a b : α) (hij : i ≠ j)
    (hi : l[i]? = some a) (hj : l[j]? = some b) : R a b := by
  rw [List.pairwise_iff_getElem] at h
  obtain ⟨hi1, hi2⟩ := List.getElem?_eq_some_iff.1 hi
  obtain ⟨hj1, hj2⟩ := List.getElem?_eq_some_iff.1 hj
  rcases Nat.lt_or_gt_of_ne hij with hlt | hgt
  · have := h i j hi1 hj1 hlt
    rwa [hi2, hj2] at this
  · have := h j i hj1 hi1 hgt
    rw [hi2, hj2] at this
    exact hR _ _ this

/-- C11. For every input list of terms, `pathset::toProbaSet` returns (with
enough fuel for its loop) a list in which any two terms at different positions
are mutually exclusive: the first holds a literal whose negation occurs in the
second (and so, by symmetry, the other way round as well). When no input term
holds the literal `0`, no assignment of the components satisfies both. -/
theorem toProbaSet_pairwise_exclusive (L : PathSets) (s d : Int) :
    ∃ N, ∀ fuel, N ≤ fuel →
      ∃ out, pathset.toProbaSet fuel s d L = some out ∧
        ∀ (i j : Nat) (T U : Set), i ≠ j → out[i]? = some T → out[j]? = some U →
          (∃ x ∈ T, -x ∈ U) ∧
          ((∀ B ∈ L, (0 : Int) ∉ B) → ∀ σ, ¬ (termSat σ T = true ∧ termSat σ U = true)) := by
  obtain ⟨out, ⟨hpw, _⟩, N, hN⟩ := toProbaSet_loop_exclusive L
  obtain ⟨out0, hzero, N0, hN0⟩ := toProbaSet_loop_zero L
  have hout : out0 = out := by
    have h1 := hN (max N N0) (le_max_left _ _) []
    have h2 := hN0 (max N N0) (le_max_right _ _) []
    rw [h1] at h2
    simpa using h2.symm
  subst hout
  refine ⟨N, fun fuel hfuel => ?_⟩
  by_cases hL : L = []
  · subst hL
    refine ⟨[], by simp [pathset.toProbaSet], ?_⟩
    intro i j T U _ hi
    simp at hi
  · refine ⟨out0, ?_, ?_⟩
    · have : L.isEmpty = false := by
        cases L with
        | nil => exact absurd rfl hL
        | cons a l => rfl
      simp only [pathset.toProbaSet, this, Bool.false_eq_true, if_false]
      simpa using hN fuel hfuel []
    · intro i j T U hij hi hj
      have hex : Exclusive T U :=
        pairwise_symm_getElem? (fun a b h => Exclusive_symm h) hpw i j T U hij hi hj
      refine ⟨hex, fun hL0 σ => not_termSat_of_exclusive σ hex ?_⟩
      intro h0
      obtain ⟨B, hB, hB0⟩ := hzero T (List.mem_iff_getElem?.2 ⟨i, hi⟩) h0
      exact hL0 B hB hB0

theorem toProbaSet_pairwise_exclusive_witness :
    pathset.toProbaSet 2 1 3 [[1, 2], [2, 3], [1, 3]] =
      some [[1, 2], [2, 3, -1], [1, 3, -2]] ∧
    ∃ N, ∀ fuel, N ≤ fuel →
      ∃ out, pathset.toProbaSet fuel 1 3 [[1, 2], [2, 3], [1, 3]] = some out ∧
        ∀ (i j : Nat) (T U : Set), i ≠ j → out[i]? = some T → out[j]? = some U →
          (∃ x ∈ T, -x ∈ U) ∧
          ((∀ B ∈ ([[1, 2], [2, 3], [1, 3]] : PathSets), (0 : Int) ∉ B) →
            ∀ σ, ¬ (termSat σ T = true ∧ termSat σ U = true)) :=
  ⟨by decide, toProbaSet_pairwise_exclusive [[1, 2], [2, 3], [1, 3]] 1 3⟩

/-! ### At most one list of the forest is satisfied -/

theorem eliminateSDPSet_eq_spec (S : SDPSets)
    (hasc : ∀ c ∈ S, c.is_complementary = true → c.set.Sorted (· < ·)) :
    eliminateSDPSet S = eliminateSpec S := by
  obtain ⟨E, hE, hmem, heq⟩ := eliminateSDPSet_eq S
  rw [heq]
  unfold eliminateSpec
  simp only
  congr 1
  apply List.filterMap_congr
  intro c hc
  obtain ⟨hcS, hcc⟩ := List.mem_filter.1 hc
  have hd : set_difference c.set E = c.set.filter (fun x => decide
      (x ∉ (S.filter (fun t => !t.is_complementary)).flatMap (fun t => t.set))) := by
    rw [set_difference_eq_filter c.set E (hasc c hcS hcc) hE]
    apply List.filter_congr
    intro x _
    have : x ∈ E ↔ x ∈ (S.filter (fun t => !t.is_complementary)).flatMap (fun t => t.set) := by
      rw [hmem x]
      simp only [List.mem_flatMap, List.mem_filter, Bool.not_eq_true', and_assoc]
    simp only [this]
  unfold eliminateSDPSet.reduce
  rw [hd]

theorem eliminateSpec_parts (S : SDPSets) :
    ∃ N C : SDPSets, eliminateSpec S = N ++ C ∧ N = S.filter (fun t => !t.is_complementary) ∧
      (∀ t ∈ N, t.is_complementary = false) ∧
      (∀ c ∈ C, c.is_complementary = true ∧ c.set ≠ [] ∧
        (∀ x ∈ c.set, x ∉ N.flatMap (fun t => t.set)) ∧
        ∃ c0 ∈ S, c0.is_complementary = true ∧ c.set.Sublist c0.set) := by
  refine ⟨S.filter (fun t => !t.is_complementary), _, rfl, rfl, ?_, ?_⟩
  · intro t ht
    simpa using (List.mem_filter.1 ht).2
  · intro c hc
    obtain ⟨c0, hc0, hred⟩ := List.mem_filterMap.1 hc
    simp only at hred
    split at hred
    · simp at hred
    · rename_i hne
      simp only [Option.some.injEq] at hred
      subst hred
      refine ⟨rfl, ?_, ?_, c0, (List.mem_filter.1 hc0).1, (List.mem_filter.1 hc0).2,
        List.filter_sublist _⟩
      · simpa using hne
      · intro x hx
        simpa using (List.mem_filter.1 hx).2

theorem filter_normal_parts {N C : SDPSets} (hN : ∀ t ∈ N, t.is_complementary = false)
    (hC : ∀ c ∈ C, c.is_complementary = true) :
    (N ++ C).filter (fun t => !t.is_complementary) = N ∧
    (N ++ C).filter (fun t => t.is_complementary) = C := by
  rw [List.filter_append, List.filter_append]
  have h1 : N.filter (fun t => !t.is_complementary) = N :=
    List.filter_eq_self.2 (fun t ht => by simp [hN t ht])
  have h2 : C.filter (fun t => !t.is_complementary) = [] :=
    List.filter_eq_nil_iff.2 (fun t ht => by simp [hC t ht])
  have h3 : N.filter (fun t => t.is_complementary) = [] :=
    List.filter_eq_nil_iff.2 (fun t ht => by simp [hN t ht])
  have h4 : C.filter (fun t => t.is_complementary) = C :=
    List.filter_eq_self.2 (fun t ht => by simp [hC t ht])
  rw [h1, h2, h3, h4]
  simp

theorem filterMap_eq_self {α : Type} (f : α → Option α) (l : List α)
    (h : ∀ x ∈ l, f x = some x) : l.filterMap f = l := by
  induction l with
  | nil => rfl
  | cons a l ih =>
    rw [List.filterMap_cons_some (h a (by simp)), ih (fun x hx => h x (by simp [hx]))]

theorem eliminateSpec_idem (S : SDPSets) : eliminateSpec (eliminateSpec S) = eliminateSpec S := by
  obtain ⟨N, C, heq, _, hN, hC⟩ := eliminateSpec_parts S
  rw [heq]
  obtain ⟨h1, h2⟩ := filter_normal_parts hN (fun c hc => (hC c hc).1)
  unfold eliminateSpec
  simp only [h1, h2]
  congr 1
  apply filterMap_eq_self
  intro c hc
  obtain ⟨hcc, hne, hdisj, _⟩ := hC c hc
  have hf : c.set.filter (fun x => decide (x ∉ N.flatMap (fun t => t.set))) = c.set :=
    List.filter_eq_self.2 (fun x hx => by simpa using hdisj x hx)
  rw [hf]
  have : c.set.isEmpty = false := by
    cases hs : c.set with
    | nil => exact absurd hs hne
    | cons _ _ => rfl
  rw [this]
  simp only [Bool.false_eq_true, if_false, Option.some.injEq]
  cases c
  simp only at hcc
  subst hcc
  rfl

theorem eliminateSDPSet_idem (S : SDPSets)
    (hasc : ∀ c ∈ S, c.is_complementary = true → c.set.Sorted (· < ·)) :
    eliminateSDPSet (eliminateSDPSet S) = eliminateSDPSet S := by
  rw [eliminateSDPSet_eq_spec S hasc]
  have hasc2 : ∀ c ∈ eliminateSpec S, c.is_complementary = true → c.set.Sorted (· < ·) := by
    obtain ⟨N, C, heq, _, hN, hC⟩ := eliminateSpec_parts S
    rw [heq]
    intro c hc hcc
    rcases List.mem_append.1 hc with hc | hc
    · rw [hN c hc] at hcc
      exact absurd hcc (by decide)
    · obtain ⟨_, _, _, c0, hc0, hc0c, hsub⟩ := hC c hc
      exact (hasc c0 hc0 hc0c).sublist hsub
  rw [eliminateSDPSet_eq_spec _ hasc2, eliminateSpec_idem]

theorem eliminateSDPSet_no_shared (S : SDPSets)
    (hasc : ∀ c ∈ S, c.is_complementary = true → c.set.Sorted (· < ·)) :
    ∀ t ∈ eliminateSDPSet S, t.is_complementary = false →
      ∀ c ∈ eliminateSDPSet S, c.is_complementary = true → ∀ x ∈ t.set, x ∉ c.set := by
  rw [eliminateSDPSet_eq_spec S hasc]
  obtain ⟨N, C, heq, _, hN, hC⟩ := eliminateSpec_parts S
  rw [heq]
  intro t ht htc c hc hcc x hx hxc
  have htN : t ∈ N := by
    rcases List.mem_append.1 ht with h | h
    · exact h
    · rw [(hC t h).1] at htc
      exact absurd htc (by decide)
  have hcC : c ∈ C := by
    rcases List.mem_append.1 hc with h | h
    · rw [hN c h] at hcc
      exact absurd hcc (by decide)
    · exact h
  exact (hC c hcC).2.2.1 x hxc (List.mem_flatMap.2 ⟨t, htN, hx⟩)

/-- C16 (counterexample). On the list `[+{1}, -{2,1}]`, whose complementary
term is not ascending, the merge loop of `std::set_difference` walks past
`1`, so `eliminateSDPSet` returns the list unchanged and the literal `1` of the
non-complementary term still occurs in the complementary term. -/
theorem eliminateSDPSet_unsorted_keeps_literal :
    eliminateSDPSet [SDP.mk false [1], SDP.mk true [2, 1]] =
      [SDP.mk false [1], SDP.mk true [2, 1]] ∧
    ¬ (∀ t ∈ eliminateSDPSet [SDP.mk false [1], SDP.mk true [2, 1]],
        t.is_complementary = false →
        ∀ c ∈ eliminateSDPSet [SDP.mk false [1], SDP.mk true [2, 1]],
          c.is_complementary = true → ∀ x ∈ t.set, x ∉ c.set) := by
  decide

/-- C16 (amended). For every SDPList `S` whose complementary terms are strictly
ascending, in `eliminateSDPSet S` no literal of a non-complementary term
occurs in a complementary term. -/
theorem eliminateSDPSet_separates (S : SDPSets)
    (hasc : ∀ c ∈ S, c.is_complementary = true → c.set.Sorted (· < ·)) :
    ∀ t ∈ eliminateSDPSet S, t.is_complementary = false →
      ∀ c ∈ eliminateSDPSet S, c.is_complementary = true → ∀ x ∈ t.set, x ∉ c.set :=
  eliminateSDPSet_no_shared S hasc

theorem eliminateSDPSet_separates_witness :
    (∀ c ∈ [SDP.mk false [2, 3, 1, 4, 6], SDP.mk true [3, 4, 5], SDP.mk true [1, 6]],
      c.is_complementary = true → c.set.Sorted (· < ·)) ∧
    eliminateSDPSet [SDP.mk false [2, 3, 1, 4, 6], SDP.mk true [3, 4, 5], SDP.mk true [1, 6]] =
      [SDP.mk false [2, 3, 1, 4, 6], SDP.mk true [5]] ∧
    ∀ t ∈ eliminateSDPSet
        [SDP.mk false [2, 3, 1, 4, 6], SDP.mk true [3, 4, 5], SDP.mk true [1, 6]],
      t.is_complementary = false →
      ∀ c ∈ eliminateSDPSet
          [SDP.mk false [2, 3, 1, 4, 6], SDP.mk true [3, 4, 5], SDP.mk true [1, 6]],
        c.is_complementary = true → ∀ x ∈ t.set, x ∉ c.set :=
  ⟨by decide, by decide, eliminateSDPSet_separates _ (by decide)⟩

/-! ### Absorption: no term absorbs another, idempotence -/

theorem absorb_inner_noop (cur : SDP) (rest : List SDP)
    (h : ∀ y ∈ rest, ¬ Dominates cur y ∧ ¬ Dominates y cur) :
    absorbSDPSet.inner cur rest (List.replicate rest.length false) =
      (false, List.replicate rest.length false) := by
  induction rest with
  | nil => rfl
  | cons other rest ih =>
    obtain ⟨h1, h2⟩ := h other (by simp)
    have he : cur.equals other = false := by
      cases hq : cur.equals other with
      | false => rfl
      | true =>
        have := (equals_iff cur other).1 hq
        exact absurd (this ▸ Dominates.refl cur) h1
    have hs1 : utils.isSubSet cur other = false := by
      cases hq : utils.isSubSet cur other with
      | false => rfl
      | true => exact absurd ((isSubSet_iff cur other).1 hq) h1
    have hs2 : utils.isSubSet other cur = false := by
      cases hq : utils.isSubSet other cur with
      | false => rfl
      | true => exact absurd ((isSubSet_iff other cur).1 hq) h2
    simp only [List.length_cons, List.replicate_succ, absorbSDPSet.inner, Bool.false_eq_true,
      if_false, he, hs1, hs2]
    rw [ih (fun y hy => h y (by simp [hy]))]

theorem absorb_outer_noop (T : List SDP) (h : Antichain T) :
    absorbSDPSet.outer T (List.replicate T.length false) = T := by
  induction T with
  | nil => rfl
  | cons cur rest ih =>
    unfold Antichain at h
    rw [List.pairwise_cons] at h
    simp only [List.length_cons, List.replicate_succ, absorbSDPSet.outer, Bool.false_eq_true,
      if_false]
    rw [absorb_inner_noop cur rest h.1]
    simp only [Bool.not_false, if_true]
    rw [ih h.2]

theorem absorbSDPSet_of_antichain (T : SDPSets) (h : Antichain T) : absorbSDPSet T = T :=
  absorb_outer_noop T h

theorem absorbSDPSet_idem (S : SDPSets) : absorbSDPSet (absorbSDPSet S) = absorbSDPSet S :=
  absorbSDPSet_of_antichain _ (absorbSDPSet_antichain S)

theorem Dominates_symm_rel (a b : SDP) (h : ¬ Dominates a b ∧ ¬ Dominates b a) :
    ¬ Dominates b a ∧ ¬ Dominates a b := ⟨h.2, h.1⟩

/-- C19. For every SDPList `S`, no two terms at different positions of
`absorbSDPSet S` with the same complementarity are such that the literal set
of one contains (or equals) the literal set of the other. -/
theorem absorbSDPSet_no_superset (S : SDPSets) (i j : Nat) (a b : SDP) (hij : i ≠ j)
    (hi : (absorbSDPSet S)[i]? = some a) (hj : (absorbSDPSet S)[j]? = some b)
    (hflag : a.is_complementary = b.is_complementary) :
    ¬ (∀ x ∈ b.set, x ∈ a.set) := by
  have h := pairwise_symm_getElem? Dominates_symm_rel (absorbSDPSet_antichain S) i j a b hij hi hj
  exact fun hsub => h.2 ⟨hflag.symm, hsub⟩

theorem absorbSDPSet_no_superset_witness :
    absorbSDPSet [SDP.mk true [3, 4], SDP.mk true [4, 5], SDP.mk true [3], SDP.mk true [5],
        SDP.mk false [3, 4]] =
      [SDP.mk true [3], SDP.mk true [5], SDP.mk false [3, 4]] ∧
    ¬ (∀ x ∈ (SDP.mk true [5]).set, x ∈ (SDP.mk true [3]).set) :=
  ⟨by decide,
    absorbSDPSet_no_superset
      [SDP.mk true [3, 4], SDP.mk true [4, 5], SDP.mk true [3], SDP.mk true [5],
        SDP.mk false [3, 4]] 0 1 (SDP.mk true [3]) (SDP.mk true [5]) (by decide) (by decide)
      (by decide) rfl⟩

/-- C20. For every SDPList `S`, absorbing twice is the same as absorbing
once. -/
theorem absorbSDPSet_idempotent (S : SDPSets) :
    absorbSDPSet (absorbSDPSet S) = absorbSDPSet S :=
  absorbSDPSet_idem S

theorem absorbSDPSet_idempotent_witness :
    absorbSDPSet [SDP.mk true [3, 4], SDP.mk true [4, 5], SDP.mk true [3], SDP.mk true [5]] =
      [SDP.mk true [3], SDP.mk true [5]] ∧
    absorbSDPSet (absorbSDPSet
      [SDP.mk true [3, 4], SDP.mk true [4, 5], SDP.mk true [3], SDP.mk true [5]]) =
    absorbSDPSet [SDP.mk true [3, 4], SDP.mk true [4, 5], SDP.mk true [3], SDP.mk true [5]] :=
  ⟨by decide, absorbSDPSet_idempotent _⟩

/-! ### Decomposition: final lists have no shared literal, termination -/

theorem filter_eq_self_of_disjoint (X E : List Int) (h : ∀ x ∈ X, x ∉ E) :
    X.filter (fun x => decide (x ∉ E)) = X :=
  List.filter_eq_self.2 (fun x hx => by simpa using h x hx)

theorem isEmpty_eq_false_of_ne_nil {α : Type} {l : List α} (h : l ≠ []) : l.isEmpty = false := by
  cases l with
  | nil => exact absurd rfl h
  | cons _ _ => rfl

theorem decompose_three_split (A B C K : List Int)
    (hB : B.Sorted (· < ·)) (hC : C.Sorted (· < ·))
    (hK : K = B.filter (fun x => decide (x ∈ C))) (hKne : K ≠ []) :
    decomposeSDPSet.split [SDP.mk false A, SDP.mk true B, SDP.mk true C] = some
      (absorbSDPSet (eliminateSDPSet [SDP.mk false A, SDP.mk true K]),
       absorbSDPSet (eliminateSDPSet [SDP.mk false A, SDP.mk false K,
        SDP.mk true (B.filter (fun x => decide (x ∉ K))),
        SDP.mk true (C.filter (fun x => decide (x ∉ K)))])) := by
  have hI : set_intersection B C = K := by
    rw [set_intersection_eq_filter B C hB hC, hK]
  have hKe : K.isEmpty = false := isEmpty_eq_false_of_ne_nil hKne
  unfold decomposeSDPSet.split
  simp only [List.filter, decomposeSDPSet.find, decomposeSDPSet.findJ, hI, hKe,
    Bool.not_false, Bool.not_true, if_true, foldl_remove]
  rfl

theorem hasCommonElement_three (A B C K : List Int)
    (hB : B.Sorted (· < ·)) (hC : C.Sorted (· < ·))
    (hK : K = B.filter (fun x => decide (x ∈ C))) (hKne : K ≠ []) :
    utils.hasCommonElement [SDP.mk false A, SDP.mk true B, SDP.mk true C] = true := by
  have hI : set_intersection B C = K := by
    rw [set_intersection_eq_filter B C hB hC, hK]
  have hKe : K.isEmpty = false := isEmpty_eq_false_of_ne_nil hKne
  simp [utils.hasCommonElement, utils.hasCommonElement.pairs, List.filter, hI, hKe]

theorem eliminateSpec_fixed (N C : SDPSets) (hN : ∀ t ∈ N, t.is_complementary = false)
    (hC : ∀ c ∈ C, c.is_complementary = true ∧ c.set ≠ [] ∧
      ∀ x ∈ c.set, x ∉ N.flatMap (fun t => t.set)) :
    eliminateSpec (N ++ C) = N ++ C := by
  obtain ⟨h1, h2⟩ := filter_normal_parts hN (fun c hc => (hC c hc).1)
  unfold eliminateSpec
  simp only [h1, h2]
  congr 1
  apply filterMap_eq_self
  intro c hc
  obtain ⟨hcc, hne, hdisj⟩ := hC c hc
  rw [filter_eq_self_of_disjoint c.set _ hdisj, isEmpty_eq_false_of_ne_nil hne]
  simp only [Bool.false_eq_true, if_false, Option.some.injEq]
  cases c
  simp only at hcc
  subst hcc
  rfl

theorem decompose_three_child1 (A K : List Int) (hAK : ∀ x ∈ K, x ∉ A) (hKne : K ≠ [])
    (hKasc : K.Sorted (· < ·)) :
    absorbSDPSet (eliminateSDPSet [SDP.mk false A, SDP.mk true K]) =
      [SDP.mk false A, SDP.mk true K] ∧
    utils.hasCommonElement [SDP.mk false A, SDP.mk true K] = false := by
  have he : eliminateSDPSet [SDP.mk false A, SDP.mk true K] = [SDP.mk false A, SDP.mk true K] := by
    rw [eliminateSDPSet_eq_spec _ (by
      intro c hc hcc
      simp only [List.mem_cons, List.mem_singleton, List.not_mem_nil, or_false] at hc
      rcases hc with rfl | rfl
      · simp at hcc
      · exact hKasc)]
    exact eliminateSpec_fixed [SDP.mk false A] [SDP.mk true K] (by simp)
      (by simpa using ⟨hKne, hAK⟩)
  constructor
  · rw [he]
    apply absorbSDPSet_of_antichain
    unfold Antichain
    simp [Dominates]
  · simp [utils.hasCommonElement, utils.hasCommonElement.pairs, List.filter]

theorem decompose_three_child2 (A K X Y : List Int) (hAne : A ≠ []) (hKne : K ≠ [])
    (hXne : X ≠ []) (hYne : Y ≠ []) (hX : X.Sorted (· < ·)) (hY : Y.Sorted (· < ·))
    (hAK : ∀ x ∈ A, x ∉ K) (hAX : ∀ x ∈ A, x ∉ X) (hAY : ∀ x ∈ A, x ∉ Y)
    (hKX : ∀ x ∈ K, x ∉ X) (hKY : ∀ x ∈ K, x ∉ Y) (hXY : ∀ x ∈ X, x ∉ Y) :
    absorbSDPSet (eliminateSDPSet
        [SDP.mk false A, SDP.mk false K, SDP.mk true X, SDP.mk true Y]) =
      [SDP.mk false A, SDP.mk false K, SDP.mk true X, SDP.mk true Y] ∧
    utils.hasCommonElement [SDP.mk false A, SDP.mk false K, SDP.mk true X, SDP.mk true Y] =
      false := by
  have hne_sub : ∀ {U V : List Int}, U ≠ [] → (∀ x ∈ U, x ∉ V) → ¬ ∀ x ∈ U, x ∈ V := by
    intro U V hU hd hsub
    cases U with
    | nil => exact hU rfl
    | cons u U => exact hd u (by simp) (hsub u (by simp))
  have hflip : ∀ {U V : List Int}, (∀ x ∈ U, x ∉ V) → ∀ x ∈ V, x ∉ U :=
    fun h x hx hxu => h x hxu hx
  have he : eliminateSDPSet [SDP.mk false A, SDP.mk false K, SDP.mk true X, SDP.mk true Y] =
      [SDP.mk false A, SDP.mk false K, SDP.mk true X, SDP.mk true Y] := by
    rw [eliminateSDPSet_eq_spec _ (by
      intro c hc hcc
      simp only [List.mem_cons, List.mem_singleton, List.not_mem_nil, or_false] at hc
      rcases hc with rfl | rfl | rfl | rfl
      · simp at hcc
      · simp at hcc
      · exact hX
      · exact hY)]
    refine eliminateSpec_fixed [SDP.mk false A, SDP.mk false K] [SDP.mk true X, SDP.mk true Y]
      (by simp) ?_
    intro c hc
    simp only [List.mem_cons, List.mem_singleton, List.not_mem_nil, or_false] at hc
    rcases hc with rfl | rfl
    · refine ⟨rfl, hXne, fun x hx => ?_⟩
      simp only [List.flatMap_cons, List.flatMap_nil, List.append_nil, List.mem_append, not_or]
      exact ⟨hflip hAX x hx, hflip hKX x hx⟩
    · refine ⟨rfl, hYne, fun x hx => ?_⟩
      simp only [List.flatMap_cons, List.flatMap_nil, List.append_nil, List.mem_append, not_or]
      exact ⟨hflip hAY x hx, hflip hKY x hx⟩
  constructor
  · rw [he]
    apply absorbSDPSet_of_antichain
    unfold Antichain
    simp only [List.pairwise_cons, List.mem_cons, List.mem_singleton, List.not_mem_nil,
      or_false, forall_eq_or_imp, forall_eq, Dominates, IsEmpty.forall_iff, implies_true,
      List.Pairwise.nil, and_true, true_and, Bool.false_eq_true, false_and, not_false_eq_true,
      Bool.true_eq_false]
    exact ⟨⟨hne_sub hAne hAK, hne_sub hKne (hflip hAK)⟩,
      ⟨hne_sub hXne hXY, hne_sub hYne (hflip hXY)⟩⟩
  · have hI : set_intersection X Y = [] := by
      rw [set_intersection_eq_filter X Y hX hY]
      exact List.filter_eq_nil_iff.2 (fun x hx => by simpa using hXY x hx)
    simp [utils.hasCommonElement, utils.hasCommonElement.pairs, List.filter, hI]

theorem decomposeSDPSet_loop_mono (fuel : Nat) :
    ∀ (Q results out : List SDPSets), decomposeSDPSet.loop fuel Q results = some out →
      ∀ k, decomposeSDPSet.loop (fuel + k) Q results = some out := by
  induction fuel with
  | zero =>
    intro Q results out h k
    cases Q with
    | nil =>
      simp only [decomposeSDPSet.loop] at h ⊢
      exact h
    | cons S Q => simp [decomposeSDPSet.loop] at h
  | succ fuel ih =>
    intro Q results out h k
    cases Q with
    | nil =>
      simp only [decomposeSDPSet.loop] at h ⊢
      exact h
    | cons S Q =>
      have hk : fuel + 1 + k = (fuel + k) + 1 := by omega
      rw [hk]
      rw [decomposeSDPSet.loop] at h ⊢
      split at h
      · rename_i hc
        rw [if_pos hc]
        exact ih _ _ _ h k
      · rename_i hc
        rw [if_neg hc]
        split at h
        · exact ih _ _ _ h k
        · exact ih _ _ _ h k

theorem decomposeSDPSet_three (A B C K : List Int)
    (hB : B.Sorted (· < ·)) (hC : C.Sorted (· < ·))
    (hK : K = B.filter (fun x => decide (x ∈ C))) (hAne : A ≠ []) (hKne : K ≠ [])
    (hBK : B.filter (fun x => decide (x ∉ K)) ≠ [])
    (hCK : C.filter (fun x => decide (x ∉ K)) ≠ [])
    (hAB : ∀ x ∈ A, x ∉ B) (hAC : ∀ x ∈ A, x ∉ C) :
    ∀ fuel, 3 ≤ fuel →
      decomposeSDPSet fuel [SDP.mk false A, SDP.mk true B, SDP.mk true C] =
        some [[SDP.mk false A, SDP.mk true K],
          [SDP.mk false A, SDP.mk false K,
            SDP.mk true (B.filter (fun x => decide (x ∉ K))),
            SDP.mk true (C.filter (fun x => decide (x ∉ K)))]] := by
  have hKB : ∀ x ∈ K, x ∈ B := fun x hx => by
    rw [hK] at hx
    exact (List.mem_filter.1 hx).1
  have hKasc : K.Sorted (· < ·) := by
    rw [hK]
    exact hB.filter _
  have hsplit := decompose_three_split A B C K hB hC hK hKne
  have hcommon := hasCommonElement_three A B C K hB hC hK hKne
  obtain ⟨h1, h1c⟩ := decompose_three_child1 A K (fun x hx hxA => hAB x hxA (hKB x hx)) hKne hKasc
  obtain ⟨h2, h2c⟩ := decompose_three_child2 A K
    (B.filter (fun x => decide (x ∉ K))) (C.filter (fun x => decide (x ∉ K)))
    hAne hKne hBK hCK (hB.filter _) (hC.filter _)
    (fun x hx hxK => hAB x hx (hKB x hxK))
    (fun x hx hxX => hAB x hx (List.mem_filter.1 hxX).1)
    (fun x hx hxY => hAC x hx (List.mem_filter.1 hxY).1)
    (fun x hx hxX => by simpa [hx] using (List.mem_filter.1 hxX).2)
    (fun x hx hxY => by simpa [hx] using (List.mem_filter.1 hxY).2)
    (fun x hx hxY => by
      have hxB := (List.mem_filter.1 hx).1
      have hxK : x ∉ K := by simpa using (List.mem_filter.1 hx).2
      have hxC := (List.mem_filter.1 hxY).1
      exact hxK (by rw [hK]; exact List.mem_filter.2 ⟨hxB, by simpa using hxC⟩))
  rw [h1, h2] at hsplit
  have h3 : decomposeSDPSet 3 [SDP.mk false A, SDP.mk true B, SDP.mk true C] =
      some [[SDP.mk false A, SDP.mk true K],
          [SDP.mk false A, SDP.mk false K,
            SDP.mk true (B.filter (fun x => decide (x ∉ K))),
            SDP.mk true (C.filter (fun x => decide (x ∉ K)))]] := by
    simp only [decomposeSDPSet, decomposeSDPSet.loop, hcommon, hsplit, h1c, h2c, Bool.not_true,
      Bool.not_false, Bool.false_eq_true, if_false, if_true, List.nil_append,
      List.cons_append, List.singleton_append]
  intro fuel hfuel
  obtain ⟨k, rfl⟩ : ∃ k, fuel = 3 + k := ⟨fuel - 3, by omega⟩
  exact decomposeSDPSet_loop_mono 3 _ _ _ h3 k

/-- C13 (counterexample). The example of the specification has ascending
terms, `K = {3}`, and residues `{4,5}` and `{1,7}` that are non-empty and share
no literal, but `decomposeSDPSet` eliminates the literals of `+{2,7}` from the
complementary terms of each child, so its second list ends in `-{1}`; with no
fuel does it return `[+{2,7}, -{3}]` and `[+{2,7}, +{3}, -{4,5}, -{1,7}]`. -/
theorem decomposeSDPSet_example_differs :
    ([2, 7] : List Int).Sorted (· < ·) ∧ ([3, 4, 5] : List Int).Sorted (· < ·) ∧
    ([1, 3, 7] : List Int).Sorted (· < ·) ∧
    ([3, 4, 5] : List Int).filter (fun x => decide (x ∈ ([1, 3, 7] : List Int))) = [3] ∧
    ([3, 4, 5] : List Int).filter (fun x => decide (x ∉ ([3] : List Int))) = [4, 5] ∧
    ([1, 3, 7] : List Int).filter (fun x => decide (x ∉ ([3] : List Int))) = [1, 7] ∧
    (∀ x ∈ ([4, 5] : List Int), x ∉ ([1, 7] : List Int)) ∧
    decomposeSDPSet 3 [SDP.mk false [2, 7], SDP.mk true [3, 4, 5], SDP.mk true [1, 3, 7]] =
      some [[SDP.mk false [2, 7], SDP.mk true [3]],
        [SDP.mk false [2, 7], SDP.mk false [3], SDP.mk true [4, 5], SDP.mk true [1]]] ∧
    ∀ fuel,
      decomposeSDPSet fuel [SDP.mk false [2, 7], SDP.mk true [3, 4, 5], SDP.mk true [1, 3, 7]] ≠
        some [[SDP.mk false [2, 7], SDP.mk true [3]],
          [SDP.mk false [2, 7], SDP.mk false [3], SDP.mk true [4, 5], SDP.mk true [1, 7]]] := by
  have h3 : decomposeSDPSet 3
      [SDP.mk false [2, 7], SDP.mk true [3, 4, 5], SDP.mk true [1, 3, 7]] =
      some [[SDP.mk false [2, 7], SDP.mk true [3]],
        [SDP.mk false [2, 7], SDP.mk false [3], SDP.mk true [4, 5], SDP.mk true [1]]] := by
    decide
  refine ⟨by decide, by decide, by decide, by decide, by decide, by decide, by decide, h3, ?_⟩
  intro fuel h
  have e1 := decomposeSDPSet_loop_mono fuel _ _ _ h 3
  have e2 := decomposeSDPSet_loop_mono 3 _ _ _ h3 fuel
  rw [Nat.add_comm] at e2
  rw [e1] at e2
  revert e2
  decide

/-- C13 (amended). For every SDPList `[+A, -B, -C]` with `B` and `C` strictly
ascending, `A` non-empty and sharing no literal with `B` or `C`, in which `B`
and `C` share the non-empty literal set `K` and the residues `B \ K` and
`C \ K` are non-empty, `decomposeSDPSet` returns (with fuel 3 or more) exactly the
two lists `[+A, -K]` and `[+A, +K, -(B \ K), -(C \ K)]`, in that order. -/
theorem decomposeSDPSet_three_terms (A B C K : List Int)
    (hB : B.Sorted (· < ·)) (hC : C.Sorted (· < ·))
    (hK : K = B.filter (fun x => decide (x ∈ C))) (hAne : A ≠ []) (hKne : K ≠ [])
    (hBK : B.filter (fun x => decide (x ∉ K)) ≠ [])
    (hCK : C.filter (fun x => decide (x ∉ K)) ≠ [])
    (hAB : ∀ x ∈ A, x ∉ B) (hAC : ∀ x ∈ A, x ∉ C) :
    ∀ fuel, 3 ≤ fuel →
      decomposeSDPSet fuel [SDP.mk false A, SDP.mk true B, SDP.mk true C] =
        some [[SDP.mk false A, SDP.mk true K],
          [SDP.mk false A, SDP.mk false K,
            SDP.mk true (B.filter (fun x => decide (x ∉ K))),
            SDP.mk true (C.filter (fun x => decide (x ∉ K)))]] :=
  decomposeSDPSet_three A B C K hB hC hK hAne hKne hBK hCK hAB hAC

theorem decomposeSDPSet_three_terms_witness :
    decomposeSDPSet 3 [SDP.mk false [2, 6], SDP.mk true [3, 4, 5], SDP.mk true [1, 3, 7]] =
      some [[SDP.mk false [2, 6], SDP.mk true [3]],
        [SDP.mk false [2, 6], SDP.mk false [3], SDP.mk true [4, 5], SDP.mk true [1, 7]]] ∧
    ∀ fuel, 3 ≤ fuel →
      decomposeSDPSet fuel [SDP.mk false [2, 6], SDP.mk true [3, 4, 5], SDP.mk true [1, 3, 7]] =
        some [[SDP.mk false [2, 6], SDP.mk true [3]],
          [SDP.mk false [2, 6], SDP.mk false [3],
            SDP.mk true (([3, 4, 5] : List Int).filter (fun x => decide (x ∉ ([3] : List Int)))),
            SDP.mk true
              (([1, 3, 7] : List Int).filter (fun x => decide (x ∉ ([3] : List Int))))]] :=
  ⟨by decide,
    decomposeSDPSet_three_terms [2, 6] [3, 4, 5] [1, 3, 7] [3] (by decide) (by decide)
      (by decide) (by decide) (by decide) (by decide) (by decide) (by decide) (by decide)⟩

/-! ### Absorption of non-complementary terms -/

/-- C21 (counterexample). On the list `[+{1}, +{1,2}]`, `absorbSDPSet` marks the
non-complementary term `+{1,2}` as a superset of `+{1}` and drops it:
`utils::isSubSet` accepts two terms of the same flag, complementary or not.
The non-complementary terms of the result differ from those of the input, and
so does the event: with component 1 up and component 2 down the result holds
and the input does not. -/
theorem absorbSDPSet_drops_noncomplementary :
    absorbSDPSet [SDP.mk false [1], SDP.mk false [1, 2]] = [SDP.mk false [1]] ∧
    (absorbSDPSet [SDP.mk false [1], SDP.mk false [1, 2]]).filter
        (fun t => !t.is_complementary) ≠
      [SDP.mk false [1], SDP.mk false [1, 2]].filter (fun t => !t.is_complementary) ∧
    listSat (fun i => decide (i = 1)) (absorbSDPSet [SDP.mk false [1], SDP.mk false [1, 2]]) =
      true ∧
    listSat (fun i => decide (i = 1)) [SDP.mk false [1], SDP.mk false [1, 2]] = false := by
  decide

/-! ### The probability readout of a forest -/

/-- C24. For every forest `F` whose literals are ids known to the
probability map, `SDPSetToAvail` returns the sum over the lists `S` of `F` of
the product over the terms `T` of `S` of the value of `T`: the product of the
literal probabilities for a non-complementary term, one minus that product
for a complementary term. The empty forest gives `0`. -/
theorem SDPSetToAvail_formula (pm : ProbabilityMap) (P : Nat → ℚ) (n : Nat)
    (hpm : pm.Represents P n) (F : List SDPSets)
    (hF : ∀ S ∈ F, ∀ t ∈ S, ∀ l ∈ t.set, 1 ≤ l.natAbs ∧ l.natAbs ≤ n) :
    SDPSetToAvail pm F = Except.ok
      ((F.map (fun S => (S.map (fun T =>
        if T.is_complementary then 1 - (T.set.map (litProb P)).prod
        else (T.set.map (litProb P)).prod)).prod)).sum) ∧
    SDPSetToAvail pm [] = Except.ok 0 :=
  ⟨SDPSetToAvail_eq hpm F hF, rfl⟩

theorem SDPSetToAvail_formula_witness :
    (ProbabilityMap.mk [0, 1 / 2, 1 / 4] [0, 1 / 2, 3 / 4]).Represents
      (fun i => if i = 1 then 1 / 2 else 1 / 4) 2 ∧
    SDPSetToAvail (ProbabilityMap.mk [0, 1 / 2, 1 / 4] [0, 1 / 2, 3 / 4])
      [[SDP.mk false [1]], [SDP.mk false [2], SDP.mk true [1, 2]]] =
        Except.ok (1 / 2 + 1 / 4 * (1 - 1 / 2 * (1 / 4))) ∧
    (SDPSetToAvail (ProbabilityMap.mk [0, 1 / 2, 1 / 4] [0, 1 / 2, 3 / 4])
      [[SDP.mk false [1]], [SDP.mk false [2], SDP.mk true [1, 2]]] = Except.ok
      (([[SDP.mk false [1]], [SDP.mk false [2], SDP.mk true [1, 2]]].map
        (fun S => (S.map (fun T =>
          if T.is_complementary then
            1 - (T.set.map (litProb (fun i => if i = 1 then 1 / 2 else 1 / 4))).prod
          else (T.set.map (litProb (fun i => if i = 1 then 1 / 2 else 1 / 4))).prod)).prod)).sum) ∧
    SDPSetToAvail (ProbabilityMap.mk [0, 1 / 2, 1 / 4] [0, 1 / 2, 3 / 4]) [] = Except.ok 0) := by
  have h1 : (ProbabilityMap.mk [0, 1 / 2, 1 / 4] [0, 1 / 2, 3 / 4]).Represents
      (fun i => if i = 1 then 1 / 2 else 1 / 4) 2 := by
    intro i hi1 hi2
    interval_cases i <;> norm_num
  have h2 := SDPSetToAvail_formula _ _ 2 h1
    [[SDP.mk false [1]], [SDP.mk false [2], SDP.mk true [1, 2]]] (by decide)
  refine ⟨h1, ?_, h2⟩
  rw [h2.1]
  norm_num [litProb]
/-! ### Absent inputs -/

theorem mcs_filter_endpoints (src dst : Int) (cuts : MinCutSets)
    (h : ∀ c ∈ cuts, c = [src] ∨ c = [dst]) :
    (cuts.filter (fun c => decide (c ≠ [src]))).filter (fun c => decide (c ≠ [dst])) = [] := by
  rw [List.filter_eq_nil_iff]
  intro c hc
  obtain ⟨hc1, hc2⟩ := List.mem_filter.1 hc
  rcases h c hc1 with h1 | h1
  · simp [h1] at hc2
  · simp [h1]

theorem mcs_evalAvail_endpoints (pm : ProbabilityMap) (P : Nat → ℚ) (n : Nat)
    (hpm : pm.Represents P n) (s d : Int) (hs : 0 < s ∧ s ≤ (n : Int))
    (hd : 0 < d ∧ d ≤ (n : Int)) (cuts : MinCutSets)
    (hcuts : ∀ c ∈ cuts, c = [s] ∨ c = [d]) (fuel : Nat) :
    mcs.evalAvail fuel s d pm cuts = some (Except.ok (P s.natAbs * P d.natAbs)) := by
  have hs' : 1 ≤ s.natAbs ∧ s.natAbs ≤ n := by omega
  have hd' : 1 ≤ d.natAbs ∧ d.natAbs ≤ n := by omega
  unfold mcs.evalAvail mcs.toProbaSet
  simp only [mcs_filter_endpoints s d cuts hcuts, List.isEmpty_nil, if_true, Option.map_some']
  rw [mcs_probaSetToAvail_eq hpm s d hs' hd' [] (by simp)]
  simp [sumProb, litProb, hs.1, hd.1]

/-- C26. Absent inputs produce identity answers: on the empty list of path
sets `pathset::evalAvail` and `sdp::evalAvail` return `0` for every `s`, `d` and
probability map, whatever the fuel; on a list of cut sets that is empty or
holds only the singletons `[s]` and `[d]`, `mcs::evalAvail` returns
`P(s) * P(d)` for endpoints `s`, `d` known to the probability map. -/
theorem evalAvail_absent_inputs (pm : ProbabilityMap) (s d : Int) (fuel : Nat) :
    pathset.evalAvail fuel s d pm [] = some (Except.ok 0) ∧
    sdp.evalAvail fuel s d pm [] = some (Except.ok 0) ∧
    ∀ (P : Nat → ℚ) (n : Nat) (cuts : MinCutSets), pm.Represents P n →
      (0 < s ∧ s ≤ (n : Int)) → (0 < d ∧ d ≤ (n : Int)) →
      (∀ c ∈ cuts, c = [s] ∨ c = [d]) →
      mcs.evalAvail fuel s d pm cuts = some (Except.ok (P s.natAbs * P d.natAbs)) := by
  refine ⟨rfl, rfl, ?_⟩
  intro P n cuts hpm hs hd hcuts
  exact mcs_evalAvail_endpoints pm P n hpm s d hs hd cuts hcuts fuel

theorem evalAvail_absent_inputs_witness :
    (ProbabilityMap.mk [0, 1 / 2, 1 / 4] [0, 1 / 2, 3 / 4]).Represents
      (fun i => if i = 1 then 1 / 2 else 1 / 4) 2 ∧
    mcs.evalAvail 0 1 2 (ProbabilityMap.mk [0, 1 / 2, 1 / 4] [0, 1 / 2, 3 / 4]) [[1], [2], [1]] =
      some (Except.ok (1 / 2 * (1 / 4))) ∧
    mcs.evalAvail 0 1 2 (ProbabilityMap.mk [0, 1 / 2, 1 / 4] [0, 1 / 2, 3 / 4]) [] =
      some (Except.ok (1 / 2 * (1 / 4))) := by
  have h1 : (ProbabilityMap.mk [0, 1 / 2, 1 / 4] [0, 1 / 2, 3 / 4]).Represents
      (fun i => if i = 1 then 1 / 2 else 1 / 4) 2 := by
    intro i hi1 hi2
    interval_cases i <;> norm_num
  have h := (evalAvail_absent_inputs (ProbabilityMap.mk [0, 1 / 2, 1 / 4] [0, 1 / 2, 3 / 4])
    1 2 0).2.2 (fun i => if i = 1 then 1 / 2 else 1 / 4) 2
  refine ⟨h1, ?_, ?_⟩
  · have := h [[1], [2], [1]] h1 (by decide) (by decide) (by decide)
    simpa using this
  · have := h [] h1 (by decide) (by decide) (by decide)
    simpa using this

/-! ### The constructor on dense ids -/

theorem write_length (arr : List ℚ) (k : Int) (x : ℚ) :
    (ProbabilityMap.write arr k x).length = arr.length := by
  unfold ProbabilityMap.write
  split <;> simp

theorem write_get_same (arr : List ℚ) (k : Int) (x : ℚ) (h0 : 0 ≤ k)
    (hlt : k.toNat < arr.length) : (ProbabilityMap.write arr k x)[k.toNat]? = some x := by
  unfold ProbabilityMap.write
  rw [if_pos h0]
  simp [List.getElem?_set, hlt]

theorem write_get_other (arr : List ℚ) (k : Int) (x : ℚ) (j : Nat)
    (hne : (j : Int) ≠ k) : (ProbabilityMap.write arr k x)[j]? = arr[j]? := by
  unfold ProbabilityMap.write
  split
  · rename_i h0
    have : k.toNat ≠ j := by omega
    simp [List.getElem?_set, this]
  · rfl

theorem ofMap_fold_spec (m : List (Int × ℚ)) :
    ∀ (pm0 : ProbabilityMap),
      (m.map Prod.fst).Nodup →
      (∀ e ∈ m, 0 ≤ e.1 ∧ e.1.toNat < pm0.pos_array.length ∧
        e.1.toNat < pm0.neg_array.length) →
      let pm := m.foldl
        (fun pm pair =>
          { pos_array := ProbabilityMap.write pm.pos_array pair.1 pair.2,
            neg_array := ProbabilityMap.write pm.neg_array pair.1 (1 - pair.2) }) pm0
      pm.pos_array.length = pm0.pos_array.length ∧
      pm.neg_array.length = pm0.neg_array.length ∧
      (∀ e ∈ m, pm.pos_array[e.1.toNat]? = some e.2 ∧
        pm.neg_array[e.1.toNat]? = some (1 - e.2)) ∧
      (∀ j : Nat, (∀ e ∈ m, (j : Int) ≠ e.1) →
        pm.pos_array[j]? = pm0.pos_array[j]? ∧ pm.neg_array[j]? = pm0.neg_array[j]?) := by
  induction m with
  | nil =>
    intro pm0 _ _
    simp
  | cons e m ih =>
    intro pm0 hnd hr
    rw [List.map_cons, List.nodup_cons] at hnd
    obtain ⟨h0, hp, hn⟩ := hr e (by simp)
    have hr' : ∀ e' ∈ m, 0 ≤ e'.1 ∧
        e'.1.toNat < (ProbabilityMap.write pm0.pos_array e.1 e.2).length ∧
        e'.1.toNat < (ProbabilityMap.write pm0.neg_array e.1 (1 - e.2)).length := by
      intro e' he'
      rw [write_length, write_length]
      exact hr e' (by simp [he'])
    obtain ⟨l1, l2, hin, hout⟩ := ih
      { pos_array := ProbabilityMap.write pm0.pos_array e.1 e.2,
        neg_array := ProbabilityMap.write pm0.neg_array e.1 (1 - e.2) } hnd.2 hr'
    simp only [List.foldl_cons]
    simp only [write_length] at l1 l2
    refine ⟨l1, l2, ?_, ?_⟩
    · intro e' he'
      rcases List.mem_cons.1 he' with rfl | he'
      · have hj : ∀ e2 ∈ m, ((e'.1.toNat : Nat) : Int) ≠ e2.1 := by
          intro e2 he2 heq
          rw [Int.toNat_of_nonneg h0] at heq
          exact hnd.1 (List.mem_map.2 ⟨e2, he2, heq.symm⟩)
        obtain ⟨h1, h2⟩ := hout e'.1.toNat hj
        rw [h1, h2]
        exact ⟨write_get_same _ _ _ h0 hp, write_get_same _ _ _ h0 hn⟩
      · exact hin e' he'
    · intro j hj
      obtain ⟨h1, h2⟩ := hout j (fun e2 he2 => hj e2 (by simp [he2]))
      rw [h1, h2]
      exact ⟨write_get_other _ _ _ j (hj e (by simp)),
        write_get_other _ _ _ j (hj e (by simp))⟩

theorem ofMap_fold_length (m : List (Int × ℚ)) :
    ∀ (pm0 : ProbabilityMap),
      (m.foldl
        (fun (pm : ProbabilityMap) (pair : Int × ℚ) =>
          ({ pos_array := ProbabilityMap.write pm.pos_array pair.1 pair.2,
             neg_array := ProbabilityMap.write pm.neg_array pair.1 (1 - pair.2) } :
            ProbabilityMap)) pm0).pos_array.length = pm0.pos_array.length := by
  induction m with
  | nil => intro pm0; rfl
  | cons e m ih =>
    intro pm0
    rw [List.foldl_cons, ih, write_length]

theorem ofMap_length (m : List (Int × ℚ)) :
    (ProbabilityMap.ofMap m).pos_array.length = m.length + 1 := by
  unfold ProbabilityMap.ofMap
  rw [ofMap_fold_length]
  simp

theorem ofMap_get_outOfRange (m : List (Int × ℚ)) (i : Int) (h : m.length + 1 < i.natAbs) :
    (ProbabilityMap.ofMap m).get i = Except.error LookupError.outOfRange := by
  unfold ProbabilityMap.get
  rw [ofMap_length, if_pos h]

theorem ofMap_get_dense (m : List (Int × ℚ)) (hkeys : (m.map Prod.fst).Nodup)
    (hrange : ∀ e ∈ m, 1 ≤ e.1 ∧ e.1 ≤ (m.length : Int)) :
    ∀ e ∈ m, (ProbabilityMap.ofMap m).get e.1 = Except.ok e.2 ∧
      (ProbabilityMap.ofMap m).get (-e.1) = Except.ok (1 - e.2) := by
  intro e he
  obtain ⟨h1, h2⟩ := hrange e he
  have hspec := ofMap_fold_spec m
    { pos_array := List.replicate (m.length + 1) 0,
      neg_array := List.replicate (m.length + 1) 0 } hkeys
    (fun e' he' => by
      obtain ⟨h1', h2'⟩ := hrange e' he'
      simp only [List.length_replicate]
      omega)
  obtain ⟨_, _, hin, _⟩ := hspec
  obtain ⟨hp, hn⟩ := hin e he
  have hlen := ofMap_length m
  have hguard : ¬ (e.1.natAbs > (ProbabilityMap.ofMap m).pos_array.length) := by
    rw [hlen]; omega
  have hguard' : ¬ ((-e.1).natAbs > (ProbabilityMap.ofMap m).pos_array.length) := by
    rw [hlen]; omega
  constructor
  · unfold ProbabilityMap.get
    rw [if_neg hguard, if_pos (by omega)]
    unfold ProbabilityMap.ofMap
    rw [hp]
  · unfold ProbabilityMap.get
    rw [if_neg hguard', if_neg (by omega), neg_neg]
    unfold ProbabilityMap.ofMap
    rw [hn]
/-! ### Lookups in a ProbabilityMap built from a mapping -/

/-- C27. Built from the mapping `{3 ↦ 9/10}`, whose only id is `≥ 1`, the
constructor sizes both arrays by the number of entries plus one (two slots),
so the write at index 3 falls outside the arrays and `lookup(3)` and
`lookup(-3)` fail with `OutOfRange` instead of returning `9/10` and `1/10`. -/
theorem ProbabilityMap_ofMap_sparse :
    (ProbabilityMap.ofMap [(3, 9 / 10)]).pos_array.length = 2 ∧
    (ProbabilityMap.ofMap [(3, 9 / 10)]).get 3 = Except.error LookupError.outOfRange ∧
    (ProbabilityMap.ofMap [(3, 9 / 10)]).get (-3) = Except.error LookupError.outOfRange ∧
    (ProbabilityMap.ofMap [(3, 9 / 10)]).get 3 ≠ Except.ok (9 / 10) := by
  refine ⟨rfl, rfl, rfl, ?_⟩
  intro h
  have h2 : (ProbabilityMap.ofMap [(3, 9 / 10)]).get 3 = Except.error LookupError.outOfRange := rfl
  rw [h2] at h
  cases h

/-- C28. Built from the mapping `{1 ↦ 1/2}` (ids `1..n` with `n = 1`), both
arrays have two slots, and the guard of `operator[]` compares `|i|` with the
array size using `>`: for `i = 2` and `i = -2`, whose magnitude exceeds `n`,
the guard passes and the lookup reads slot 2, outside the arrays, instead of
failing with `OutOfRange`. -/
theorem ProbabilityMap_get_off_by_one :
    (ProbabilityMap.ofMap [(1, 1 / 2)]).pos_array = [0, 1 / 2] ∧
    (ProbabilityMap.ofMap [(1, 1 / 2)]).neg_array = [0, 1 / 2] ∧
    (ProbabilityMap.ofMap [(1, 1 / 2)]).get 2 = Except.error LookupError.invalidRead ∧
    (ProbabilityMap.ofMap [(1, 1 / 2)]).get (-2) = Except.error LookupError.invalidRead ∧
    (ProbabilityMap.ofMap [(1, 1 / 2)]).get 2 ≠ Except.error LookupError.outOfRange ∧
    (ProbabilityMap.ofMap [(1, 1 / 2)]).get 3 = Except.error LookupError.outOfRange := by
  have h2 : (ProbabilityMap.ofMap [(1, 1 / 2)]).get 2 = Except.error LookupError.invalidRead := rfl
  refine ⟨?_, ?_, h2, rfl, ?_, rfl⟩
  · simp [ProbabilityMap.ofMap, ProbabilityMap.write]
  · simp [ProbabilityMap.ofMap, ProbabilityMap.write]
    norm_num
  · rw [h2]
    intro h
    cases h

/-! ### hasCommonElement on ascending terms -/

theorem set_intersection_go_mem (fuel : Nat) (a b : List Int)
    (hfuel : a.length + b.length ≤ fuel) (ha : a.Sorted (· ≤ ·)) (hb : b.Sorted (· ≤ ·))
    (z : Int) : z ∈ set_intersection.go fuel a b ↔ z ∈ a ∧ z ∈ b := by
  induction fuel generalizing a b with
  | zero =>
    have : a = [] := List.length_eq_zero.1 (by omega)
    simp [set_intersection.go, this]
  | succ f ih =>
    cases a with
    | nil => simp [set_intersection.go]
    | cons x xs =>
      cases b with
      | nil => simp [set_intersection.go]
      | cons y ys =>
        simp only [List.length_cons] at hfuel
        have hxs : xs.Sorted (· ≤ ·) := ha.of_cons
        have hys : ys.Sorted (· ≤ ·) := hb.of_cons
        have hx : ∀ w ∈ xs, x ≤ w := fun w hw => List.rel_of_sorted_cons ha w hw
        have hy : ∀ w ∈ ys, y ≤ w := fun w hw => List.rel_of_sorted_cons hb w hw
        simp only [set_intersection.go]
        split
        · rename_i hlt
          rw [ih xs (y :: ys) (by simp only [List.length_cons]; omega) hxs hb]
          constructor
          · rintro ⟨h1, h2⟩
            exact ⟨List.mem_cons_of_mem _ h1, h2⟩
          · rintro ⟨h1, h2⟩
            refine ⟨?_, h2⟩
            rcases List.mem_cons.1 h1 with h | h
            · exfalso
              subst h
              rcases List.mem_cons.1 h2 with h | h
              · omega
              · have := hy z h
                omega
            · exact h
        · split
          · rename_i hnlt hlt
            rw [ih (x :: xs) ys (by simp only [List.length_cons]; omega) ha hys]
            constructor
            · rintro ⟨h1, h2⟩
              exact ⟨h1, List.mem_cons_of_mem _ h2⟩
            · rintro ⟨h1, h2⟩
              refine ⟨h1, ?_⟩
              rcases List.mem_cons.1 h2 with h | h
              · exfalso
                subst h
                rcases List.mem_cons.1 h1 with h | h
                · omega
                · have := hx z h
                  omega
              · exact h
          · rename_i hnlt hnlt2
            have hxy : x = y := by omega
            subst hxy
            rw [List.mem_cons, ih xs ys (by omega) hxs hys]
            constructor
            · rintro (h | ⟨h1, h2⟩)
              · subst h
                simp
              · exact ⟨List.mem_cons_of_mem _ h1, List.mem_cons_of_mem _ h2⟩
            · rintro ⟨h1, h2⟩
              by_cases hz : z = x
              · exact Or.inl hz
              · right
                exact ⟨(List.mem_cons.1 h1).resolve_left hz, (List.mem_cons.1 h2).resolve_left hz⟩

theorem set_intersection_ne_nil_iff (a b : List Int) (ha : a.Sorted (· ≤ ·))
    (hb : b.Sorted (· ≤ ·)) :
    (set_intersection a b).isEmpty = false ↔ ∃ z ∈ a, z ∈ b := by
  constructor
  · intro h
    cases hs : set_intersection a b with
    | nil => rw [hs] at h; simp at h
    | cons z zs =>
      have hz : z ∈ set_intersection a b := by rw [hs]; simp
      obtain ⟨h1, h2⟩ := (set_intersection_go_mem _ a b (le_refl _) ha hb z).1 hz
      exact ⟨z, h1, h2⟩
  · rintro ⟨z, h1, h2⟩
    have hz : z ∈ set_intersection a b :=
      (set_intersection_go_mem _ a b (le_refl _) ha hb z).2 ⟨h1, h2⟩
    cases hs : set_intersection a b with
    | nil => rw [hs] at hz; simp at hz
    | cons _ _ => rfl

theorem pairs_true_iff (C : List SDP) (hasc : ∀ c ∈ C, c.set.Sorted (· ≤ ·)) :
    utils.hasCommonElement.pairs C = true ↔
      ∃ pre a mid b post, C = pre ++ a :: (mid ++ b :: post) ∧ ∃ z ∈ a.set, z ∈ b.set := by
  induction C with
  | nil =>
    simp [utils.hasCommonElement.pairs]
  | cons c C ih =>
    simp only [utils.hasCommonElement.pairs, Bool.or_eq_true, List.any_eq_true,
      Bool.not_eq_true']
    rw [ih (fun d hd => hasc d (by simp [hd]))]
    constructor
    · rintro (⟨b, hb, hne⟩ | ⟨pre, a, mid, b, post, hC, hz⟩)
      · obtain ⟨mid, post, hsplit⟩ := List.append_of_mem hb
        exact ⟨[], c, mid, b, post, by simp [hsplit],
          (set_intersection_ne_nil_iff _ _ (hasc c (by simp)) (hasc b (by simp [hb]))).1 hne⟩
      · exact ⟨c :: pre, a, mid, b, post, by simp [hC], hz⟩
    · rintro ⟨pre, a, mid, b, post, hC, hz⟩
      cases pre with
      | nil =>
        simp only [List.nil_append, List.cons.injEq] at hC
        obtain ⟨rfl, rfl⟩ := hC
        left
        refine ⟨b, by simp, ?_⟩
        exact (set_intersection_ne_nil_iff _ _ (hasc c (by simp)) (hasc b (by simp))).2 hz
      | cons p pre =>
        simp only [List.cons_append, List.cons.injEq] at hC
        obtain ⟨rfl, rfl⟩ := hC
        right
        exact ⟨pre, a, mid, b, post, rfl, hz⟩

theorem filter_decompose {p : SDP → Bool} {S pre mid post : List SDP} {a b : SDP}
    (h : S.filter p = pre ++ a :: (mid ++ b :: post)) :
    ∃ pre1 mid1 post1, S = pre1 ++ a :: (mid1 ++ b :: post1) ∧ p a = true ∧ p b = true := by
  obtain ⟨l1, l2, rfl, _, h2⟩ := List.filter_eq_append_iff.1 h
  obtain ⟨m1, m2, rfl, _, hpa, h3⟩ := List.filter_eq_cons_iff.1 h2
  obtain ⟨n1, n2, rfl, _, h4⟩ := List.filter_eq_append_iff.1 h3
  obtain ⟨k1, k2, rfl, _, hpb, _⟩ := List.filter_eq_cons_iff.1 h4
  exact ⟨l1 ++ m1, n1 ++ k1, k2, by simp, hpa, hpb⟩

theorem filter_compose {p : SDP → Bool} {pre mid post : List SDP} {a b : SDP}
    (ha : p a = true) (hb : p b = true) :
    (pre ++ a :: (mid ++ b :: post)).filter p =
      pre.filter p ++ a :: (mid.filter p ++ b :: post.filter p) := by
  simp [List.filter_append, List.filter_cons, ha, hb]

theorem decompose_iff_index {α : Type} (S : List α) (a b : α) :
    (∃ pre mid post, S = pre ++ a :: (mid ++ b :: post)) ↔
      ∃ i j : Nat, i < j ∧ S[i]? = some a ∧ S[j]? = some b := by
  constructor
  · rintro ⟨pre, mid, post, rfl⟩
    refine ⟨pre.length, pre.length + 1 + mid.length, by omega, ?_, ?_⟩
    · rw [List.getElem?_append_right (le_refl _)]
      simp
    · rw [List.getElem?_append_right (by omega)]
      have : pre.length + 1 + mid.length - pre.length = mid.length + 1 := by omega
      rw [this, List.getElem?_cons_succ, List.getElem?_append_right (le_refl _)]
      simp
  · rintro ⟨i, j, hij, hi, hj⟩
    obtain ⟨hi1, hi2⟩ := List.getElem?_eq_some_iff.1 hi
    obtain ⟨hj1, hj2⟩ := List.getElem?_eq_some_iff.1 hj
    have hdi : S.drop i = a :: S.drop (i + 1) := by
      rw [List.drop_eq_getElem_cons hi1, hi2]
    have hj' : i + 1 + (j - (i + 1)) = j := by omega
    have hlt : j - (i + 1) < (S.drop (i + 1)).length := by
      rw [List.length_drop]; omega
    have hdj : (S.drop (i + 1)).drop (j - (i + 1)) =
        b :: (S.drop (i + 1)).drop (j - (i + 1) + 1) := by
      rw [List.drop_eq_getElem_cons hlt]
      congr 1
      rw [List.getElem_drop]
      simp only [hj']
      exact hj2
    refine ⟨S.take i, (S.drop (i + 1)).take (j - (i + 1)),
      (S.drop (i + 1)).drop (j - (i + 1) + 1), ?_⟩
    rw [← hdj, List.take_append_drop, ← hdi, List.take_append_drop]

/-- C29 (counterexample). On `[-{2,1}, -{1}]` the two complementary terms
share the literal `1`, but the first is not ascending, so the merge loop of
`std::set_intersection` finds nothing and `hasCommonElement` returns false. -/
theorem hasCommonElement_unsorted_misses :
    utils.hasCommonElement [SDP.mk true [2, 1], SDP.mk true [1]] = false ∧
    ¬ (utils.hasCommonElement [SDP.mk true [2, 1], SDP.mk true [1]] = true ↔
      ∃ (i j : Nat) (a b : SDP), i ≠ j ∧
        [SDP.mk true [2, 1], SDP.mk true [1]][i]? = some a ∧
        [SDP.mk true [2, 1], SDP.mk true [1]][j]? = some b ∧
        a.is_complementary = true ∧ b.is_complementary = true ∧ ∃ z ∈ a.set, z ∈ b.set) := by
  have h : utils.hasCommonElement [SDP.mk true [2, 1], SDP.mk true [1]] = false := by decide
  refine ⟨h, ?_⟩
  rw [h]
  intro hiff
  have := hiff.2 ⟨0, 1, SDP.mk true [2, 1], SDP.mk true [1], by decide, rfl, rfl, rfl, rfl,
    1, by decide, by decide⟩
  exact absurd this (by decide)

theorem hasCommonElement_iff_of_sorted (S : List SDP)
    (hasc : ∀ c ∈ S, c.is_complementary = true → c.set.Sorted (· ≤ ·)) :
    utils.hasCommonElement S = true ↔
      ∃ (i j : Nat) (a b : SDP), i ≠ j ∧ S[i]? = some a ∧ S[j]? = some b ∧
        a.is_complementary = true ∧ b.is_complementary = true ∧ ∃ z ∈ a.set, z ∈ b.set := by
  unfold utils.hasCommonElement
  rw [pairs_true_iff _ (fun c hc => hasc c (List.mem_filter.1 hc).1 (List.mem_filter.1 hc).2)]
  constructor
  · rintro ⟨pre, a, mid, b, post, hC, hz⟩
    obtain ⟨pre1, mid1, post1, hS, ha, hb⟩ := filter_decompose hC
    obtain ⟨i, j, hij, hi, hj⟩ := (decompose_iff_index S a b).1 ⟨pre1, mid1, post1, hS⟩
    exact ⟨i, j, a, b, by omega, hi, hj, ha, hb, hz⟩
  · rintro ⟨i, j, a, b, hij, hi, hj, ha, hb, z, hza, hzb⟩
    rcases Nat.lt_or_gt_of_ne hij with hlt | hgt
    · obtain ⟨pre, mid, post, hS⟩ := (decompose_iff_index S a b).2 ⟨i, j, hlt, hi, hj⟩
      refine ⟨pre.filter (fun sdp => sdp.is_complementary), a,
        mid.filter (fun sdp => sdp.is_complementary), b,
        post.filter (fun sdp => sdp.is_complementary), ?_, z, hza, hzb⟩
      rw [hS]
      exact filter_compose ha hb
    · obtain ⟨pre, mid, post, hS⟩ := (decompose_iff_index S b a).2 ⟨j, i, hgt, hj, hi⟩
      refine ⟨pre.filter (fun sdp => sdp.is_complementary), b,
        mid.filter (fun sdp => sdp.is_complementary), a,
        post.filter (fun sdp => sdp.is_complementary), ?_, z, hzb, hza⟩
      rw [hS]
      exact filter_compose hb ha

/-- C29 (amended). For every list of SDP terms whose complementary terms are
ascending, `hasCommonElement` returns true if and only if two complementary
terms at different positions of the list share at least one literal. -/
theorem hasCommonElement_iff (S : List SDP)
    (hasc : ∀ c ∈ S, c.is_complementary = true → c.set.Sorted (· ≤ ·)) :
    utils.hasCommonElement S = true ↔
      ∃ (i j : Nat) (a b : SDP), i ≠ j ∧ S[i]? = some a ∧ S[j]? = some b ∧
        a.is_complementary = true ∧ b.is_complementary = true ∧ ∃ z ∈ a.set, z ∈ b.set :=
  hasCommonElement_iff_of_sorted S hasc

theorem hasCommonElement_iff_witness :
    (∀ c ∈ [SDP.mk false [7, 2], SDP.mk true [3, 4, 5], SDP.mk true [1, 3, 3]],
      c.is_complementary = true → c.set.Sorted (· ≤ ·)) ∧
    utils.hasCommonElement
      [SDP.mk false [7, 2], SDP.mk true [3, 4, 5], SDP.mk true [1, 3, 3]] = true ∧
    (utils.hasCommonElement
        [SDP.mk false [7, 2], SDP.mk true [3, 4, 5], SDP.mk true [1, 3, 3]] = true ↔
      ∃ (i j : Nat) (a b : SDP), i ≠ j ∧
        [SDP.mk false [7, 2], SDP.mk true [3, 4, 5], SDP.mk true [1, 3, 3]][i]? = some a ∧
        [SDP.mk false [7, 2], SDP.mk true [3, 4, 5], SDP.mk true [1, 3, 3]][j]? = some b ∧
        a.is_complementary = true ∧ b.is_complementary = true ∧ ∃ z ∈ a.set, z ∈ b.set) :=
  ⟨by decide, by decide, hasCommonElement_iff _ (by decide)⟩

/-! ### All components up, all components down -/

theorem toProbaSet_loop_track (n : Nat) (L : List Set) :
    ∃ out, ((∀ T ∈ out, ∃ B ∈ L, ∀ x ∈ B, x ∈ T) ∧
        ((∀ B ∈ L, Covered n B) → ∀ T ∈ out, Covered n T)) ∧
      ∃ N, ∀ fuel, N ≤ fuel → ∀ acc, toProbaSet.loop fuel L acc = some (acc ++ out) := by
  refine toProbaSet_loop_spec
    (fun L out => (∀ T ∈ out, ∃ B ∈ L, ∀ x ∈ B, x ∈ T) ∧
      ((∀ B ∈ L, Covered n B) → ∀ T ∈ out, Covered n T)) ?_ ?_ ?_ L
  · simp
  · intro A
    refine ⟨fun T hT => ⟨T, hT, fun x hx => hx⟩, fun h T hT => h T hT⟩
  · intro A B rest out ⟨hsup, hcov⟩
    constructor
    · intro T hT
      rcases List.mem_cons.1 hT with rfl | hT
      · exact ⟨T, by simp, fun x hx => hx⟩
      · obtain ⟨B1, hB1, hsub⟩ := hsup T hT
        obtain ⟨B0, hB0, hmem⟩ := List.mem_flatMap.1 hB1
        exact ⟨B0, List.mem_cons_of_mem _ hB0,
          fun x hx => hsub x (makeDisjointSet_superset hmem x hx)⟩
    · intro hL T hT
      rcases List.mem_cons.1 hT with rfl | hT
      · exact hL T (by simp)
      · refine hcov ?_ T hT
        intro B1 hB1
        obtain ⟨B0, hB0, hmem⟩ := List.mem_flatMap.1 hB1
        exact Covered_makeDisjointSet (hL A (by simp)) (hL B0 (List.mem_cons_of_mem _ hB0)) hmem

theorem termProb_zero_of_mem (P : Nat → ℚ) {T : Set} {l : Int} (hl : l ∈ T)
    (h0 : litProb P l = 0) : termProb P T = 0 := by
  unfold termProb
  exact List.prod_eq_zero (List.mem_map.2 ⟨l, hl, h0⟩)

theorem sumProb_zero (P : Nat → ℚ) (L : List Set) (h : ∀ T ∈ L, termProb P T = 0) :
    sumProb P L = 0 := by
  induction L with
  | nil => rfl
  | cons T L ih =>
    rw [sumProb_cons, h T (by simp), ih (fun U hU => h U (by simp [hU]))]
    simp

theorem toProbaSet_all_down (n : Nat) (L : PathSets)
    (hL : ∀ T ∈ L, T ≠ [] ∧ ∀ x ∈ T, (0 : Int) < x ∧ x ≤ (n : Int)) :
    ∃ out, (∀ T ∈ out, Covered n T) ∧ sumProb (fun _ => 0) out = 0 ∧
      ∃ N, ∀ fuel, N ≤ fuel → ∀ acc, toProbaSet.loop fuel L acc = some (acc ++ out) := by
  obtain ⟨out, ⟨hsup, hcov⟩, hN⟩ := toProbaSet_loop_track n L
  refine ⟨out, hcov (fun B hB => covered_of_pos (hL B hB).2), ?_, hN⟩
  apply sumProb_zero
  intro T hT
  obtain ⟨B, hB, hsub⟩ := hsup T hT
  obtain ⟨hne, hpos⟩ := hL B hB
  cases B with
  | nil => exact absurd rfl hne
  | cons b B =>
    apply termProb_zero_of_mem _ (hsub b (by simp))
    simp [litProb, (hpos b (by simp)).1]

theorem toProbaSet_all_up (n : Nat) (L : PathSets) (hne : L ≠ [])
    (hL : ∀ T ∈ L, ∀ x ∈ T, (0 : Int) < x ∧ x ≤ (n : Int)) :
    ∃ out, (∀ T ∈ out, Covered n T) ∧ sumProb (fun _ => 1) out = 1 ∧
      ∃ N, ∀ fuel, N ≤ fuel → ∀ acc, toProbaSet.loop fuel L acc = some (acc ++ out) := by
  have hone : ∀ T ∈ L, termProb (fun _ => (1 : ℚ)) T = 1 := by
    intro T hT
    rw [termProb_of_pos _ (fun x hx => (hL T hT x hx).1)]
    simp
  match L, hne, hL, hone with
  | [A], _, hL, hone =>
    refine ⟨[A], fun T hT => ?_, ?_, 0, fun fuel _ acc => by simp [toProbaSet.loop]⟩
    · rw [List.mem_singleton.1 hT]
      exact covered_of_pos (hL A (by simp))
    · rw [sumProb_cons, sumProb_nil, hone A (by simp)]
      simp
  | A :: B :: rest, _, hL, hone =>
    obtain ⟨out, ⟨hsup, hcov⟩, N, hN⟩ :=
      toProbaSet_loop_track n ((B :: rest).flatMap (makeDisjointSet A))
    have hcovL : ∀ B1 ∈ (B :: rest).flatMap (makeDisjointSet A), Covered n B1 := by
      intro B1 hB1
      obtain ⟨B0, hB0, hmem⟩ := List.mem_flatMap.1 hB1
      exact Covered_makeDisjointSet (covered_of_pos (hL A (by simp)))
        (covered_of_pos (hL B0 (List.mem_cons_of_mem _ hB0))) hmem
    refine ⟨A :: out, ?_, ?_, N + 1, ?_⟩
    · intro T hT
      rcases List.mem_cons.1 hT with rfl | hT
      · exact covered_of_pos (hL T (by simp))
      · exact hcov hcovL T hT
    · rw [sumProb_cons, hone A (by simp), sumProb_zero _ out, add_zero]
      intro T hT
      obtain ⟨B1, hB1, hsub⟩ := hsup T hT
      obtain ⟨B0, hB0, hmem⟩ := List.mem_flatMap.1 hB1
      obtain ⟨x, hxA, hnx⟩ := makeDisjointSet_exclusive hmem
      apply termProb_zero_of_mem _ (hsub _ hnx)
      have hx : (0 : Int) < x := (hL A (by simp) x hxA).1
      have hneg : ¬ (0 : Int) < -x := by omega
      simp [litProb, hneg]
    · intro fuel hfuel acc
      obtain ⟨f, rfl⟩ : ∃ f, fuel = f + 1 := ⟨fuel - 1, by omega⟩
      rw [toProbaSet.loop, hN f (by omega)]
      simp

theorem pathset_evalAvail_of_loop {pm : ProbabilityMap} {P : Nat → ℚ} {n : Nat}
    (hpm : pm.Represents P n) (s d : Int) (L : PathSets) (hne : L ≠ []) (out : ProbaSets)
    (hcov : ∀ T ∈ out, Covered n T) (fuel : Nat)
    (hloop : toProbaSet.loop fuel L [] = some out) :
    pathset.evalAvail fuel s d pm L = some (Except.ok (sumProb P out)) := by
  have : L.isEmpty = false := isEmpty_eq_false_of_ne_nil hne
  simp only [pathset.evalAvail, pathset.toProbaSet, this, Bool.false_eq_true, if_false, hloop,
    Option.map_some', pathset_probaSetToAvail_eq hpm s d out hcov]

/-- C25. For every non-empty list of non-empty path sets of positive ids
known to the probability map, `pathset::evalAvail` returns (with enough fuel
for the pivot loop) `1` when every component probability is `1` and `0` when
every component probability is `0`. -/
theorem pathset_evalAvail_extremes (L : PathSets) (n : Nat) (hne : L ≠ [])
    (hL : ∀ T ∈ L, T ≠ [] ∧ ∀ x ∈ T, (0 : Int) < x ∧ x ≤ (n : Int)) (s d : Int) :
    ∃ N, ∀ fuel, N ≤ fuel →
      (∀ pm : ProbabilityMap, pm.Represents (fun _ => 1) n →
        pathset.evalAvail fuel s d pm L = some (Except.ok 1)) ∧
      (∀ pm : ProbabilityMap, pm.Represents (fun _ => 0) n →
        pathset.evalAvail fuel s d pm L = some (Except.ok 0)) := by
  obtain ⟨out1, hcov1, hsum1, N1, hN1⟩ := toProbaSet_all_up n L hne (fun T hT => (hL T hT).2)
  obtain ⟨out0, hcov0, hsum0, N0, hN0⟩ := toProbaSet_all_down n L hL
  refine ⟨max N1 N0, fun fuel hfuel => ⟨fun pm hpm => ?_, fun pm hpm => ?_⟩⟩
  · have h := hN1 fuel (le_trans (le_max_left _ _) hfuel) []
    rw [List.nil_append] at h
    rw [pathset_evalAvail_of_loop hpm s d L hne out1 hcov1 fuel h, hsum1]
  · have h := hN0 fuel (le_trans (le_max_right _ _) hfuel) []
    rw [List.nil_append] at h
    rw [pathset_evalAvail_of_loop hpm s d L hne out0 hcov0 fuel h, hsum0]

theorem pathset_evalAvail_extremes_witness :
    ([[1, 2], [2, 3], [1, 3]] : PathSets) ≠ [] ∧
    (∀ T ∈ ([[1, 2], [2, 3], [1, 3]] : PathSets),
      T ≠ [] ∧ ∀ x ∈ T, (0 : Int) < x ∧ x ≤ ((3 : Nat) : Int)) ∧
    (ProbabilityMap.mk [0, 1, 1, 1] [0, 0, 0, 0]).Represents (fun _ => 1) 3 ∧
    (ProbabilityMap.mk [0, 0, 0, 0] [0, 1, 1, 1]).Represents (fun _ => 0) 3 ∧
    ∃ N, ∀ fuel, N ≤ fuel →
      (∀ pm : ProbabilityMap, pm.Represents (fun _ => 1) 3 →
        pathset.evalAvail fuel 1 3 pm [[1, 2], [2, 3], [1, 3]] = some (Except.ok 1)) ∧
      (∀ pm : ProbabilityMap, pm.Represents (fun _ => 0) 3 →
        pathset.evalAvail fuel 1 3 pm [[1, 2], [2, 3], [1, 3]] = some (Except.ok 0)) := by
  refine ⟨by decide, by decide, ?_, ?_,
    pathset_evalAvail_extremes [[1, 2], [2, 3], [1, 3]] 3 (by decide) (by decide) 1 3⟩
  · intro i hi1 hi3
    interval_cases i <;> norm_num
  · intro i hi1 hi3
    interval_cases i <;> norm_num

/-! ### The serial topology evaluators preserve the input order -/

theorem evalAvailTopo_loop_ok
    (ev : NodeID → NodeID → List Set → Option (Except LookupError ℚ))
    (lists : List (List Set)) (v : Nat → ℚ) (pairs : NodePairs) :
    ∀ (i : Nat) (acc : List AvailTriple),
      (∀ (k : Nat) (s d : Int), pairs[k]? = some (s, d) →
        ∃ L, lists[i + k]? = some L ∧ ev s d L = some (Except.ok (v (i + k)))) →
      evalAvailTopo.loop ev lists i pairs acc =
        some (Except.ok (acc ++ (pairs.enumFrom i).map (fun q => (q.2.1, q.2.2, v q.1)))) := by
  induction pairs with
  | nil =>
    intro i acc _
    simp [evalAvailTopo.loop]
  | cons p pairs ih =>
    intro i acc h
    obtain ⟨s, d⟩ := p
    obtain ⟨L, hL, hev⟩ := h 0 s d (by simp)
    rw [Nat.add_zero] at hL hev
    rw [evalAvailTopo.loop]
    simp only [hL, hev]
    rw [ih (i + 1) _ (fun k s' d' hk => by
      have := h (k + 1) s' d' (by simpa using hk)
      rw [show i + (k + 1) = i + 1 + k by omega] at this
      exact this)]
    simp [List.enumFrom_cons]

theorem evalAvailTopo_loop_order
    (ev : NodeID → NodeID → List Set → Option (Except LookupError ℚ))
    (lists : List (List Set)) (v : Nat → ℚ) (pairs : NodePairs)
    (hlen : lists.length = pairs.length)
    (h : ∀ (i : Nat) (s d : Int) (L : List Set), pairs[i]? = some (s, d) → lists[i]? = some L →
      ev s d L = some (Except.ok (v i))) :
    ∃ out, evalAvailTopo.loop ev lists 0 pairs [] = some (Except.ok out) ∧
      out.length = pairs.length ∧
      ∀ (i : Nat) (s d : Int), pairs[i]? = some (s, d) → out[i]? = some (s, d, v i) := by
  refine ⟨(pairs.enumFrom 0).map (fun q => (q.2.1, q.2.2, v q.1)), ?_, by simp, ?_⟩
  · rw [evalAvailTopo_loop_ok ev lists v pairs 0 []]
    · simp
    · intro k s d hk
      have hklt : k < lists.length := by
        rw [hlen]
        exact (List.getElem?_eq_some_iff.1 hk).1
      refine ⟨lists[k], by simp [hklt], ?_⟩
      rw [Nat.zero_add]
      exact h k s d _ hk (by simp [hklt])
  · intro i s d hi
    rw [List.getElem?_map, List.getElem?_enumFrom, hi]
    simp

/-- C30. For every list of `(s, d)` pairs and every list of path-set (cut-set)
lists of the same length, the serial `evalAvailTopo` of each algorithm returns
a list of the same length whose `i`-th triple is
`(s_i, d_i, evalAvail(s_i, d_i, P, list_i))`, whenever these evaluations return
the values `v i`: the input order is preserved. -/
theorem evalAvailTopo_preserves_order (fuel : Nat) (pairs : NodePairs) (pm : ProbabilityMap)
    (lists : List (List Set)) (v : Nat → ℚ) (hlen : lists.length = pairs.length) :
    ((∀ (i : Nat) (s d : Int) (L : List Set), pairs[i]? = some (s, d) → lists[i]? = some L →
        pathset.evalAvail fuel s d pm L = some (Except.ok (v i))) →
      ∃ out, pathset.evalAvailTopo fuel pairs pm lists = some (Except.ok out) ∧
        out.length = pairs.length ∧
        ∀ (i : Nat) (s d : Int), pairs[i]? = some (s, d) → out[i]? = some (s, d, v i)) ∧
    ((∀ (i : Nat) (s d : Int) (L : List Set), pairs[i]? = some (s, d) → lists[i]? = some L →
        mcs.evalAvail fuel s d pm L = some (Except.ok (v i))) →
      ∃ out, mcs.evalAvailTopo fuel pairs pm lists = some (Except.ok out) ∧
        out.length = pairs.length ∧
        ∀ (i : Nat) (s d : Int), pairs[i]? = some (s, d) → out[i]? = some (s, d, v i)) ∧
    ((∀ (i : Nat) (s d : Int) (L : List Set), pairs[i]? = some (s, d) → lists[i]? = some L →
        sdp.evalAvail fuel s d pm L = some (Except.ok (v i))) →
      ∃ out, sdp.evalAvailTopo fuel pairs pm lists = some (Except.ok out) ∧
        out.length = pairs.length ∧
        ∀ (i : Nat) (s d : Int), pairs[i]? = some (s, d) → out[i]? = some (s, d, v i)) :=
  ⟨fun h => evalAvailTopo_loop_order _ lists v pairs hlen h,
   fun h => evalAvailTopo_loop_order _ lists v pairs hlen h,
   fun h => evalAvailTopo_loop_order _ lists v pairs hlen h⟩

theorem evalAvailTopo_preserves_order_witness :
    pathset.evalAvailTopo 0 [(1, 2), (2, 3)] (ProbabilityMap.mk [0, 1 / 2, 1 / 4, 1] [0, 1 / 2, 3 / 4, 0])
      [[[1, 2]], [[2, 3]]] = some (Except.ok [(1, 2, 1 / 8), (2, 3, 1 / 4)]) ∧
    ∃ out, pathset.evalAvailTopo 0 [(1, 2), (2, 3)]
        (ProbabilityMap.mk [0, 1 / 2, 1 / 4, 1] [0, 1 / 2, 3 / 4, 0])
        [[[1, 2]], [[2, 3]]] = some (Except.ok out) ∧
      out.length = ([(1, 2), (2, 3)] : NodePairs).length ∧
      ∀ (i : Nat) (s d : Int), ([(1, 2), (2, 3)] : NodePairs)[i]? = some (s, d) →
        out[i]? = some (s, d, (fun i => if i = 0 then (1 / 8 : ℚ) else 1 / 4) i) := by
  have hev : ∀ (i : Nat) (s d : Int) (L : List Set),
      ([(1, 2), (2, 3)] : NodePairs)[i]? = some (s, d) →
      ([[[1, 2]], [[2, 3]]] : List (List Set))[i]? = some L →
      pathset.evalAvail 0 s d (ProbabilityMap.mk [0, 1 / 2, 1 / 4, 1] [0, 1 / 2, 3 / 4, 0]) L =
        some (Except.ok ((fun i => if i = 0 then (1 / 8 : ℚ) else 1 / 4) i)) := by
    intro i s d L hp hl
    match i with
    | 0 =>
      simp only [List.getElem?_cons_zero, Option.some.injEq, Prod.mk.injEq] at hp hl
      obtain ⟨rfl, rfl⟩ := hp
      subst hl
      simp [pathset.evalAvail, pathset.toProbaSet, toProbaSet.loop, pathset.probaSetToAvail,
        termAvail, ProbabilityMap.get, bind, Except.bind, pure, Except.pure]
      norm_num
    | 1 =>
      simp only [List.getElem?_cons_succ, List.getElem?_cons_zero, Option.some.injEq,
        Prod.mk.injEq] at hp hl
      obtain ⟨rfl, rfl⟩ := hp
      subst hl
      simp [pathset.evalAvail, pathset.toProbaSet, toProbaSet.loop, pathset.probaSetToAvail,
        termAvail, ProbabilityMap.get, bind, Except.bind, pure, Except.pure]
    | k + 2 => simp at hp
  have h := (evalAvailTopo_preserves_order 0 [(1, 2), (2, 3)]
    (ProbabilityMap.mk [0, 1 / 2, 1 / 4, 1] [0, 1 / 2, 3 / 4, 0]) [[[1, 2]], [[2, 3]]]
    (fun i => if i = 0 then (1 / 8 : ℚ) else 1 / 4) rfl).1 hev
  refine ⟨?_, h⟩
  obtain ⟨out, ho, hl, hi⟩ := h
  rw [ho]
  have h0 := hi 0 1 2 rfl
  have h1 := hi 1 2 3 rfl
  match out, hl, h0, h1 with
  | [a, b], _, h0, h1 =>
    simp only [List.getElem?_cons_zero, List.getElem?_cons_succ, Option.some.injEq] at h0 h1
    rw [h0, h1]
    simp

/-! ### The ordering heuristic: structure of the output -/

theorem less_iff (a b : List Int) :
    sortPathSet.less a b = true ↔ a.length < b.length ∨ (a.length = b.length ∧ a < b) := by
  unfold sortPathSet.less
  by_cases h : a.length = b.length
  · simp [h]
  · simp [h]

theorem not_less_iff (a b : List Int) :
    sortPathSet.less b a = false ↔ a.length < b.length ∨ (a.length = b.length ∧ a ≤ b) := by
  rw [← Bool.not_eq_true, less_iff]
  constructor
  · intro h
    rcases Nat.lt_trichotomy a.length b.length with h1 | h1 | h1
    · exact Or.inl h1
    · right
      refine ⟨h1, ?_⟩
      by_contra hlt
      exact h (Or.inr ⟨h1.symm, not_le.1 hlt⟩)
    · exact absurd (Or.inl h1) h
  · rintro (h1 | ⟨h1, h2⟩) (h3 | ⟨h3, h4⟩)
    · omega
    · omega
    · omega
    · exact absurd h4 (not_lt.2 h2)

theorem sizeLex_total (a b : List Int) :
    sortPathSet.less b a = false ∨ sortPathSet.less a b = false := by
  rw [not_less_iff, not_less_iff]
  rcases Nat.lt_trichotomy a.length b.length with h1 | h1 | h1
  · exact Or.inl (Or.inl h1)
  · rcases le_total a b with h | h
    · exact Or.inl (Or.inr ⟨h1, h⟩)
    · exact Or.inr (Or.inr ⟨h1.symm, h⟩)
  · exact Or.inr (Or.inl h1)

theorem sizeLex_trans (a b c : List Int) (h1 : sortPathSet.less b a = false)
    (h2 : sortPathSet.less c b = false) : sortPathSet.less c a = false := by
  rw [not_less_iff] at h1 h2 ⊢
  rcases h1 with h1 | ⟨h1, h1'⟩ <;> rcases h2 with h2 | ⟨h2, h2'⟩
  · exact Or.inl (by omega)
  · exact Or.inl (by omega)
  · exact Or.inl (by omega)
  · exact Or.inr ⟨by omega, le_trans h1' h2'⟩

theorem sizeLex_sorted (X : PathSets) :
    (X.insertionSort (fun a b => sortPathSet.less b a = false)).Sorted
      (fun a b => sortPathSet.less b a = false) :=
  @List.sorted_insertionSort _ (fun a b => sortPathSet.less b a = false) _
    ⟨sizeLex_total⟩ ⟨sizeLex_trans⟩ X

theorem sizeLex_class_sorted {Ls : PathSets}
    (h : Ls.Sorted (fun a b => sortPathSet.less b a = false)) (k : Nat) :
    (Ls.filter (fun s => decide (s.length = k))).Sorted (· ≤ ·) := by
  have h1 : (Ls.filter (fun s => decide (s.length = k))).Pairwise
      (fun a b => sortPathSet.less b a = false) := List.Pairwise.sublist (List.filter_sublist _) h
  apply h1.imp_of_mem
  intro a b ha hb hab
  have hla : a.length = k := by simpa using (List.mem_filter.1 ha).2
  have hlb : b.length = k := by simpa using (List.mem_filter.1 hb).2
  rcases (not_less_iff a b).1 hab with h2 | ⟨_, h2⟩
  · omega
  · exact h2

theorem mapPush_inv (Y : PathSets) (k : Nat) (s : List Int) (hs : s.length = k) :
    ∀ (m : List (Nat × PathSets)), (m.map Prod.fst).Sorted (· < ·) →
      (∀ e ∈ m, (∀ t ∈ e.2, t.length = e.1) ∧ e.2.Sublist Y) →
      ((sortPathSet.mapPush m k s).map Prod.fst).Sorted (· < ·) ∧
      (∀ e ∈ sortPathSet.mapPush m k s,
        (∀ t ∈ e.2, t.length = e.1) ∧ e.2.Sublist (Y ++ [s])) ∧
      (∀ e ∈ sortPathSet.mapPush m k s, e.1 = k ∨ e.1 ∈ m.map Prod.fst) := by
  intro m
  induction m with
  | nil =>
    intro _ _
    simp only [sortPathSet.mapPush]
    refine ⟨by simp, ?_, by simp⟩
    intro e he
    rw [List.mem_singleton] at he
    subst he
    exact ⟨fun t ht => by rw [List.mem_singleton.1 ht]; exact hs,
      List.sublist_append_right _ _⟩
  | cons e0 m ih =>
    intro hsorted hinv
    obtain ⟨k', sets⟩ := e0
    have hold : ∀ e ∈ m, (∀ t ∈ e.2, t.length = e.1) ∧ e.2.Sublist (Y ++ [s]) := fun e he =>
      ⟨(hinv e (by simp [he])).1, (hinv e (by simp [he])).2.trans (List.sublist_append_left _ _)⟩
    have hhead := hinv (k', sets) (by simp)
    simp only [sortPathSet.mapPush]
    split
    · rename_i hkk
      refine ⟨hsorted, ?_, ?_⟩
      · intro e he
        rcases List.mem_cons.1 he with rfl | he
        · refine ⟨?_, hhead.2.append (List.Sublist.refl _)⟩
          intro t ht
          rcases List.mem_append.1 ht with ht | ht
          · exact hhead.1 t ht
          · rw [List.mem_singleton.1 ht, hs, hkk]
        · exact hold e he
      · intro e he
        rcases List.mem_cons.1 he with rfl | he
        · exact Or.inl hkk.symm
        · exact Or.inr (List.mem_map.2 ⟨e, List.mem_cons_of_mem _ he, rfl⟩)
    · split
      · rename_i hne hlt
        refine ⟨?_, ?_, ?_⟩
        · simp only [List.map_cons] at hsorted ⊢
          refine List.sorted_cons.2 ⟨?_, hsorted⟩
          intro b hb
          rcases List.mem_cons.1 hb with rfl | hb
          · exact hlt
          · exact lt_trans hlt (List.rel_of_sorted_cons hsorted b hb)
        · intro e he
          rcases List.mem_cons.1 he with rfl | he
          · exact ⟨fun t ht => by rw [List.mem_singleton.1 ht]; exact hs,
              List.sublist_append_right _ _⟩
          · rcases List.mem_cons.1 he with rfl | he
            · exact ⟨hhead.1, hhead.2.trans (List.sublist_append_left _ _)⟩
            · exact hold e he
        · intro e he
          rcases List.mem_cons.1 he with rfl | he
          · exact Or.inl rfl
          · exact Or.inr (List.mem_map.2 ⟨e, he, rfl⟩)
      · rename_i hne hnlt
        have hgt : k' < k := by omega
        simp only [List.map_cons] at hsorted
        obtain ⟨ih1, ih2, ih3⟩ := ih hsorted.of_cons (fun e he => hinv e (by simp [he]))
        refine ⟨?_, ?_, ?_⟩
        · simp only [List.map_cons]
          refine List.sorted_cons.2 ⟨?_, ih1⟩
          intro b hb
          obtain ⟨e, he, rfl⟩ := List.mem_map.1 hb
          rcases ih3 e he with h | h
          · rw [h]; exact hgt
          · exact List.rel_of_sorted_cons hsorted _ h
        · intro e he
          rcases List.mem_cons.1 he with rfl | he
          · exact ⟨hhead.1, hhead.2.trans (List.sublist_append_left _ _)⟩
          · exact ih2 e he
        · intro e he
          rcases List.mem_cons.1 he with rfl | he
          · exact Or.inr (by simp)
          · rcases ih3 e he with h | h
            · exact Or.inl h
            · exact Or.inr (by simp [h])

theorem mapPush_foldl_inv (X : PathSets) :
    ∀ (Y : PathSets) (m : List (Nat × PathSets)), (m.map Prod.fst).Sorted (· < ·) →
      (∀ e ∈ m, (∀ t ∈ e.2, t.length = e.1) ∧ e.2.Sublist Y) →
      ((X.foldl (fun m set => sortPathSet.mapPush m set.length set) m).map
        Prod.fst).Sorted (· < ·) ∧
      ∀ e ∈ X.foldl (fun m set => sortPathSet.mapPush m set.length set) m,
        (∀ t ∈ e.2, t.length = e.1) ∧ e.2.Sublist (Y ++ X) := by
  induction X with
  | nil =>
    intro Y m h1 h2
    rw [List.foldl_nil, List.append_nil]
    exact ⟨h1, h2⟩
  | cons s X ih =>
    intro Y m h1 h2
    obtain ⟨g1, g2, _⟩ := mapPush_inv Y s.length s rfl m h1 h2
    have := ih (Y ++ [s]) _ g1 g2
    rw [List.foldl_cons]
    rw [List.append_assoc, List.singleton_append] at this
    exact this

theorem orderedInsert_keyed (c : Nat → Nat) (a : Nat) (l : List Nat)
    (hl : l.Pairwise (fun x y => c x < c y ∨ (c x = c y ∧ x ≤ y))) (ha : ∀ x ∈ l, a ≤ x) :
    (l.orderedInsert (fun x y => c x ≤ c y) a).Pairwise
      (fun x y => c x < c y ∨ (c x = c y ∧ x ≤ y)) := by
  induction l with
  | nil => simp
  | cons b l ih =>
    rw [List.pairwise_cons] at hl
    simp only [List.orderedInsert]
    split
    · rename_i hab
      rw [List.pairwise_cons]
      refine ⟨?_, List.pairwise_cons.2 hl⟩
      intro x hx
      have hax := ha x hx
      rcases List.mem_cons.1 hx with rfl | hx
      · omega
      · have := hl.1 x hx
        omega
    · rename_i hab
      rw [List.pairwise_cons]
      refine ⟨?_, ih hl.2 (fun x hx => ha x (by simp [hx]))⟩
      intro y hy
      rcases (List.mem_orderedInsert _).1 hy with rfl | hy
      · left; omega
      · exact hl.1 y hy

theorem insertionSort_keyed (c : Nat → Nat) (idxs : List Nat) (h : idxs.Sorted (· < ·)) :
    (idxs.insertionSort (fun x y => c x ≤ c y)).Pairwise
      (fun x y => c x < c y ∨ (c x = c y ∧ x ≤ y)) := by
  induction idxs with
  | nil => simp
  | cons a l ih =>
    simp only [List.insertionSort]
    apply orderedInsert_keyed c a _ (ih h.of_cons)
    intro x hx
    have hx' : x ∈ l := (List.perm_insertionSort _ l).mem_iff.1 hx
    exact le_of_lt (List.rel_of_sorted_cons h x hx')

/-- The order in which `sortPathSet` places two terms of a size class: by the
count of common literals with the terms placed before, then lexicographic. -/
theorem placeClass_eq (S cls : PathSets) :
    ∃ X : PathSets, sortPathSet.placeClass S cls = S ++ X ∧ X.Perm cls ∧
      (cls.Sorted (· ≤ ·) →
        X.Pairwise (fun a b => sortPathSet.maxCommon S a < sortPathSet.maxCommon S b ∨
          (sortPathSet.maxCommon S a = sortPathSet.maxCommon S b ∧ a ≤ b))) := by
  refine ⟨_, rfl, ?_, ?_⟩
  · have h := (List.perm_insertionSort
      (fun a b => (cls.map (sortPathSet.maxCommon S)).getD a 0 ≤
        (cls.map (sortPathSet.maxCommon S)).getD b 0)
      (List.range cls.length)).map (fun idx => cls.getD idx [])
    rw [range_map_getD] at h
    exact h
  · intro hcls
    rw [List.pairwise_map]
    have hkeyed := insertionSort_keyed (fun a => (cls.map (sortPathSet.maxCommon S)).getD a 0)
      (List.range cls.length) (List.sorted_lt_range _)
    apply hkeyed.imp_of_mem
    intro a b ha hb hab
    have ha' : a < cls.length :=
      List.mem_range.1 ((List.perm_insertionSort _ _).mem_iff.1 ha)
    have hb' : b < cls.length :=
      List.mem_range.1 ((List.perm_insertionSort _ _).mem_iff.1 hb)
    have hca : (cls.map (sortPathSet.maxCommon S)).getD a 0 =
        sortPathSet.maxCommon S (cls.getD a []) := by
      rw [List.getD_eq_getElem _ _ (by simpa using ha'), List.getD_eq_getElem _ _ ha']
      simp
    have hcb : (cls.map (sortPathSet.maxCommon S)).getD b 0 =
        sortPathSet.maxCommon S (cls.getD b []) := by
      rw [List.getD_eq_getElem _ _ (by simpa using hb'), List.getD_eq_getElem _ _ hb']
      simp
    simp only [hca, hcb] at hab
    rcases hab with h | ⟨h1, h2⟩
    · exact Or.inl h
    · refine Or.inr ⟨h1, ?_⟩
      rw [List.getD_eq_getElem _ _ ha', List.getD_eq_getElem _ _ hb']
      rcases Nat.lt_or_eq_of_le h2 with h3 | h3
      · exact (List.pairwise_iff_getElem.1 hcls) a b ha' hb' h3
      · subst h3
        exact le_refl _

theorem maxCommon_foldl (prev : PathSets) (t : List Int) (acc : Nat) :
    prev.foldl (fun maxCommonNum precedSet =>
      if t.countP (fun elem => decide (elem ∈ precedSet)) > maxCommonNum then
        t.countP (fun elem => decide (elem ∈ precedSet)) else maxCommonNum) acc =
      (prev.map (commonLiterals t)).foldl max acc := by
  induction prev generalizing acc with
  | nil => rfl
  | cons p prev ih =>
    rw [List.foldl_cons, List.map_cons, List.foldl_cons, ih]
    congr 1
    unfold commonLiterals
    split
    · rw [max_eq_right (by omega)]
    · rw [max_eq_left (by omega)]

theorem maxCommon_eq_spec (prev : PathSets) (t : List Int) :
    sortPathSet.maxCommon prev t = maxCommonSpec prev t :=
  maxCommon_foldl prev t 0

theorem placeClass_ordered (S cls : PathSets) (k : Nat) (hS : sortPathSet.Ordered S)
    (hlt : ∀ s ∈ S, s.length < k) (hk : ∀ t ∈ cls, t.length = k) (hcls : cls.Sorted (· ≤ ·)) :
    sortPathSet.Ordered (sortPathSet.placeClass S cls) ∧
      ∀ s ∈ sortPathSet.placeClass S cls, s.length ≤ k := by
  obtain ⟨X, hX, hperm, hpw⟩ := placeClass_eq S cls
  have hXk : ∀ t ∈ X, t.length = k := fun t ht => hk t (hperm.mem_iff.1 ht)
  have hXnil : ∀ j, j ≤ k → X.filter (fun t => decide (t.length < j)) = [] := by
    intro j hj
    apply List.filter_eq_nil_iff.2
    intro t ht
    have := hXk t ht
    simp only [decide_eq_true_eq]
    omega
  have hSall : S.filter (fun t => decide (t.length < k)) = S :=
    List.filter_eq_self.2 (fun t ht => by simpa using hlt t ht)
  rw [hX]
  refine ⟨⟨?_, ?_⟩, ?_⟩
  · rw [List.map_append]
    unfold List.Sorted
    rw [List.pairwise_append]
    refine ⟨hS.1, ?_, ?_⟩
    · rw [List.pairwise_map]
      apply List.pairwise_of_forall_mem_list
      intro a ha b hb
      rw [hXk a ha, hXk b hb]
    · intro a ha b hb
      obtain ⟨s, hs, rfl⟩ := List.mem_map.1 ha
      obtain ⟨t, ht, rfl⟩ := List.mem_map.1 hb
      have := hlt s hs
      have := hXk t ht
      omega
  · rw [List.pairwise_append]
    refine ⟨?_, ?_, ?_⟩
    · apply hS.2.imp_of_mem
      intro a b ha _ hab hlen
      rw [List.filter_append, hXnil a.length (le_of_lt (hlt a ha)), List.append_nil]
      exact hab hlen
    · apply (hpw hcls).imp_of_mem
      intro a b ha _ hab _
      rw [List.filter_append, hXk a ha, hXnil k (le_refl _), List.append_nil, hSall]
      unfold sortPathSet.Precedes
      rw [← maxCommon_eq_spec, ← maxCommon_eq_spec]
      exact hab
    · intro a ha b hb hlen
      have := hlt a ha
      have := hXk b hb
      omega
  · intro s hs
    rcases List.mem_append.1 hs with h | h
    · exact le_of_lt (hlt s h)
    · exact le_of_eq (hXk s h)

theorem placeClass_foldl_ordered (others : List (Nat × PathSets)) :
    ∀ (S : PathSets), sortPathSet.Ordered S →
      (others.map Prod.fst).Sorted (· < ·) →
      (∀ e ∈ others, (∀ t ∈ e.2, t.length = e.1) ∧ e.2.Sorted (· ≤ ·)) →
      (∀ s ∈ S, ∀ e ∈ others, s.length < e.1) →
      sortPathSet.Ordered
        (others.foldl (fun sorted entry => sortPathSet.placeClass sorted entry.2) S) := by
  induction others with
  | nil =>
    intro S hS _ _ _
    exact hS
  | cons e others ih =>
    intro S hS hkeys hent hlt
    rw [List.foldl_cons]
    rw [List.map_cons] at hkeys
    obtain ⟨h1, h2⟩ := placeClass_ordered S e.2 e.1 hS (fun s hs => hlt s hs e (by simp))
      (hent e (by simp)).1 (hent e (by simp)).2
    apply ih _ h1 hkeys.of_cons (fun e' he' => hent e' (by simp [he']))
    intro s hs e' he'
    have := h2 s hs
    have := List.rel_of_sorted_cons hkeys e'.1 (List.mem_map.2 ⟨e', he', rfl⟩)
    omega

theorem sizeLex_sublist_sorted {Ls C : PathSets} {k : Nat}
    (h : Ls.Sorted (fun a b => sortPathSet.less b a = false)) (hsub : C.Sublist Ls)
    (hk : ∀ t ∈ C, t.length = k) : C.Sorted (· ≤ ·) := by
  have h1 : C.Pairwise (fun a b => sortPathSet.less b a = false) := List.Pairwise.sublist hsub h
  apply h1.imp_of_mem
  intro a b ha hb hab
  rcases (not_less_iff a b).1 hab with h2 | ⟨_, h2⟩
  · have := hk a ha
    have := hk b hb
    omega
  · exact h2

theorem sortPathSet_ordered (L : PathSets) : sortPathSet.Ordered (sortPathSet L) := by
  unfold sortPathSet
  by_cases hL : L.isEmpty = true
  · rw [if_pos hL]
    exact ⟨by simp, List.Pairwise.nil⟩
  · rw [if_neg hL]
    simp only
    have hsorted := sizeLex_sorted (L.map sortInts)
    obtain ⟨hkeys, hent⟩ := mapPush_foldl_inv
      ((L.map sortInts).insertionSort (fun a b => sortPathSet.less b a = false)) [] []
      (by simp) (by simp)
    rw [List.nil_append] at hent
    generalize ((L.map sortInts).insertionSort (fun a b => sortPathSet.less b a = false)).foldl
      (fun m set => sortPathSet.mapPush m set.length set) [] = m at hkeys hent ⊢
    cases m with
    | nil => exact ⟨by simp, List.Pairwise.nil⟩
    | cons first others =>
      simp only
      rw [List.map_cons] at hkeys
      have hfirst := hent first (by simp)
      have hfsorted : first.2.Sorted (· ≤ ·) := sizeLex_sublist_sorted hsorted hfirst.2 hfirst.1
      apply placeClass_foldl_ordered others first.2 ?_ hkeys.of_cons
        (fun e he => ⟨(hent e (by simp [he])).1,
          sizeLex_sublist_sorted hsorted (hent e (by simp [he])).2 (hent e (by simp [he])).1⟩)
      · intro s hs e he
        rw [hfirst.1 s hs]
        exact List.rel_of_sorted_cons hkeys e.1 (List.mem_map.2 ⟨e, he, rfl⟩)
      · constructor
        · unfold List.Sorted
          rw [List.pairwise_map]
          apply List.pairwise_of_forall_mem_list
          intro a ha b hb
          rw [hfirst.1 a ha, hfirst.1 b hb]
        · apply hfsorted.imp_of_mem
          intro a b ha _ hab _
          have hnil : first.2.filter (fun t => decide (t.length < a.length)) = [] := by
            apply List.filter_eq_nil_iff.2
            intro t ht
            simp only [decide_eq_true_eq]
            rw [hfirst.1 t ht, hfirst.1 a ha]
            omega
          rw [hnil]
          exact Or.inr ⟨rfl, hab⟩

theorem sortPathSet_terms_sorted (L : PathSets) : ∀ T ∈ sortPathSet L, T.Sorted (· ≤ ·) := by
  intro T hT
  obtain ⟨T0, _, rfl⟩ := List.mem_map.1 ((sortPathSet_perm L).mem_iff.1 hT)
  exact sortInts_sorted T0

/-- C22. For every list of path sets, every term of `sortPathSet paths` has its
literals in ascending order, and the term sizes along the output list never
decrease. -/
theorem sortPathSet_ascending_sizes (L : PathSets) :
    (∀ T ∈ sortPathSet L, T.Sorted (· ≤ ·)) ∧
    ((sortPathSet L).map List.length).Sorted (· ≤ ·) ∧
    ∀ (i j : Nat) (a b : List Int), i < j → (sortPathSet L)[i]? = some a →
      (sortPathSet L)[j]? = some b → a.length ≤ b.length := by
  refine ⟨sortPathSet_terms_sorted L, (sortPathSet_ordered L).1, ?_⟩
  intro i j a b hij hi hj
  have h := (sortPathSet_ordered L).1
  unfold List.Sorted at h
  rw [List.pairwise_map, List.pairwise_iff_getElem] at h
  obtain ⟨hi1, hi2⟩ := List.getElem?_eq_some_iff.1 hi
  obtain ⟨hj1, hj2⟩ := List.getElem?_eq_some_iff.1 hj
  have := h i j hi1 hj1 hij
  rwa [hi2, hj2] at this

theorem sortPathSet_ascending_sizes_witness :
    sortPathSet [[3, 1], [2], [1, 1], [5, 5, 5], [1]] = [[1], [2], [1, 3], [1, 1], [5, 5, 5]] ∧
    (∀ T ∈ sortPathSet [[3, 1], [2], [1, 1], [5, 5, 5], [1]], T.Sorted (· ≤ ·)) ∧
    ((sortPathSet [[3, 1], [2], [1, 1], [5, 5, 5], [1]]).map List.length).Sorted (· ≤ ·) ∧
    ∀ (i j : Nat) (a b : List Int), i < j →
      (sortPathSet [[3, 1], [2], [1, 1], [5, 5, 5], [1]])[i]? = some a →
      (sortPathSet [[3, 1], [2], [1, 1], [5, 5, 5], [1]])[j]? = some b → a.length ≤ b.length :=
  ⟨by decide, sortPathSet_ascending_sizes _⟩

theorem maxCommonSpec_nil (t : List Int) : maxCommonSpec [] t = 0 := rfl

/-! ### Termination of the pivot loop, the cut-set pipeline as a path-set pipeline -/

theorem toProbaSet_loop_total (L : List Set) :
    ∃ out N, ∀ fuel, N ≤ fuel → ∀ acc, toProbaSet.loop fuel L acc = some (acc ++ out) := by
  obtain ⟨out, _, N, hN⟩ := toProbaSet_loop_spec (fun _ _ => True) trivial (fun _ => trivial)
    (fun _ _ _ _ _ => trivial) L
  exact ⟨out, N, hN⟩

/-- C34. For every input list of terms, well-formed or not, the pivot loop of
`pathset::toProbaSet` terminates: there is a fuel from which on the embedding
returns, always the same list. The passes of the loop form a well-founded
relation on work lists (the multiset of the numbers of components each term
leaves free goes down), although one pass can replace a term by several
longer ones. -/
theorem toProbaSet_terminates (L : PathSets) (s d : Int) :
    WellFounded pivotStep ∧
    ∃ out N, ∀ fuel, N ≤ fuel → pathset.toProbaSet fuel s d L = some out := by
  refine ⟨pivotStep_wf, ?_⟩
  obtain ⟨out, N, hN⟩ := toProbaSet_loop_total L
  by_cases hL : L = []
  · subst hL
    exact ⟨[], 0, fun fuel _ => rfl⟩
  · refine ⟨out, N, fun fuel hfuel => ?_⟩
    simp only [pathset.toProbaSet, isEmpty_eq_false_of_ne_nil hL, Bool.false_eq_true, if_false]
    simpa using hN fuel hfuel []

theorem toProbaSet_terminates_witness :
    makeDisjointSet [1, 2, 3] [4] = [[4, -1], [4, 1, -2], [4, 1, 2, -3]] ∧
    pivotStep [[4, -1], [4, 1, -2], [4, 1, 2, -3]] [[1, 2, 3], [4]] ∧
    pathset.toProbaSet 12 1 4 [[1, 2, 3], [4], [0, 0], [1, -1]] =
      some [[1, 2, 3], [4, -1], [4, 1, -2], [4, 1, 2, -3], [0, 0, -1, -4], [0, 0, 1, -2, -4],
        [0, 0, 1, 2, -3, -4], [1, -1]] ∧
    (WellFounded pivotStep ∧
      ∃ out N, ∀ fuel, N ≤ fuel →
        pathset.toProbaSet fuel 1 4 [[1, 2, 3], [4], [0, 0], [1, -1]] = some out) :=
  ⟨by decide, ⟨[1, 2, 3], [4], [], rfl, by decide⟩, by decide, toProbaSet_terminates _ 1 4⟩

/-- C36. For every `s`, `d` and list of cut sets `L`, `mcs::toProbaSet` on `L`
is `pathset::toProbaSet` on the list obtained from `L` by removing every term
equal to `[s]` or `[d]` and negating every literal of the remaining terms. -/
theorem mcs_toProbaSet_eq_pathset (fuel : Nat) (s d : Int) (L : MinCutSets) :
    mcs.toProbaSet fuel s d L =
      pathset.toProbaSet fuel s d
        ((L.filter (fun c => decide (c ≠ [s] ∧ c ≠ [d]))).map
          (fun c => c.map (fun x => -x))) := by
  have hf : (L.filter (fun c => decide (c ≠ [s]))).filter (fun c => decide (c ≠ [d])) =
      L.filter (fun c => decide (c ≠ [s] ∧ c ≠ [d])) := by
    rw [List.filter_filter]
    apply List.filter_congr
    intro c _
    by_cases h1 : c = [s] <;> by_cases h2 : c = [d] <;> simp [h1, h2]
  unfold mcs.toProbaSet pathset.toProbaSet
  simp only [hf]
  cases hc : L.filter (fun c => decide (c ≠ [s] ∧ c ≠ [d])) with
  | nil => rfl
  | cons a l => rfl

theorem mcs_toProbaSet_eq_pathset_witness :
    mcs.toProbaSet 2 1 4 [[1], [2, 3], [4], [3, 5], [1]] = some [[-2, -3], [-3, -5, 2]] ∧
    pathset.toProbaSet 2 1 4 [[-2, -3], [-3, -5]] = some [[-2, -3], [-3, -5, 2]] ∧
    mcs.toProbaSet 2 1 4 [[1], [2, 3], [4], [3, 5], [1]] =
      pathset.toProbaSet 2 1 4
        ((([[1], [2, 3], [4], [3, 5], [1]] : MinCutSets).filter
          (fun c => decide (c ≠ [1] ∧ c ≠ [4]))).map (fun c => c.map (fun x => -x))) :=
  ⟨by decide, by decide, mcs_toProbaSet_eq_pathset 2 1 4 _⟩

/-! ### Well-formed output of `makeDisjointSet`, what `absorbSDPSet` keeps, `sortPathSet` as a permutation -/

/-- C37. For all terms `A` and `B` that each contain no `0`, no repeated
literal and no pair `+i`/`-i`, every term returned by `makeDisjointSet A B`
contains no `0`, no repeated literal and no pair `+i`/`-i` either. -/
theorem makeDisjointSet_well_formed (A B : Set)
    (hA : (0 : Int) ∉ A ∧ A.Nodup ∧ ∀ x ∈ A, -x ∉ A)
    (hB : (0 : Int) ∉ B ∧ B.Nodup ∧ ∀ x ∈ B, -x ∉ B) :
    ∀ T ∈ makeDisjointSet A B, (0 : Int) ∉ T ∧ T.Nodup ∧ ∀ x ∈ T, -x ∉ T :=
  fun _ hT => WellFormed_makeDisjointSet hA hB hT

theorem makeDisjointSet_well_formed_witness :
    makeDisjointSet [1, 2, 3] [2, 4, -5] = [[2, 4, -5, -1], [2, 4, -5, 1, -3]] ∧
    ∀ T ∈ makeDisjointSet [1, 2, 3] [2, 4, -5], (0 : Int) ∉ T ∧ T.Nodup ∧ ∀ x ∈ T, -x ∉ T :=
  ⟨by decide, makeDisjointSet_well_formed [1, 2, 3] [2, 4, -5] (by decide) (by decide)⟩

/-- C38. For every SDPList `S`, `absorbSDPSet S` is a subsequence of `S` (order
kept, nothing altered or added), and every term of `S` has a term of the same
complementarity in `absorbSDPSet S` whose literal set is contained in its
own. -/
theorem absorbSDPSet_subsequence_covers (S : SDPSets) :
    (absorbSDPSet S).Sublist S ∧
    ∀ x ∈ S, ∃ y ∈ absorbSDPSet S,
      y.is_complementary = x.is_complementary ∧ ∀ l ∈ y.set, l ∈ x.set :=
  ⟨absorbSDPSet_sublist S, fun x hx => absorbSDPSet_covers S x hx⟩

theorem absorbSDPSet_subsequence_covers_witness :
    absorbSDPSet [SDP.mk true [3, 4], SDP.mk false [7], SDP.mk true [4, 5], SDP.mk true [3],
        SDP.mk true [5]] =
      [SDP.mk false [7], SDP.mk true [3], SDP.mk true [5]] ∧
    ((absorbSDPSet [SDP.mk true [3, 4], SDP.mk false [7], SDP.mk true [4, 5], SDP.mk true [3],
        SDP.mk true [5]]).Sublist
      [SDP.mk true [3, 4], SDP.mk false [7], SDP.mk true [4, 5], SDP.mk true [3],
        SDP.mk true [5]] ∧
    ∀ x ∈ [SDP.mk true [3, 4], SDP.mk false [7], SDP.mk true [4, 5], SDP.mk true [3],
        SDP.mk true [5]],
      ∃ y ∈ absorbSDPSet [SDP.mk true [3, 4], SDP.mk false [7], SDP.mk true [4, 5],
          SDP.mk true [3], SDP.mk true [5]],
        y.is_complementary = x.is_complementary ∧ ∀ l ∈ y.set, l ∈ x.set) :=
  ⟨by decide, absorbSDPSet_subsequence_covers _⟩

/-- C39. For every list of path sets, `sortPathSet paths` is a permutation of
the list obtained from `paths` by sorting the literals of each term ascending:
no term is lost, duplicated or merged. -/
theorem sortPathSet_permutation (paths : PathSets) :
    (sortPathSet paths).Perm (paths.map sortInts) ∧
    (sortPathSet paths).length = paths.length ∧
    ∀ T : Set, (sortPathSet paths).countP (fun U => decide (U = T)) =
      (paths.map sortInts).countP (fun U => decide (U = T)) := by
  have h := sortPathSet_perm paths
  exact ⟨h, by simpa using h.length_eq, fun T => h.countP_eq _⟩

theorem sortPathSet_permutation_witness :
    sortPathSet [[3, 1, 2], [5, 4], [2, 1, 3], [4, 2]] = [[2, 4], [4, 5], [1, 2, 3], [1, 2, 3]] ∧
    ([[3, 1, 2], [5, 4], [2, 1, 3], [4, 2]] : PathSets).map sortInts =
      [[1, 2, 3], [4, 5], [1, 2, 3], [2, 4]] ∧
    ((sortPathSet [[3, 1, 2], [5, 4], [2, 1, 3], [4, 2]]).Perm
        (([[3, 1, 2], [5, 4], [2, 1, 3], [4, 2]] : PathSets).map sortInts) ∧
      (sortPathSet [[3, 1, 2], [5, 4], [2, 1, 3], [4, 2]]).length =
        ([[3, 1, 2], [5, 4], [2, 1, 3], [4, 2]] : PathSets).length ∧
      ∀ T : Set,
        (sortPathSet [[3, 1, 2], [5, 4], [2, 1, 3], [4, 2]]).countP (fun U => decide (U = T)) =
        (([[3, 1, 2], [5, 4], [2, 1, 3], [4, 2]] : PathSets).map sortInts).countP
          (fun U => decide (U = T))) :=
  ⟨by decide, by decide, sortPathSet_permutation _⟩

/-! ### `toSDPSet` does not depend on the order of its input -/

theorem sortInts_eq_of_perm {l1 l2 : List Int} (h : l1.Perm l2) : sortInts l1 = sortInts l2 :=
  List.eq_of_perm_of_sorted (((sortInts_perm l1).trans h).trans (sortInts_perm l2).symm)
    (sortInts_sorted l1) (sortInts_sorted l2)

theorem map_sortInts_eq_of_forall₂ {L1 L2 : PathSets} (h : List.Forall₂ List.Perm L1 L2) :
    L1.map sortInts = L2.map sortInts := by
  induction h with
  | nil => rfl
  | cons hab _ ih => rw [List.map_cons, List.map_cons, sortInts_eq_of_perm hab, ih]

theorem sizeLex_antisymm (a b : List Int) (h1 : sortPathSet.less b a = false)
    (h2 : sortPathSet.less a b = false) : a = b := by
  rw [not_less_iff] at h1 h2
  rcases h1 with h1 | ⟨_, h1⟩ <;> rcases h2 with h2 | ⟨_, h2⟩
  · omega
  · omega
  · omega
  · exact le_antisymm h1 h2

theorem sizeLex_sort_eq_of_perm {X Y : PathSets} (h : X.Perm Y) :
    X.insertionSort (fun a b => sortPathSet.less b a = false) =
      Y.insertionSort (fun a b => sortPathSet.less b a = false) :=
  @List.eq_of_perm_of_sorted _ (fun a b => sortPathSet.less b a = false) ⟨sizeLex_antisymm⟩ _ _
    (((List.perm_insertionSort _ X).trans h).trans (List.perm_insertionSort _ Y).symm)
    (sizeLex_sorted X) (sizeLex_sorted Y)

theorem sortPathSet_eq_of_perm {L1 L1' L2 : PathSets} (h1 : L1.Perm L1')
    (h2 : List.Forall₂ List.Perm L1' L2) : sortPathSet L1 = sortPathSet L2 := by
  have hlen : L1.length = L2.length := h1.length_eq.trans h2.length_eq
  have hsort : (L1.map sortInts).insertionSort (fun a b => sortPathSet.less b a = false) =
      (L2.map sortInts).insertionSort (fun a b => sortPathSet.less b a = false) := by
    rw [← map_sortInts_eq_of_forall₂ h2]
    exact sizeLex_sort_eq_of_perm (h1.map sortInts)
  have hemp : L1.isEmpty = L2.isEmpty := by
    cases L1 <;> cases L2 <;> simp at hlen ⊢
  unfold sortPathSet
  simp only [hemp, hsort]

/-- C40. For every list of path sets, `toSDPSet s d paths` depends neither on
`s`, nor on `d`, nor on the order of the path sets in the list, nor on the
order of the literals inside each path set: a list `L2` obtained from `L1` by
permuting the path sets (`L1'`) and then the literals of each of them gives the
identical result, for every fuel. -/
theorem toSDPSet_order_independent (fuel : Nat) (s d s' d' : Int) (L1 L1' L2 : PathSets)
    (h1 : L1.Perm L1') (h2 : List.Forall₂ List.Perm L1' L2) :
    toSDPSet fuel s d L1 = toSDPSet fuel s' d' L2 := by
  unfold toSDPSet
  rw [sortPathSet_eq_of_perm h1 h2]

theorem toSDPSet_order_independent_witness :
    toSDPSet 9 1 5 [[1, 2, 5], [1, 3, 5], [1, 4, 5]] =
      some [[SDP.mk false [1, 2, 5]], [SDP.mk false [1, 3, 5], SDP.mk true [2]],
        [SDP.mk false [1, 4, 5], SDP.mk true [2], SDP.mk true [3]]] ∧
    toSDPSet 9 1 5 [[1, 2, 5], [1, 3, 5], [1, 4, 5]] =
      toSDPSet 9 7 8 [[5, 4, 1], [5, 2, 1], [3, 5, 1]] :=
  ⟨by decide,
    toSDPSet_order_independent 9 1 5 7 8 [[1, 2, 5], [1, 3, 5], [1, 4, 5]]
      [[1, 4, 5], [1, 2, 5], [1, 3, 5]] [[5, 4, 1], [5, 2, 1], [3, 5, 1]]
      (by decide) (by decide)⟩

/-! ### The parallel driver against the serial one -/

theorem range_map_getD_append (pre rem : PathSets) :
    (List.range pre.length).map (fun j => (pre ++ rem).getD j []) = pre := by
  apply List.ext_getElem
  · simp
  · intro i h1 h2
    simp [List.getD_eq_getElem?_getD, List.getElem?_append_left h2, List.getElem?_eq_getElem h2]

theorem slot_eq (fuel : Nat) (pre rem : PathSets) (cur : List Int) :
    toSDPSetParallel.slot fuel (pre ++ cur :: rem) pre.length =
      if utils.hasCommonElement (toSDPSet.resultSDPs pre cur) then
        decomposeSDPSet fuel (toSDPSet.resultSDPs pre cur)
      else some [toSDPSet.resultSDPs pre cur] := by
  have hcur : (pre ++ cur :: rem).getD pre.length [] = cur := by
    rw [List.getD_eq_getElem?_getD, List.getElem?_append_right (le_refl _)]
    simp
  have hpre : (List.range pre.length).filterMap (fun j =>
      let precedingSet := (pre ++ cur :: rem).getD j []
      let RC := set_difference precedingSet cur
      if !RC.isEmpty then some (SDP.mk true RC) else none) =
      pre.filterMap (fun precedingSet =>
        let RC := set_difference precedingSet cur
        if !RC.isEmpty then some (SDP.mk true RC) else none) := by
    conv_rhs => rw [← range_map_getD_append pre (cur :: rem)]
    rw [List.filterMap_map]
    rfl
  unfold toSDPSetParallel.slot toSDPSet.resultSDPs
  simp only [hcur, hpre]

theorem combine_none (slots : List (Option (List SDPSets))) :
    slots.foldl (fun finalSDPs threadResult =>
      match finalSDPs, threadResult with
      | some f, some r => some (f ++ r)
      | _, _ => none) (none : Option (List SDPSets)) = none := by
  induction slots with
  | nil => rfl
  | cons a l ih => simpa [List.foldl_cons] using ih

theorem loop_eq_slots (fuel : Nat) (rem : PathSets) :
    ∀ (pre : PathSets) (finalSDPs : List SDPSets),
      toSDPSet.loop fuel pre rem finalSDPs =
        ((List.range' pre.length rem.length).map
          (toSDPSetParallel.slot fuel (pre ++ rem))).foldl (fun finalSDPs threadResult =>
            match finalSDPs, threadResult with
            | some f, some r => some (f ++ r)
            | _, _ => none) (some finalSDPs) := by
  induction rem with
  | nil => intro pre finalSDPs; rfl
  | cons cur rem ih =>
    intro pre finalSDPs
    have hih := fun fin => ih (pre ++ [cur]) fin
    simp only [List.length_append, List.length_singleton, List.append_assoc,
      List.singleton_append] at hih
    rw [List.length_cons, List.range'_succ, List.map_cons, List.foldl_cons, slot_eq]
    unfold toSDPSet.loop
    by_cases hc : utils.hasCommonElement (toSDPSet.resultSDPs pre cur) = true
    · simp only [hc, if_true]
      cases hd : decomposeSDPSet fuel (toSDPSet.resultSDPs pre cur) with
      | none => simp only []; exact (combine_none _).symm
      | some x => simp only []; exact hih _
    · simp only [hc, Bool.false_eq_true, if_false]
      exact hih _

theorem body_eq_toSDPSet (fuel : Nat) (s d : Int) (L : PathSets) (hL : L ≠ []) :
    toSDPSetParallel.body fuel (sortPathSet L) = toSDPSet fuel s d L := by
  have hlen : (sortPathSet L).length = L.length := by
    simpa using (sortPathSet_perm L).length_eq
  unfold toSDPSet
  cases hs : sortPathSet L with
  | nil =>
    rw [hs] at hlen
    cases L with
    | nil => exact absurd rfl hL
    | cons a l => simp at hlen
  | cons front rest =>
    have h := loop_eq_slots fuel rest [front] [[SDP.mk false front]]
    simp only [List.length_singleton, List.singleton_append] at h
    show _ = toSDPSet.loop fuel [front] rest [[SDP.mk false front]]
    rw [h]
    simp [toSDPSetParallel.body, toSDPSetParallel.combine, toSDPSetParallel.threadResults]

theorem toSDPSetParallel_eq (fuel : Nat) (s d : Int) (L : PathSets) :
    toSDPSetParallel fuel s d L = toSDPSet fuel s d L := by
  unfold toSDPSetParallel
  by_cases h : L.length < 200
  · simp only [h, if_true]
  · simp only [h, if_false]
    apply body_eq_toSDPSet
    intro hL
    subst hL
    simp at h

/-- C31. For every list of path sets of any size (below or at least 200
entries), `toSDPSetParallel s d paths` returns the same forest, in the same
order, as `toSDPSet s d paths`, the iterations of the parallel loop being
writes to their own slot of `threadResults` which is then concatenated in
order. The multithreaded path by itself also agrees with `toSDPSet` on every
non-empty list, whatever the threshold. -/
theorem toSDPSetParallel_eq_toSDPSet (fuel : Nat) (s d : Int) (paths : PathSets) :
    toSDPSetParallel fuel s d paths = toSDPSet fuel s d paths ∧
    (paths ≠ [] → toSDPSetParallel.body fuel (sortPathSet paths) = toSDPSet fuel s d paths) :=
  ⟨toSDPSetParallel_eq fuel s d paths, body_eq_toSDPSet fuel s d paths⟩

theorem toSDPSetParallel_eq_toSDPSet_witness :
    toSDPSetParallel.threadResults 9 (sortPathSet [[1, 2, 5], [1, 3, 5], [1, 4, 5]]) =
      [some [[SDP.mk false [1, 2, 5]]], some [[SDP.mk false [1, 3, 5], SDP.mk true [2]]],
        some [[SDP.mk false [1, 4, 5], SDP.mk true [2], SDP.mk true [3]]]] ∧
    (toSDPSetParallel 9 1 5 [[1, 2, 5], [1, 3, 5], [1, 4, 5]] =
        toSDPSet 9 1 5 [[1, 2, 5], [1, 3, 5], [1, 4, 5]] ∧
      (([[1, 2, 5], [1, 3, 5], [1, 4, 5]] : PathSets) ≠ [] →
        toSDPSetParallel.body 9 (sortPathSet [[1, 2, 5], [1, 3, 5], [1, 4, 5]]) =
          toSDPSet 9 1 5 [[1, 2, 5], [1, 3, 5], [1, 4, 5]])) :=
  ⟨by decide, toSDPSetParallel_eq_toSDPSet 9 1 5 _⟩

/-! ### No two terms of a list of the forest share a literal -/

set_option maxRecDepth 100000

theorem sortByFlag_of_sorted (T : SDPSets)
    (h : T.Pairwise (fun a b => eliminateSDPSet.comp b a = false)) : sortByFlag T = T := by
  induction T with
  | nil => rfl
  | cons a T ih =>
    rw [List.pairwise_cons] at h
    unfold sortByFlag at ih ⊢
    cases ha : a.is_complementary with
    | false =>
      rw [List.filter_cons_of_pos (by simp [ha]), List.filter_cons_of_neg (by simp [ha]),
        List.cons_append, ih h.2]
    | true =>
      have hall : ∀ b ∈ T, b.is_complementary = true := by
        intro b hb
        have := h.1 b hb
        simpa [eliminateSDPSet.comp, ha] using this
      rw [List.filter_cons_of_neg (by simp [ha]), List.filter_cons_of_pos (by simp [ha]),
        List.filter_eq_nil_iff.2 (fun b hb => by simp [hall b hb]),
        List.filter_eq_self.2 (fun b hb => by simp [hall b hb]), List.nil_append]

theorem eliminateSDPSetWith_eq (sort : (SDP → SDP → Bool) → SDPSets → SDPSets) (S : SDPSets)
    (hsort : IsStdSort eliminateSDPSet.comp S (sort eliminateSDPSet.comp S)) :
    eliminateSDPSetWith sort S = eliminateSDPSet (sort eliminateSDPSet.comp S) := by
  unfold eliminateSDPSetWith eliminateSDPSet
  rw [sortByFlag_of_sorted _ hsort.2]

theorem eliminateSDPSetWith_stable (S : SDPSets) :
    eliminateSDPSetWith (fun _ l => sortByFlag l) S = eliminateSDPSet S := rfl

theorem sortByFlag_isStdSort (S : SDPSets) : IsStdSort eliminateSDPSet.comp S (sortByFlag S) := by
  constructor
  · unfold sortByFlag
    have h := List.filter_append_perm (fun a : SDP => !a.is_complementary) S
    have h2 : S.filter (fun x => !(fun a : SDP => !a.is_complementary) x) =
        S.filter (fun a => a.is_complementary) := by
      apply List.filter_congr
      intro x _
      simp
    rw [h2] at h
    exact h
  · unfold sortByFlag
    rw [List.pairwise_append]
    refine ⟨?_, ?_, ?_⟩
    · apply List.pairwise_of_forall_mem_list
      intro a ha b hb
      have := (List.mem_filter.1 ha).2
      simp only [Bool.not_eq_true', Bool.not_eq_eq_eq_not, Bool.not_true] at this
      simp [eliminateSDPSet.comp, this]
    · apply List.pairwise_of_forall_mem_list
      intro a ha b hb
      have := (List.mem_filter.1 hb).2
      simp [eliminateSDPSet.comp, this]
    · intro a ha b hb
      have := (List.mem_filter.1 ha).2
      simp only [Bool.not_eq_true', Bool.not_eq_eq_eq_not, Bool.not_true] at this
      simp [eliminateSDPSet.comp, this]

theorem eliminateSpec_split (S : SDPSets) :
    eliminateSpec S = eliminateSpec.kept S ++ eliminateSpec.reduced S := rfl

theorem eliminateSpec_perm {S T : SDPSets} (h : T.Perm S) :
    (eliminateSpec.kept T).Perm (eliminateSpec.kept S) ∧
    (eliminateSpec.reduced T).Perm (eliminateSpec.reduced S) := by
  have hN := h.filter (fun t : SDP => !t.is_complementary)
  refine ⟨hN, ?_⟩
  have hmem : ∀ x : Int,
      x ∈ (T.filter (fun t => !t.is_complementary)).flatMap (fun t => t.set) ↔
      x ∈ (S.filter (fun t => !t.is_complementary)).flatMap (fun t => t.set) := by
    intro x
    simp only [List.mem_flatMap]
    constructor
    · rintro ⟨t, ht, hx⟩
      exact ⟨t, hN.mem_iff.1 ht, hx⟩
    · rintro ⟨t, ht, hx⟩
      exact ⟨t, hN.mem_iff.2 ht, hx⟩
  have hfil : ∀ c : SDP,
      c.set.filter (fun x => decide
        (x ∉ (T.filter (fun t => !t.is_complementary)).flatMap (fun t => t.set))) =
      c.set.filter (fun x => decide
        (x ∉ (S.filter (fun t => !t.is_complementary)).flatMap (fun t => t.set))) := by
    intro c
    apply List.filter_congr
    intro x _
    rw [decide_eq_decide, not_iff_not]
    exact hmem x
  unfold eliminateSpec.reduced
  simp only [hfil]
  exact (h.filter _).filterMap _

theorem eliminateSDPSetWith_parts (sort : (SDP → SDP → Bool) → SDPSets → SDPSets) (S : SDPSets)
    (hasc : ∀ c ∈ S, c.is_complementary = true → c.set.Sorted (· < ·))
    (hsort : IsStdSort eliminateSDPSet.comp S (sort eliminateSDPSet.comp S)) :
    eliminateSDPSetWith sort S = eliminateSpec (sort eliminateSDPSet.comp S) ∧
    ∃ N C : SDPSets, eliminateSDPSetWith sort S = N ++ C ∧
      N.Perm (eliminateSpec.kept S) ∧ C.Perm (eliminateSpec.reduced S) := by
  have hascT : ∀ c ∈ sort eliminateSDPSet.comp S, c.is_complementary = true →
      c.set.Sorted (· < ·) := fun c hc => hasc c (hsort.1.mem_iff.1 hc)
  have heq : eliminateSDPSetWith sort S = eliminateSpec (sort eliminateSDPSet.comp S) := by
    rw [eliminateSDPSetWith_eq sort S hsort, eliminateSDPSet_eq_spec _ hascT]
  refine ⟨heq, _, _, ?_, (eliminateSpec_perm hsort.1).1, (eliminateSpec_perm hsort.1).2⟩
  rw [heq, eliminateSpec_split]

theorem eliminateSDPSetWith_of_stable (sort : (SDP → SDP → Bool) → SDPSets → SDPSets)
    (S : SDPSets) (hasc : ∀ c ∈ S, c.is_complementary = true → c.set.Sorted (· < ·))
    (hst : sort eliminateSDPSet.comp S = sortByFlag S) :
    eliminateSDPSetWith sort S = eliminateSpec S := by
  unfold eliminateSDPSetWith
  rw [hst]
  exact eliminateSDPSet_eq_spec S hasc

theorem eliminateSDPSetWith_twice (sort : (SDP → SDP → Bool) → SDPSets → SDPSets) (S : SDPSets)
    (hasc : ∀ c ∈ S, c.is_complementary = true → c.set.Sorted (· < ·))
    (hsort1 : IsStdSort eliminateSDPSet.comp S (sort eliminateSDPSet.comp S))
    (hsort2 : IsStdSort eliminateSDPSet.comp (eliminateSDPSetWith sort S)
      (sort eliminateSDPSet.comp (eliminateSDPSetWith sort S))) :
    (∃ N C N2 C2 : SDPSets, eliminateSDPSetWith sort S = N ++ C ∧
      (∀ t ∈ N, t.is_complementary = false) ∧ (∀ t ∈ C, t.is_complementary = true) ∧
      eliminateSDPSetWith sort (eliminateSDPSetWith sort S) = N2 ++ C2 ∧
      N2.Perm N ∧ C2.Perm C) ∧
    (sort eliminateSDPSet.comp (eliminateSDPSetWith sort S) = eliminateSDPSetWith sort S →
      eliminateSDPSetWith sort (eliminateSDPSetWith sort S) = eliminateSDPSetWith sort S) := by
  have hascT : ∀ c ∈ sort eliminateSDPSet.comp S, c.is_complementary = true →
      c.set.Sorted (· < ·) := fun c hc => hasc c (hsort1.1.mem_iff.1 hc)
  have hR1 := (eliminateSDPSetWith_parts sort S hasc hsort1).1
  obtain ⟨N, C, heq, _, hN, hC⟩ := eliminateSpec_parts (sort eliminateSDPSet.comp S)
  have hR1' : eliminateSDPSetWith sort S = N ++ C := hR1.trans heq
  have hascR : ∀ c ∈ eliminateSDPSetWith sort S, c.is_complementary = true →
      c.set.Sorted (· < ·) := by
    rw [hR1']
    intro c hc hcc
    rcases List.mem_append.1 hc with hc | hc
    · rw [hN c hc] at hcc
      exact absurd hcc (by decide)
    · obtain ⟨_, _, _, c0, hc0, hc0c, hsub⟩ := hC c hc
      exact (hascT c0 hc0 hc0c).sublist hsub
  have hfix : eliminateSpec (N ++ C) = N ++ C :=
    eliminateSpec_fixed N C hN (fun c hc => ⟨(hC c hc).1, (hC c hc).2.1, (hC c hc).2.2.1⟩)
  constructor
  · obtain ⟨_, N2, C2, h2, hN2, hC2⟩ := eliminateSDPSetWith_parts sort _ hascR hsort2
    refine ⟨N, C, N2, C2, hR1', hN, fun c hc => (hC c hc).1, h2, ?_, ?_⟩
    · have hk : eliminateSpec.kept (N ++ C) = N :=
        (filter_normal_parts hN (fun c hc => (hC c hc).1)).1
      rw [hR1', hk] at hN2
      exact hN2
    · have hk : eliminateSpec.kept (N ++ C) = N :=
        (filter_normal_parts hN (fun c hc => (hC c hc).1)).1
      have hr : eliminateSpec.reduced (N ++ C) = C := by
        have h := hfix
        rw [eliminateSpec_split, hk] at h
        exact List.append_cancel_left h
      rw [hR1', hr] at hC2
      exact hC2
  · intro hst
    have hsorted : sortByFlag (eliminateSDPSetWith sort S) = eliminateSDPSetWith sort S := by
      have := sortByFlag_of_sorted _ hsort2.2
      rw [hst] at this
      exact this
    have h2 : eliminateSDPSetWith sort (eliminateSDPSetWith sort S) =
        eliminateSpec (eliminateSDPSetWith sort S) :=
      eliminateSDPSetWith_of_stable sort _ hascR (hst.trans hsorted.symm)
    rw [h2, hR1', hfix]

/-- C17 (counterexample). With the `std::sort` of libstdc++, on the list of
`+{1,2}` followed by the sixteen complementary terms `-{3}, ..., -{18}`
(seventeen terms, each strictly ascending, no literal to eliminate) the
embedded `eliminateSDPSet` returns the complementary terms in another order
than the original one: `-{10}` first, then `-{18}` down to `-{11}` and `-{9}`
down to `-{3}`. -/
theorem eliminateSDPSet_libstdcxx_reorders :
    eliminateSDPSetWith std.sort
      [SDP.mk false [1, 2], SDP.mk true [3], SDP.mk true [4], SDP.mk true [5], SDP.mk true [6],
        SDP.mk true [7], SDP.mk true [8], SDP.mk true [9], SDP.mk true [10], SDP.mk true [11],
        SDP.mk true [12], SDP.mk true [13], SDP.mk true [14], SDP.mk true [15], SDP.mk true
        [16], SDP.mk true [17], SDP.mk true [18]] =
      [SDP.mk false [1, 2], SDP.mk true [10], SDP.mk true [18], SDP.mk true [17], SDP.mk true
        [16], SDP.mk true [15], SDP.mk true [14], SDP.mk true [13], SDP.mk true [12], SDP.mk
        true [11], SDP.mk true [9], SDP.mk true [8], SDP.mk true [7], SDP.mk true [6], SDP.mk
        true [5], SDP.mk true [4], SDP.mk true [3]] ∧
    eliminateSpec
      [SDP.mk false [1, 2], SDP.mk true [3], SDP.mk true [4], SDP.mk true [5], SDP.mk true [6],
        SDP.mk true [7], SDP.mk true [8], SDP.mk true [9], SDP.mk true [10], SDP.mk true [11],
        SDP.mk true [12], SDP.mk true [13], SDP.mk true [14], SDP.mk true [15], SDP.mk true
        [16], SDP.mk true [17], SDP.mk true [18]] =
      [SDP.mk false [1, 2], SDP.mk true [3], SDP.mk true [4], SDP.mk true [5], SDP.mk true [6],
        SDP.mk true [7], SDP.mk true [8], SDP.mk true [9], SDP.mk true [10], SDP.mk true [11],
        SDP.mk true [12], SDP.mk true [13], SDP.mk true [14], SDP.mk true [15], SDP.mk true
        [16], SDP.mk true [17], SDP.mk true [18]] ∧
    eliminateSDPSetWith std.sort
      [SDP.mk false [1, 2], SDP.mk true [3], SDP.mk true [4], SDP.mk true [5], SDP.mk true [6],
        SDP.mk true [7], SDP.mk true [8], SDP.mk true [9], SDP.mk true [10], SDP.mk true [11],
        SDP.mk true [12], SDP.mk true [13], SDP.mk true [14], SDP.mk true [15], SDP.mk true
        [16], SDP.mk true [17], SDP.mk true [18]] ≠
      eliminateSpec
        [SDP.mk false [1, 2], SDP.mk true [3], SDP.mk true [4], SDP.mk true [5], SDP.mk true
          [6], SDP.mk true [7], SDP.mk true [8], SDP.mk true [9], SDP.mk true [10], SDP.mk true
          [11], SDP.mk true [12], SDP.mk true [13], SDP.mk true [14], SDP.mk true [15], SDP.mk
          true [16], SDP.mk true [17], SDP.mk true [18]] := by
  decide

/-- C17 (amended). For every SDPList `S` whose complementary terms are strictly
ascending and every outcome of the `std::sort` by flag that the standard
allows, `eliminateSDPSet S` is the non-complementary terms of `S` unchanged,
in some order, followed by the terms `C \ E` of `eliminateSpec S`, in some
order: the two parts of `eliminateSpec S`, each up to a permutation. It is
`eliminateSpec S` itself when the sort leaves terms of the same flag in their
original order. -/
theorem eliminateSDPSet_spec_up_to_ties (sort : (SDP → SDP → Bool) → SDPSets → SDPSets)
    (S : SDPSets) (hasc : ∀ c ∈ S, c.is_complementary = true → c.set.Sorted (· < ·))
    (hsort : IsStdSort eliminateSDPSet.comp S (sort eliminateSDPSet.comp S)) :
    (∃ N C : SDPSets, eliminateSDPSetWith sort S = N ++ C ∧
      N.Perm (eliminateSpec.kept S) ∧ C.Perm (eliminateSpec.reduced S)) ∧
    eliminateSpec S = eliminateSpec.kept S ++ eliminateSpec.reduced S ∧
    (sort eliminateSDPSet.comp S = sortByFlag S → eliminateSDPSetWith sort S = eliminateSpec S) :=
  ⟨(eliminateSDPSetWith_parts sort S hasc hsort).2, rfl,
    eliminateSDPSetWith_of_stable sort S hasc⟩

theorem eliminateSDPSet_spec_up_to_ties_witness :
    eliminateSDPSetWith std.sort [SDP.mk false [2, 3, 1, 4, 6], SDP.mk true [3, 4, 5]] =
      [SDP.mk false [2, 3, 1, 4, 6], SDP.mk true [5]] ∧
    ((∃ N C : SDPSets,
      eliminateSDPSetWith std.sort
        [SDP.mk false [1, 2], SDP.mk true [3], SDP.mk true [4], SDP.mk true [5], SDP.mk true
          [6], SDP.mk true [7], SDP.mk true [8], SDP.mk true [9], SDP.mk true [10], SDP.mk true
          [11], SDP.mk true [12], SDP.mk true [13], SDP.mk true [14], SDP.mk true [15], SDP.mk
          true [16], SDP.mk true [17], SDP.mk true [18]] = N ++ C ∧
      N.Perm (eliminateSpec.kept
        [SDP.mk false [1, 2], SDP.mk true [3], SDP.mk true [4], SDP.mk true [5], SDP.mk true
          [6], SDP.mk true [7], SDP.mk true [8], SDP.mk true [9], SDP.mk true [10], SDP.mk true
          [11], SDP.mk true [12], SDP.mk true [13], SDP.mk true [14], SDP.mk true [15], SDP.mk
          true [16], SDP.mk true [17], SDP.mk true [18]]) ∧
      C.Perm (eliminateSpec.reduced
        [SDP.mk false [1, 2], SDP.mk true [3], SDP.mk true [4], SDP.mk true [5], SDP.mk true
          [6], SDP.mk true [7], SDP.mk true [8], SDP.mk true [9], SDP.mk true [10], SDP.mk true
          [11], SDP.mk true [12], SDP.mk true [13], SDP.mk true [14], SDP.mk true [15], SDP.mk
          true [16], SDP.mk true [17], SDP.mk true [18]])) ∧
    eliminateSpec
      [SDP.mk false [1, 2], SDP.mk true [3], SDP.mk true [4], SDP.mk true [5], SDP.mk true [6],
        SDP.mk true [7], SDP.mk true [8], SDP.mk true [9], SDP.mk true [10], SDP.mk true [11],
        SDP.mk true [12], SDP.mk true [13], SDP.mk true [14], SDP.mk true [15], SDP.mk true
        [16], SDP.mk true [17], SDP.mk true [18]] =
      eliminateSpec.kept
        [SDP.mk false [1, 2], SDP.mk true [3], SDP.mk true [4], SDP.mk true [5], SDP.mk true
          [6], SDP.mk true [7], SDP.mk true [8], SDP.mk true [9], SDP.mk true [10], SDP.mk true
          [11], SDP.mk true [12], SDP.mk true [13], SDP.mk true [14], SDP.mk true [15], SDP.mk
          true [16], SDP.mk true [17], SDP.mk true [18]] ++
      eliminateSpec.reduced
        [SDP.mk false [1, 2], SDP.mk true [3], SDP.mk true [4], SDP.mk true [5], SDP.mk true
          [6], SDP.mk true [7], SDP.mk true [8], SDP.mk true [9], SDP.mk true [10], SDP.mk true
          [11], SDP.mk true [12], SDP.mk true [13], SDP.mk true [14], SDP.mk true [15], SDP.mk
          true [16], SDP.mk true [17], SDP.mk true [18]] ∧
    (std.sort eliminateSDPSet.comp
        [SDP.mk false [1, 2], SDP.mk true [3], SDP.mk true [4], SDP.mk true [5], SDP.mk true
          [6], SDP.mk true [7], SDP.mk true [8], SDP.mk true [9], SDP.mk true [10], SDP.mk true
          [11], SDP.mk true [12], SDP.mk true [13], SDP.mk true [14], SDP.mk true [15], SDP.mk
          true [16], SDP.mk true [17], SDP.mk true [18]] =
      sortByFlag
        [SDP.mk false [1, 2], SDP.mk true [3], SDP.mk true [4], SDP.mk true [5], SDP.mk true
          [6], SDP.mk true [7], SDP.mk true [8], SDP.mk true [9], SDP.mk true [10], SDP.mk true
          [11], SDP.mk true [12], SDP.mk true [13], SDP.mk true [14], SDP.mk true [15], SDP.mk
          true [16], SDP.mk true [17], SDP.mk true [18]] →
      eliminateSDPSetWith std.sort
        [SDP.mk false [1, 2], SDP.mk true [3], SDP.mk true [4], SDP.mk true [5], SDP.mk true
          [6], SDP.mk true [7], SDP.mk true [8], SDP.mk true [9], SDP.mk true [10], SDP.mk true
          [11], SDP.mk true [12], SDP.mk true [13], SDP.mk true [14], SDP.mk true [15], SDP.mk
          true [16], SDP.mk true [17], SDP.mk true [18]] =
      eliminateSpec
        [SDP.mk false [1, 2], SDP.mk true [3], SDP.mk true [4], SDP.mk true [5], SDP.mk true
          [6], SDP.mk true [7], SDP.mk true [8], SDP.mk true [9], SDP.mk true [10], SDP.mk true
          [11], SDP.mk true [12], SDP.mk true [13], SDP.mk true [14], SDP.mk true [15], SDP.mk
          true [16], SDP.mk true [17], SDP.mk true [18]])) :=
  ⟨by decide, eliminateSDPSet_spec_up_to_ties std.sort _ (by decide) (by decide)⟩

/-- C18 (counterexample). With the `std::sort` of libstdc++, on the list of
`+{1,2}` followed by `-{3}, ..., -{18}` eliminating twice does not give the
list obtained by eliminating once: the second `std::sort` permutes the
sixteen complementary terms again. -/
theorem eliminateSDPSet_libstdcxx_twice_differs :
    eliminateSDPSetWith std.sort
      [SDP.mk false [1, 2], SDP.mk true [3], SDP.mk true [4], SDP.mk true [5], SDP.mk true [6],
        SDP.mk true [7], SDP.mk true [8], SDP.mk true [9], SDP.mk true [10], SDP.mk true [11],
        SDP.mk true [12], SDP.mk true [13], SDP.mk true [14], SDP.mk true [15], SDP.mk true
        [16], SDP.mk true [17], SDP.mk true [18]] =
      [SDP.mk false [1, 2], SDP.mk true [10], SDP.mk true [18], SDP.mk true [17], SDP.mk true
        [16], SDP.mk true [15], SDP.mk true [14], SDP.mk true [13], SDP.mk true [12], SDP.mk
        true [11], SDP.mk true [9], SDP.mk true [8], SDP.mk true [7], SDP.mk true [6], SDP.mk
        true [5], SDP.mk true [4], SDP.mk true [3]] ∧
    eliminateSDPSetWith std.sort (eliminateSDPSetWith std.sort
      [SDP.mk false [1, 2], SDP.mk true [3], SDP.mk true [4], SDP.mk true [5], SDP.mk true [6],
        SDP.mk true [7], SDP.mk true [8], SDP.mk true [9], SDP.mk true [10], SDP.mk true [11],
        SDP.mk true [12], SDP.mk true [13], SDP.mk true [14], SDP.mk true [15], SDP.mk true
        [16], SDP.mk true [17], SDP.mk true [18]]) =
      [SDP.mk false [1, 2], SDP.mk true [12], SDP.mk true [3], SDP.mk true [4], SDP.mk true [5],
        SDP.mk true [6], SDP.mk true [7], SDP.mk true [8], SDP.mk true [9], SDP.mk true [11],
        SDP.mk true [13], SDP.mk true [14], SDP.mk true [15], SDP.mk true [16], SDP.mk true
        [17], SDP.mk true [18], SDP.mk true [10]] ∧
    eliminateSDPSetWith std.sort (eliminateSDPSetWith std.sort
      [SDP.mk false [1, 2], SDP.mk true [3], SDP.mk true [4], SDP.mk true [5], SDP.mk true [6],
        SDP.mk true [7], SDP.mk true [8], SDP.mk true [9], SDP.mk true [10], SDP.mk true [11],
        SDP.mk true [12], SDP.mk true [13], SDP.mk true [14], SDP.mk true [15], SDP.mk true
        [16], SDP.mk true [17], SDP.mk true [18]]) ≠
      eliminateSDPSetWith std.sort
        [SDP.mk false [1, 2], SDP.mk true [3], SDP.mk true [4], SDP.mk true [5], SDP.mk true
          [6], SDP.mk true [7], SDP.mk true [8], SDP.mk true [9], SDP.mk true [10], SDP.mk true
          [11], SDP.mk true [12], SDP.mk true [13], SDP.mk true [14], SDP.mk true [15], SDP.mk
          true [16], SDP.mk true [17], SDP.mk true [18]] := by
  decide

/-- C18 (amended). For every SDPList `S` whose complementary terms are strictly
ascending and every outcome of the two `std::sort` calls that the standard
allows, eliminating twice gives the list obtained by eliminating once up to
the order of the terms of the same flag: both lists are non-complementary
terms followed by complementary terms, and each part of the one is a
permutation of the same part of the other. The two lists are equal when the
second sort leaves its input, which is sorted already, as it is. -/
theorem eliminateSDPSet_twice_up_to_ties (sort : (SDP → SDP → Bool) → SDPSets → SDPSets)
    (S : SDPSets) (hasc : ∀ c ∈ S, c.is_complementary = true → c.set.Sorted (· < ·))
    (hsort1 : IsStdSort eliminateSDPSet.comp S (sort eliminateSDPSet.comp S))
    (hsort2 : IsStdSort eliminateSDPSet.comp (eliminateSDPSetWith sort S)
      (sort eliminateSDPSet.comp (eliminateSDPSetWith sort S))) :
    (∃ N C N2 C2 : SDPSets, eliminateSDPSetWith sort S = N ++ C ∧
      (∀ t ∈ N, t.is_complementary = false) ∧ (∀ t ∈ C, t.is_complementary = true) ∧
      eliminateSDPSetWith sort (eliminateSDPSetWith sort S) = N2 ++ C2 ∧
      N2.Perm N ∧ C2.Perm C) ∧
    (sort eliminateSDPSet.comp (eliminateSDPSetWith sort S) = eliminateSDPSetWith sort S →
      eliminateSDPSetWith sort (eliminateSDPSetWith sort S) = eliminateSDPSetWith sort S) :=
  eliminateSDPSetWith_twice sort S hasc hsort1 hsort2

theorem eliminateSDPSet_twice_up_to_ties_witness :
    eliminateSDPSetWith std.sort (eliminateSDPSetWith std.sort
      [SDP.mk true [3, 4, 5], SDP.mk false [4, 1], SDP.mk true [1, 4], SDP.mk false [7]]) =
      [SDP.mk false [4, 1], SDP.mk false [7], SDP.mk true [3, 5]] ∧
    ((∃ N C N2 C2 : SDPSets,
      eliminateSDPSetWith std.sort
        [SDP.mk false [1, 2], SDP.mk true [3], SDP.mk true [4], SDP.mk true [5], SDP.mk true
          [6], SDP.mk true [7], SDP.mk true [8], SDP.mk true [9], SDP.mk true [10], SDP.mk true
          [11], SDP.mk true [12], SDP.mk true [13], SDP.mk true [14], SDP.mk true [15], SDP.mk
          true [16], SDP.mk true [17], SDP.mk true [18]] = N ++ C ∧
      (∀ t ∈ N, t.is_complementary = false) ∧ (∀ t ∈ C, t.is_complementary = true) ∧
      eliminateSDPSetWith std.sort (eliminateSDPSetWith std.sort
        [SDP.mk false [1, 2], SDP.mk true [3], SDP.mk true [4], SDP.mk true [5], SDP.mk true
          [6], SDP.mk true [7], SDP.mk true [8], SDP.mk true [9], SDP.mk true [10], SDP.mk true
          [11], SDP.mk true [12], SDP.mk true [13], SDP.mk true [14], SDP.mk true [15], SDP.mk
          true [16], SDP.mk true [17], SDP.mk true [18]]) = N2 ++ C2 ∧
      N2.Perm N ∧ C2.Perm C) ∧
    (std.sort eliminateSDPSet.comp (eliminateSDPSetWith std.sort
        [SDP.mk false [1, 2], SDP.mk true [3], SDP.mk true [4], SDP.mk true [5], SDP.mk true
          [6], SDP.mk true [7], SDP.mk true [8], SDP.mk true [9], SDP.mk true [10], SDP.mk true
          [11], SDP.mk true [12], SDP.mk true [13], SDP.mk true [14], SDP.mk true [15], SDP.mk
          true [16], SDP.mk true [17], SDP.mk true [18]]) =
      eliminateSDPSetWith std.sort
        [SDP.mk false [1, 2], SDP.mk true [3], SDP.mk true [4], SDP.mk true [5], SDP.mk true
          [6], SDP.mk true [7], SDP.mk true [8], SDP.mk true [9], SDP.mk true [10], SDP.mk true
          [11], SDP.mk true [12], SDP.mk true [13], SDP.mk true [14], SDP.mk true [15], SDP.mk
          true [16], SDP.mk true [17], SDP.mk true [18]] →
      eliminateSDPSetWith std.sort (eliminateSDPSetWith std.sort
        [SDP.mk false [1, 2], SDP.mk true [3], SDP.mk true [4], SDP.mk true [5], SDP.mk true
          [6], SDP.mk true [7], SDP.mk true [8], SDP.mk true [9], SDP.mk true [10], SDP.mk true
          [11], SDP.mk true [12], SDP.mk true [13], SDP.mk true [14], SDP.mk true [15], SDP.mk
          true [16], SDP.mk true [17], SDP.mk true [18]]) =
      eliminateSDPSetWith std.sort
        [SDP.mk false [1, 2], SDP.mk true [3], SDP.mk true [4], SDP.mk true [5], SDP.mk true
          [6], SDP.mk true [7], SDP.mk true [8], SDP.mk true [9], SDP.mk true [10], SDP.mk true
          [11], SDP.mk true [12], SDP.mk true [13], SDP.mk true [14], SDP.mk true [15], SDP.mk
          true [16], SDP.mk true [17], SDP.mk true [18]])) :=
  ⟨by decide, eliminateSDPSet_twice_up_to_ties std.sort _ (by decide) (by decide) (by decide)⟩

/-! ### The order of `sortPathSet` whatever `std::sort` does with indices of equal count -/

theorem placeClassWith_eq (sort : (Nat → Nat → Bool) → List Nat → List Nat)
    (hsort : ∀ counts l, IsStdSort (sortPathSet.indexLess counts) l
      (sort (sortPathSet.indexLess counts) l)) (S cls : PathSets) :
    ∃ X : PathSets, sortPathSet.placeClassWith sort S cls = S ++ X ∧ X.Perm cls ∧
      X.Pairwise (fun a b => sortPathSet.maxCommon S a ≤ sortPathSet.maxCommon S b) := by
  obtain ⟨hperm, hsorted⟩ := hsort (cls.map (sortPathSet.maxCommon S)) (List.range cls.length)
  refine ⟨_, rfl, ?_, ?_⟩
  · have h := hperm.map (fun idx => cls.getD idx [])
    rw [range_map_getD] at h
    exact h
  · rw [List.pairwise_map]
    apply hsorted.imp_of_mem
    intro a b ha hb hab
    have ha' : a < cls.length := List.mem_range.1 (hperm.mem_iff.1 ha)
    have hb' : b < cls.length := List.mem_range.1 (hperm.mem_iff.1 hb)
    have hca : (cls.map (sortPathSet.maxCommon S)).getD a 0 =
        sortPathSet.maxCommon S (cls.getD a []) := by
      rw [List.getD_eq_getElem _ _ (by simpa using ha'), List.getD_eq_getElem _ _ ha']
      simp
    have hcb : (cls.map (sortPathSet.maxCommon S)).getD b 0 =
        sortPathSet.maxCommon S (cls.getD b []) := by
      rw [List.getD_eq_getElem _ _ (by simpa using hb'), List.getD_eq_getElem _ _ hb']
      simp
    unfold sortPathSet.indexLess at hab
    rw [hca, hcb] at hab
    simpa using hab

theorem isStdSort_int_unique (l out : List Int)
    (h : IsStdSort (fun a b : Int => decide (a < b)) l out) : out = sortInts l := by
  apply List.eq_of_perm_of_sorted (h.1.trans (sortInts_perm l).symm) _ (sortInts_sorted l)
  apply List.Pairwise.imp _ h.2
  intro a b hab
  simpa using hab

theorem isStdSort_sizeLex_unique (X out : PathSets) (h : IsStdSort sortPathSet.less X out) :
    out = X.insertionSort (fun a b => sortPathSet.less b a = false) :=
  @List.eq_of_perm_of_sorted _ (fun a b => sortPathSet.less b a = false) ⟨sizeLex_antisymm⟩ _ _
    (h.1.trans (List.perm_insertionSort _ X).symm) h.2 (sizeLex_sorted X)

theorem sublist_eq_of_subset_nodup {α : Type} {l1 l2 : List α} (hsub : l1.Sublist l2)
    (hnd : l2.Nodup) (hmem : ∀ x ∈ l2, x ∈ l1) : l1 = l2 := by
  apply hsub.eq_of_length_le
  exact (List.subperm_of_subset hnd hmem).length_le

theorem absorbSDPSet_keeps_normal (S : SDPSets)
    (hN : (S.filter (fun t => !t.is_complementary)).Pairwise (fun a b =>
      ¬ (∀ x ∈ a.set, x ∈ b.set) ∧ ¬ (∀ x ∈ b.set, x ∈ a.set))) :
    (absorbSDPSet S).filter (fun t => !t.is_complementary) =
      S.filter (fun t => !t.is_complementary) := by
  have hsym : Symmetric (fun a b : SDP =>
      ¬ (∀ x ∈ a.set, x ∈ b.set) ∧ ¬ (∀ x ∈ b.set, x ∈ a.set)) := fun a b h => ⟨h.2, h.1⟩
  apply sublist_eq_of_subset_nodup ((absorbSDPSet_sublist S).filter _)
  · apply hN.imp
    intro a b hab heq
    exact hab.1 (fun x hx => by rw [← heq]; exact hx)
  · intro x hx
    obtain ⟨hxS, hxc⟩ := List.mem_filter.1 hx
    obtain ⟨y, hy, hd⟩ := absorbSDPSet_covers S x hxS
    have hyS := (absorbSDPSet_sublist S).subset hy
    have hyc : (!y.is_complementary) = true := by
      rw [hd.1]
      exact hxc
    have hyx : y = x := by
      by_contra hne
      exact (List.Pairwise.forall hsym hN (List.mem_filter.2 ⟨hyS, hyc⟩) hx hne).1 hd.2
    rw [← hyx]
    exact List.mem_filter.2 ⟨hy, hyc⟩

/-- C21 (amended). `absorbSDPSet` absorbs within each complementarity: for
every SDPList `S` in which no non-complementary term has its literal set
contained in (or equal to) that of a non-complementary term at another
position, the non-complementary terms of `absorbSDPSet S` are exactly the
non-complementary terms of `S`, in the same order. -/
theorem absorbSDPSet_keeps_noncomplementary (S : SDPSets)
    (hN : (S.filter (fun t => !t.is_complementary)).Pairwise (fun a b =>
      ¬ (∀ x ∈ a.set, x ∈ b.set) ∧ ¬ (∀ x ∈ b.set, x ∈ a.set))) :
    (absorbSDPSet S).filter (fun t => !t.is_complementary) =
      S.filter (fun t => !t.is_complementary) :=
  absorbSDPSet_keeps_normal S hN

theorem absorbSDPSet_keeps_noncomplementary_witness :
    absorbSDPSet [SDP.mk true [1, 2, 3], SDP.mk false [4, 5], SDP.mk true [1, 2],
        SDP.mk false [5, 6], SDP.mk true [4, 5, 6]] =
      [SDP.mk false [4, 5], SDP.mk true [1, 2], SDP.mk false [5, 6], SDP.mk true [4, 5, 6]] ∧
    (absorbSDPSet [SDP.mk true [1, 2, 3], SDP.mk false [4, 5], SDP.mk true [1, 2],
        SDP.mk false [5, 6], SDP.mk true [4, 5, 6]]).filter (fun t => !t.is_complementary) =
      [SDP.mk true [1, 2, 3], SDP.mk false [4, 5], SDP.mk true [1, 2],
        SDP.mk false [5, 6], SDP.mk true [4, 5, 6]].filter (fun t => !t.is_complementary) :=
  ⟨by decide, absorbSDPSet_keeps_noncomplementary _ (by decide)⟩

/-! ### The parametrised embeddings against the stable ones

Whatever `std::sort` does with equivalent elements, the vectors returned
differ from those of the stable embeddings by a permutation only. -/

theorem eliminateSDPSetWith_perm (sort : (SDP → SDP → Bool) → SDPSets → SDPSets) (S : SDPSets)
    (hasc : ∀ c ∈ S, c.is_complementary = true → c.set.Sorted (· < ·))
    (hsort : IsStdSort eliminateSDPSet.comp S (sort eliminateSDPSet.comp S)) :
    (eliminateSDPSetWith sort S).Perm (eliminateSDPSet S) := by
  obtain ⟨_, N, C, heq, hN, hC⟩ := eliminateSDPSetWith_parts sort S hasc hsort
  rw [heq, eliminateSDPSet_eq_spec S hasc, eliminateSpec_split]
  exact hN.append hC

theorem placeClassWith_perm (sort : (Nat → Nat → Bool) → List Nat → List Nat)
    (hsort : ∀ counts l, IsStdSort (sortPathSet.indexLess counts) l
      (sort (sortPathSet.indexLess counts) l)) (sorted cls : PathSets) :
    (sortPathSet.placeClassWith sort sorted cls).Perm (sorted ++ cls) := by
  obtain ⟨X, hX, hperm, _⟩ := placeClassWith_eq sort hsort sorted cls
  rw [hX]
  exact List.Perm.append_left _ hperm

theorem placeClassWith_foldl_perm (sort : (Nat → Nat → Bool) → List Nat → List Nat)
    (hsort : ∀ counts l, IsStdSort (sortPathSet.indexLess counts) l
      (sort (sortPathSet.indexLess counts) l)) (others : List (Nat × PathSets))
    (sorted : PathSets) :
    (others.foldl (fun sorted entry => sortPathSet.placeClassWith sort sorted entry.2)
      sorted).Perm (sorted ++ others.flatMap (fun e => e.2)) := by
  induction others generalizing sorted with
  | nil => simp
  | cons e others ih =>
    rw [List.foldl_cons, List.flatMap_cons, ← List.append_assoc]
    exact (ih _).trans (List.Perm.append_right _ (placeClassWith_perm sort hsort sorted e.2))

theorem sortPathSetWith_perm (sort : (Nat → Nat → Bool) → List Nat → List Nat)
    (hsort : ∀ counts l, IsStdSort (sortPathSet.indexLess counts) l
      (sort (sortPathSet.indexLess counts) l)) (L : PathSets) :
    (sortPathSetWith sort L).Perm (sortPathSet L) := by
  refine List.Perm.trans ?_ (sortPathSet_perm L).symm
  unfold sortPathSetWith
  by_cases hL : L.isEmpty = true
  · rw [if_pos hL]
    have : L = [] := by simpa using hL
    simp [this]
  · rw [if_neg hL]
    simp only
    have h1 := mapPush_foldl_flatMap
      ((L.map sortInts).insertionSort (fun a b => sortPathSet.less b a = false)) []
    have h2 := List.perm_insertionSort (fun a b => sortPathSet.less b a = false)
      (L.map sortInts)
    simp only [List.flatMap_nil, List.nil_append] at h1
    have h3 := h1.trans h2
    generalize ((L.map sortInts).insertionSort (fun a b => sortPathSet.less b a = false)).foldl
      (fun m set => sortPathSet.mapPush m set.length set) [] = m at h3 ⊢
    cases m with
    | nil => simpa using h3
    | cons first others =>
      simp only
      exact (placeClassWith_foldl_perm sort hsort others first.2).trans (by simpa using h3)

end pyrbdpp
